import Mathlib

set_option maxRecDepth 4000

/- Shallow embedding of the modelgen generator (src/unnamed/part_000): the ADT
   schema parser, the type-reference graph, the cycle-breaking stage, the
   conversion-path inference and the cast emitter, together with proofs about
   the claims of the specification. -/

namespace Modelgen

/-! ### Character and string utilities mirroring the JS primitives -/

/-- Decimal digit character for a value 0..9 (JS number-to-string building block). -/
def digitChar : Nat → Char
  | 0 => '0'
  | 1 => '1'
  | 2 => '2'
  | 3 => '3'
  | 4 => '4'
  | 5 => '5'
  | 6 => '6'
  | 7 => '7'
  | 8 => '8'
  | 9 => '9'
  | _ => '*'

/-- Numeric value of a decimal digit character; 10 marks a non-digit. -/
def digitVal (c : Char) : Nat :=
  if c = '0' then 0 else if c = '1' then 1 else if c = '2' then 2
  else if c = '3' then 3 else if c = '4' then 4 else if c = '5' then 5
  else if c = '6' then 6 else if c = '7' then 7 else if c = '8' then 8
  else if c = '9' then 9 else 10

/-- Decimal digit test used by the embedded parseInt. -/
def isDigitCh (c : Char) : Bool := digitVal c < 10

/-- Decimal digit list of a natural number, most significant first, with
    explicit fuel (any fuel above the digit count agrees). -/
def natDigitsF : Nat → Nat → List Char
  | 0, _ => []
  | fuel + 1, n =>
    if n < 10 then [digitChar n]
    else natDigitsF fuel (n / 10) ++ [digitChar (n % 10)]

/-- JS decimal rendering of a natural number (the template interpolation of a
    number). -/
def natStr (n : Nat) : String := ⟨natDigitsF (n + 1) n⟩

/-- Value of a digit list, most significant first. -/
def digitsToNat (ds : List Char) : Nat := ds.foldl (fun a c => a * 10 + digitVal c) 0

/-- JS parseInt with radix 10 on the label alphabet: reads the leading run of
    decimal digits; `none` models NaN. -/
def jsParseInt (s : String) : Option Nat :=
  let ds := s.data.takeWhile isDigitCh
  if ds.isEmpty then none else some (digitsToNat ds)

/-- Splitting worker: emits the chunks of a character list around a non-empty
    separator, like JS String.prototype.split; fuel bounds the steps and any
    fuel at least the list length agrees. -/
def splitAux (sep : List Char) : Nat → List Char → List Char → List (List Char)
  | _, [], acc => [acc.reverse]
  | 0, l, acc => [acc.reverse ++ l]
  | fuel + 1, c :: rest, acc =>
    if sep.isPrefixOf (c :: rest) then
      acc.reverse :: splitAux sep fuel (rest.drop (sep.length - 1)) []
    else
      splitAux sep fuel rest (c :: acc)

/-- JS String.prototype.split with a non-empty separator. -/
def jsSplit (s sep : String) : List String :=
  (splitAux sep.data s.data.length s.data []).map fun l => ⟨l⟩

/-- JS String.prototype.includes. -/
def hasSub (s sub : String) : Bool := (jsSplit s sub).length != 1

/-- JS String.prototype.startsWith. -/
def jsStarts (s p : String) : Bool := p.data.isPrefixOf s.data

/-- JS String.prototype.endsWith. -/
def jsEnds (s p : String) : Bool := p.data.reverse.isPrefixOf s.data.reverse

/-- JS substring(1): drop the first character. -/
def jsDropFirst (s : String) : String := ⟨s.data.drop 1⟩

/-- JS substring(0, length-1): drop the last character. -/
def jsDropLast (s : String) : String := ⟨s.data.dropLast⟩

/-- JS object assignment `o[k] = v`: overwrite in place when the key exists,
    append otherwise. -/
def jsObjInsert {α : Type} (l : List (String × α)) (k : String) (v : α) :
    List (String × α) :=
  match l with
  | [] => [(k, v)]
  | (k0, v0) :: rest =>
    if k0 = k then (k, v) :: rest else (k0, v0) :: jsObjInsert rest k v

/-- JS object read `o[k]`. -/
def jsObjGet {α : Type} (l : List (String × α)) (k : String) : Option α :=
  match l with
  | [] => none
  | (k0, v0) :: rest => if k0 = k then some v0 else jsObjGet rest k

/-! ### Data model: TypeSpec and the three top-level spec kinds -/

/-- TypeSpec from the source. The `type` field is null, a type-name string, or
    a nested TypeSpec (arrays). The constructor sets isBoxed=false and
    isSized=true; flag order: isArray, isOptional, isBoxed, isSized. -/
inductive TypeSpec : Type where
  | tnul (isArray isOptional isBoxed isSized : Bool)
  | tname (target : String) (isArray isOptional isBoxed isSized : Bool)
  | tnest (inner : TypeSpec) (isArray isOptional isBoxed isSized : Bool)
  deriving DecidableEq, Repr

def TypeSpec.isArray : TypeSpec → Bool
  | .tnul a _ _ _ => a
  | .tname _ a _ _ _ => a
  | .tnest _ a _ _ _ => a

def TypeSpec.isOptional : TypeSpec → Bool
  | .tnul _ o _ _ => o
  | .tname _ _ o _ _ => o
  | .tnest _ _ o _ _ => o

def TypeSpec.isBoxed : TypeSpec → Bool
  | .tnul _ _ b _ => b
  | .tname _ _ _ b _ => b
  | .tnest _ _ _ b _ => b

def TypeSpec.isSized : TypeSpec → Bool
  | .tnul _ _ _ z => z
  | .tname _ _ _ _ z => z
  | .tnest _ _ _ _ z => z

/-- The `type` field when it holds a string. -/
def TypeSpec.targetName : TypeSpec → Option String
  | .tname s _ _ _ _ => some s
  | _ => none

/-- The in-place mutation `spec.isBoxed = true`. -/
def TypeSpec.setBoxed : TypeSpec → TypeSpec
  | .tnul a o _ z => .tnul a o true z
  | .tname s a o _ z => .tname s a o true z
  | .tnest t a o _ z => .tnest t a o true z

/-- The in-place mutation `spec.isSized = false`. -/
def TypeSpec.setUnsized : TypeSpec → TypeSpec
  | .tnul a o b _ => .tnul a o b false
  | .tname s a o b _ => .tname s a o b false
  | .tnest t a o b _ => .tnest t a o b false

/-- A parsed top-level spec: TupleStructSpec, StructSpec or EnumSpec. A case
    of an enum is its CaseSpec operand list. -/
inductive TopLevelSpec : Type where
  | tupleStruct (name : String) (operands : List TypeSpec)
  | structSpec (name : String) (fields : List (String × TypeSpec))
  | enumSpec (name : String) (cases : List (String × List TypeSpec))
  deriving DecidableEq, Repr

def TopLevelSpec.name : TopLevelSpec → String
  | .tupleStruct n _ => n
  | .structSpec n _ => n
  | .enumSpec n _ => n

/-! ### Raw schema values and the parser (S1) -/

/-- The YAML-decoded JS value shapes the parser dispatches on. -/
inductive RawVal : Type where
  | vstr (s : String)
  | varr (xs : List RawVal)
  | vobj (entries : List (String × RawVal))
  | vnum
  | vbool
  | vnull

/-- AstParser.parseType: an empty array is the unit sentinel, a one-element
    array is an array of its element, longer arrays throw; a string is scanned
    for the `~` box marker and the `?` optional marker; everything else throws. -/
def parseType : RawVal → Except String TypeSpec
  | .varr [] => .ok (.tnul false false false true)
  | .varr [x] => do
    let inner ← parseType x
    .ok (.tnest inner true false false true)
  | .varr (_ :: _ :: _) => .error "tuple not supported in this position"
  | .vstr s =>
    let isOpt := jsEnds s "?"
    let isBox := jsStarts s "~"
    let n1 := if isBox then jsDropFirst s else s
    let n2 := if isOpt then jsDropLast n1 else n1
    .ok (.tname n2 false isOpt isBox true)
  | _ => .error "no"

/-- AstParser.parseStruct: each field value is parseType'd and stored under the
    field name. -/
def parseStructFields (fields : List (String × RawVal)) :
    Except String (List (String × TypeSpec)) :=
  fields.foldlM (fun acc fv => do
    let t ← parseType fv.2
    pure (jsObjInsert acc fv.1 t)) []

/-- AstParser.parseEnumValueArray: empty list is a unit case, one element is a
    single array operand (parseType is applied to the whole one-element array),
    more elements give one operand each. -/
def parseEnumValueArray (array : List RawVal) : Except String (List TypeSpec) :=
  match array with
  | [] => .ok []
  | [x] => do
    let t ← parseType (.varr [x])
    .ok [t]
  | xs => xs.mapM parseType

/-- One alternative of AstParser.parseEnum: a string is a self-named case with
    a same-named payload; a mapping contributes only its first entry; other
    shapes throw. -/
def parseEnumStep (cases : List (String × List TypeSpec)) (value : RawVal) :
    Except String (List (String × List TypeSpec)) :=
  match value with
  | .vstr v => do
    let t ← parseType (.vstr v)
    .ok (jsObjInsert cases v [t])
  | .vobj entries =>
    match entries with
    | [] => .error "undefined is not iterable"
    | (key, innerTypeObj) :: _ =>
      match innerTypeObj with
      | .vstr s => do
        let t ← parseType (.vstr s)
        .ok (jsObjInsert cases key [t])
      | .varr xs => do
        let ops ← parseEnumValueArray xs
        .ok (jsObjInsert cases key ops)
      | _ => .error "Unknown type"
  | _ => .error "Unhandled JS type"

/-- AstParser.parseEnum over all alternatives. -/
def parseEnum (enumName : String) (enumValues : List RawVal) :
    Except String TopLevelSpec := do
  let cases ← enumValues.foldlM parseEnumStep []
  .ok (.enumSpec enumName cases)

/-- One entry of AstParser.parse: shape dispatch; unsupported shapes print a
    warning and yield no spec. -/
def parseModelEntry : String × RawVal → Except String (Option TopLevelSpec)
  | (key, .vstr s) => do
    let t ← parseType (.vstr s)
    .ok (some (.tupleStruct key [t]))
  | (key, .vobj fields) => do
    let fs ← parseStructFields fields
    .ok (some (.structSpec key fs))
  | (key, .varr xs) =>
    if xs.length ≤ 1 then do
      let ops ← xs.mapM parseType
      .ok (some (.tupleStruct key ops))
    else do
      let e ← parseEnum key xs
      .ok (some e)
  | (_, _) => .ok none

/-- AstParser.parse: map the top-level entries and filter out the skipped ones. -/
def parseModels (models : List (String × RawVal)) :
    Except String (List TopLevelSpec) := do
  let l ← models.mapM parseModelEntry
  .ok (l.filterMap id)

/-! ### resolveType -/

/-- The non-ignoreWrappers layer of RustGenerator.resolveType: Option, boxed
    array and box wrappers around the resolved inner type. -/
def wrapRust (t : TypeSpec) (inner : String) : String :=
  if t.isOptional then
    if t.isArray then "Option<Box<[" ++ inner ++ "]>>"
    else if t.isBoxed then "Option<Box<" ++ inner ++ ">>"
    else "Option<" ++ inner ++ ">"
  else if t.isArray then "Box<[" ++ inner ++ "]>"
  else if t.isBoxed then "Box<" ++ inner ++ ">"
  else inner

/-- resolveType applied to the `type` field: null is the unit type, a string is
    returned as-is, a nested TypeSpec is resolved with wrappers. -/
def resolveTypeInner : TypeSpec → String
  | .tnul _ _ _ _ => "()"
  | .tname s _ _ _ _ => s
  | .tnest t _ _ _ _ => wrapRust t (resolveTypeInner t)

/-- RustGenerator.resolveType on a TypeSpec argument. -/
def resolveType (t : TypeSpec) (ignoreWrappers : Bool) : String :=
  if ignoreWrappers then resolveTypeInner t else wrapRust t (resolveTypeInner t)

/-! ### The reference graph (S2) -/

/-- A graphlib-style directed graph: nodes in insertion order, successor lists
    in edge insertion order. -/
structure DGraph : Type where
  nodes : List String
  sucs : List (String × List String)
  deriving DecidableEq, Repr

def DGraph.empty : DGraph := ⟨[], []⟩

def DGraph.hasNode (g : DGraph) (v : String) : Bool := g.nodes.contains v

def DGraph.addNode (g : DGraph) (v : String) : DGraph :=
  if g.hasNode v then g else ⟨g.nodes ++ [v], g.sucs ++ [(v, [])]⟩

/-- Record w as a successor of v, deduplicated, preserving insertion order. -/
def addSuc : List (String × List String) → String → String → List (String × List String)
  | [], v, w => [(v, [w])]
  | (u, ws) :: rest, v, w =>
    if u = v then (u, if ws.contains w then ws else ws ++ [w]) :: rest
    else (u, ws) :: addSuc rest v w

/-- graphlib Graph.setEdge: ensure both endpoints exist (v first), add the edge. -/
def DGraph.setEdge (g : DGraph) (v w : String) : DGraph :=
  let g2 := (g.addNode v).addNode w
  ⟨g2.nodes, addSuc g2.sucs v w⟩

def DGraph.successors (g : DGraph) (v : String) : List String :=
  (jsObjGet g.sucs v).getD []

def DGraph.hasEdge (g : DGraph) (v w : String) : Bool := (g.successors v).contains w

/-- The graph-building half of derivePaths: one middle vertex per record field
    and tuple operand position, one middle vertex per sum case labeled with the
    case's operand count; array slots contribute no edges. -/
def graphOfModel (g : DGraph) (a : TopLevelSpec) : DGraph :=
  match a with
  | .structSpec name fields =>
    fields.foldl (fun g kv =>
      if kv.2.isArray then g
      else
        let mid := name ++ "." ++ kv.1
        (g.setEdge name mid).setEdge mid (resolveType kv.2 true)) g
  | .tupleStruct name operands =>
    operands.enum.foldl (fun g it =>
      if it.2.isArray then g
      else
        let mid := name ++ "." ++ natStr it.1
        (g.setEdge name mid).setEdge mid (resolveType it.2 true)) g
  | .enumSpec name cases =>
    (cases.filter (fun kc => kc.2.length ≥ 1)).foldl (fun g kc =>
      kc.2.foldl (fun g operand =>
        if operand.isArray then g
        else
          let mid := name ++ "::" ++ kc.1 ++ "#" ++ natStr kc.2.length
          (g.setEdge name mid).setEdge mid (resolveType operand true)) g) g

def buildGraph (models : List TopLevelSpec) : DGraph :=
  models.foldl graphOfModel DGraph.empty

/-! ### Tarjan SCC enumeration (S3 support) -/

/-- State of the Tarjan walk: next index, node stack (top at the end), index
    and lowlink maps, the on-stack set and the emitted components. -/
structure TarjanSt : Type where
  counter : Nat
  stack : List String
  idxs : List (String × Nat)
  lows : List (String × Nat)
  onStk : List String
  comps : List (List String)
  deriving Repr

def getIdx (st : TarjanSt) (v : String) : Option Nat := jsObjGet st.idxs v

def getLow (st : TarjanSt) (v : String) : Nat := (jsObjGet st.lows v).getD 0

def setLow (st : TarjanSt) (v : String) (n : Nat) : TarjanSt :=
  { st with lows := jsObjInsert st.lows v n }

/-- Pop the stack down to and including v, listing the popped vertices in pop
    order (so the root v comes last). -/
def popCompAux (fuel : Nat) (stack : List String) (v : String) (acc : List String) :
    List String × List String :=
  match fuel with
  | 0 => (acc, stack)
  | fuel + 1 =>
    match stack.getLast? with
    | none => (acc, stack)
    | some w =>
      let stack2 := stack.dropLast
      let acc2 := acc ++ [w]
      if w = v then (acc2, stack2) else popCompAux fuel stack2 v acc2

/-- Modelled from the spec: S3 "runs Tarjan's or Johnson's SCC enumeration over
    the graph from S2". The source delegates to graphlib's alg.findCycles,
    i.e. Tarjan's algorithm; this is its depth-first walk, with components
    collected in stack pop order so each component lists its DFS root last. -/
def tdfs (g : DGraph) : Nat → String → TarjanSt → TarjanSt
  | 0, _, st => st
  | fuel + 1, v, st =>
    let idx := st.counter
    let st1 : TarjanSt :=
      { st with
        counter := idx + 1
        stack := st.stack ++ [v]
        idxs := jsObjInsert st.idxs v idx
        lows := jsObjInsert st.lows v idx
        onStk := v :: st.onStk }
    let st2 := (g.successors v).foldl (fun st w =>
      match getIdx st w with
      | none =>
        let st3 := tdfs g fuel w st
        setLow st3 v (min (getLow st3 v) (getLow st3 w))
      | some wIdx =>
        if st.onStk.contains w then setLow st v (min (getLow st v) wIdx) else st) st1
    if getLow st2 v = (getIdx st2 v).getD 0 then
      let pc := popCompAux st2.stack.length st2.stack v []
      { st2 with
        stack := pc.2
        comps := st2.comps ++ [pc.1]
        onStk := st2.onStk.filter (fun w => !pc.1.contains w) }
    else st2

/-- Modelled from the spec: the SCC enumeration entry point; components of size
    one without a self-loop are dropped, as graphlib's alg.findCycles does. -/
def findCycles (g : DGraph) : List (List String) :=
  let fuel := g.nodes.length + 1
  let st := g.nodes.foldl (fun st v =>
      match getIdx st v with
      | some _ => st
      | none => tdfs g fuel v st)
    ⟨0, [], [], [], [], []⟩
  st.comps.filter (fun c =>
    decide (c.length > 1) ||
      (match c with
       | [w] => g.hasEdge w w
       | _ => false))

/-! ### The cycle-breaking mutation loop (S3) -/

/-- Replace the first model named `parent` using `f`; a missing model is the
    JS crash on a property access of undefined. -/
def updateFirstModel (models : List TopLevelSpec) (parent : String)
    (f : TopLevelSpec → Except String TopLevelSpec) :
    Except String (List TopLevelSpec) :=
  match models with
  | [] => .error "cannot read properties of undefined"
  | m :: rest =>
    if m.name = parent then do
      let m2 ← f m
      .ok (m2 :: rest)
    else do
      let rest2 ← updateFirstModel rest parent f
      .ok (m :: rest2)

/-- Box the operand at `idx` of case `caseName` of the enum named `parent`. -/
def boxEnumOperand (models : List TopLevelSpec) (parent caseName : String)
    (idx : Nat) : Except String (List TopLevelSpec) :=
  updateFirstModel models parent (fun m =>
    match m with
    | .enumSpec n cases =>
      match jsObjGet cases caseName with
      | none => .error "cannot read operands of undefined"
      | some ops =>
        match ops.get? idx with
        | none => .error "cannot set isBoxed of undefined"
        | some op => .ok (.enumSpec n (jsObjInsert cases caseName (ops.set idx op.setBoxed)))
    | _ => .error "cannot read cases of undefined")

/-- The `::` half of the cycle loop: decode `parent::Case#n`, treat the label
    suffix as a 1-based operand index, box that operand. -/
def boxCaseVertex (models : List TopLevelSpec) (v : String) :
    Except String (List TopLevelSpec) :=
  match jsSplit v "::" with
  | parent :: enumValue :: _ =>
    match jsSplit enumValue "#" with
    | enumCase :: rest =>
      match rest.head? with
      | none => .error "cannot index operands with NaN"
      | some idxStr =>
        match jsParseInt idxStr with
        | none => .error "cannot index operands with NaN"
        | some k =>
          if k = 0 then .error "cannot index operands with -1"
          else boxEnumOperand models parent enumCase (k - 1)
    | [] => .error "split"
  | _ => .error "split"

/-- The `.` half of the cycle loop: a numeric suffix is a tuple operand
    position, anything else an ordinary struct field. -/
def boxFieldVertex (models : List TopLevelSpec) (v : String) :
    Except String (List TopLevelSpec) :=
  match jsSplit v "." with
  | parent :: structField :: _ =>
    match jsParseInt structField with
    | some i =>
      updateFirstModel models parent (fun m =>
        match m with
        | .tupleStruct n ops =>
          match ops.get? i with
          | none => .error "cannot set isBoxed of undefined"
          | some op => .ok (.tupleStruct n (ops.set i op.setBoxed))
        | _ => .error "cannot read operands of undefined")
    | none =>
      updateFirstModel models parent (fun m =>
        match m with
        | .structSpec n fields =>
          match jsObjGet fields structField with
          | none => .error "cannot set isBoxed of undefined"
          | some t => .ok (.structSpec n (jsObjInsert fields structField t.setBoxed))
        | _ => .error "cannot read fields of undefined")
  | _ => .error "split"

/-- One component of the cycle-breaking loop of derivePaths: pop the last
    vertex, box the slot of every remaining case-operand vertex, then of every
    remaining field/tuple-operand vertex. -/
def applyCycleList (models : List TopLevelSpec) (cycleList : List String) :
    Except String (List TopLevelSpec) := do
  let popped := cycleList.dropLast
  let models2 ← (popped.filter (fun x => hasSub x "::")).foldlM boxCaseVertex models
  (popped.filter (fun x => hasSub x ".")).foldlM boxFieldVertex models2

/-- The whole cycle-breaking stage over the components found by findCycles. -/
def applyCycles (models : List TopLevelSpec) (cycles : List (List String)) :
    Except String (List TopLevelSpec) :=
  cycles.foldlM applyCycleList models

/-- Parse, build the graph, break cycles: the state of the model after S3. -/
def pipelineS3 (input : List (String × RawVal)) :
    Except String (List TopLevelSpec) := do
  let models ← parseModels input
  applyCycles models (findCycles (buildGraph models))

/-! ### Shortest paths and path post-processing (S4) -/

/-- Distance and predecessor maps of one single-source search. -/
structure BfsRes : Type where
  dist : List (String × Nat)
  pred : List (String × String)
  deriving Repr

/-- Modelled from the spec: S4 "runs all-pairs shortest paths (Dijkstra from
    every type vertex; uniform edge weight 1)" through graphlib's dijkstraAll.
    With uniform weights this is a breadth-first search recording the first
    predecessor of each reached vertex. -/
def bfsStep (g : DGraph) : Nat → List String → BfsRes → BfsRes
  | 0, _, res => res
  | _, [], res => res
  | fuel + 1, u :: queue, res =>
    let du := (jsObjGet res.dist u).getD 0
    let step := (g.successors u).foldl
      (fun (p : BfsRes × List String) w =>
        match jsObjGet p.1.dist w with
        | some _ => p
        | none => (⟨jsObjInsert p.1.dist w (du + 1), jsObjInsert p.1.pred w u⟩, p.2 ++ [w]))
      (res, queue)
    bfsStep g fuel step.2 step.1

/-- Single-source shortest paths from `src`; vertices absent from `dist` model
    graphlib's distance-Infinity entries. -/
def bfsFrom (g : DGraph) (src : String) : BfsRes :=
  bfsStep g (g.nodes.length + 1) [src] ⟨[(src, 0)], []⟩

/-- The predecessor chain walked by derivePaths' reconstruction loop. -/
def predChain (res : BfsRes) : Nat → String → List String
  | 0, _ => []
  | fuel + 1, key =>
    match jsObjGet res.pred key with
    | none => []
    | some p => p :: predChain res fuel p

/-- Path reconstruction from derivePaths: push the target and its predecessor
    chain, drop the final element (the source), reverse. -/
def reconstructPath (res : BfsRes) (key : String) : List String :=
  let path := key :: predChain res (res.pred.length + 1) key
  path.dropLast.reverse

/-- A canonical hop of an inferred path: PathSpec from the source. -/
structure PathSpec : Type where
  enumName : String
  enumCase : String
  typeName : String
  typeSpec : TypeSpec
  deriving DecidableEq, Repr

/-- An entry of the post-processed path: the walk pushes either a PathSpec hop
    or a bare vertex string. -/
inductive PathItem : Type where
  | raw (s : String)
  | hop (p : PathSpec)
  deriving DecidableEq, Repr

def findModel (models : List TopLevelSpec) (n : String) : Option TopLevelSpec :=
  models.find? (fun m => m.name = n)

/-- `this.models.find(...).cases[enumCase].operands[i]` with the JS crashes on
    undefined mapped to errors. -/
def getCaseOperand (models : List TopLevelSpec) (enumName caseName : String)
    (i : Nat) : Except String TypeSpec :=
  match findModel models enumName with
  | none => .error "cannot read cases of undefined"
  | some (.enumSpec _ cases) =>
    match jsObjGet cases caseName with
    | none => .error "cannot read operands of undefined"
    | some ops =>
      match ops.get? i with
      | none => .error "cannot read type of undefined"
      | some t => .ok t
  | some _ => .error "cannot read cases of undefined"

/-- The in-place `type.isSized = false` on the operand `i` of a case; a failed
    lookup leaves the models unchanged (never reached after a successful read). -/
def setOperandUnsized (models : List TopLevelSpec) (enumName caseName : String)
    (i : Nat) : List TopLevelSpec :=
  match models with
  | [] => []
  | m :: rest =>
    if m.name = enumName then
      (match m with
       | .enumSpec n cases =>
         (match jsObjGet cases caseName with
          | some ops =>
            (match ops.get? i with
             | some op => TopLevelSpec.enumSpec n (jsObjInsert cases caseName (ops.set i op.setUnsized))
             | none => m)
          | none => m)
       | _ => m) :: rest
    else m :: setOperandUnsized rest enumName caseName i

/-- State of the path post-processing walk. -/
structure WalkSt : Type where
  models : List TopLevelSpec
  enumKey : Option String
  typeName : String
  newPath : List PathItem
  deriving Repr

/-- One vertex of the post-processing walk of derivePaths: a case-operand
    vertex is remembered; a vertex after one is decoded (rejecting a label
    suffix other than 1 — the arity filter), pairing it into a hop and
    special-casing the str payload by forcing isSized=false and reporting the
    boxed name; other vertices are pushed through. `none` is the walk's
    rejection of the whole path. -/
def processVertex (st : WalkSt) (key : String) : Except String (Option WalkSt) :=
  if hasSub key "::" then
    .ok (some { st with enumKey := some key })
  else
    match st.enumKey with
    | some ek =>
      match jsSplit ek "::" with
      | enumName :: enumValue :: _ =>
        match jsSplit enumValue "#" with
        | enumCase :: rest =>
          match rest.head? with
          | none => .ok none
          | some idxStr =>
            match jsParseInt idxStr with
            | none => .ok none
            | some k =>
              if k ≠ 1 then .ok none
              else do
                let t ← getCaseOperand st.models enumName enumCase 0
                if t.targetName = some "str" then
                  .ok (some
                    { models := setOperandUnsized st.models enumName enumCase 0
                      enumKey := none
                      typeName := "Box<str>"
                      newPath := st.newPath ++ [.hop ⟨enumName, enumCase, "Box<str>", t.setUnsized⟩] })
                else
                  .ok (some
                    { models := st.models
                      enumKey := none
                      typeName := resolveType t true
                      newPath := st.newPath ++ [.hop ⟨enumName, enumCase, resolveType t true, t⟩] })
        | [] => .error "split"
      | _ => .error "split"
    | none =>
      .ok (some { st with newPath := st.newPath ++ [.raw key] })

/-- The post-processing walk over a path; a rejection keeps the mutations made
    before it. -/
def walkPath (st : WalkSt) : List String → Except String (List TopLevelSpec × Option WalkSt)
  | [] => .ok (st.models, some st)
  | key :: rest => do
    match ← processVertex st key with
    | none => .ok (st.models, none)
    | some st2 => walkPath st2 rest

/-- Path post-processing from derivePaths: empty paths and paths ending at a
    case-operand vertex or crossing a field vertex are rejected; otherwise the
    walk collapses the path to hops keyed by the final payload type name. -/
def processPath (models : List TopLevelSpec) (path : List String) :
    Except String (List TopLevelSpec × Option (String × List PathItem)) :=
  match path.getLast? with
  | none => .ok (models, none)
  | some lastV =>
    if hasSub lastV "::" || path.any (fun x => hasSub x ".") then .ok (models, none)
    else do
      let r ← walkPath ⟨models, none, "", []⟩ path
      match r.2 with
      | none => .ok (r.1, none)
      | some st => .ok (st.models, some (st.typeName, st.newPath))

/-- All retained paths out of one source vertex, keyed by payload type name;
    case-operand and field sources are skipped, as are unreachable targets. -/
def pathsFromSource (models : List TopLevelSpec) (g : DGraph) (topKey : String) :
    Except String (List TopLevelSpec × List (String × List PathItem)) :=
  if hasSub topKey "::" || hasSub topKey "." then .ok (models, [])
  else
    let res := bfsFrom g topKey
    g.nodes.foldlM (fun acc key =>
      match jsObjGet res.dist key with
      | none => .ok acc
      | some _ => do
        let pr ← processPath acc.1 (reconstructPath res key)
        match pr.2 with
        | none => .ok (pr.1, acc.2)
        | some (tn, items) => .ok (pr.1, jsObjInsert acc.2 tn items))
      (models, [])

/-- The nested path table of derivePaths. -/
abbrev Paths : Type := List (String × List (String × List PathItem))

/-- The stored hop TypeSpecs alias the operand objects of the model, so after
    the stage they reflect the final mutated state; refresh them from the
    final models. -/
def refreshItem (models : List TopLevelSpec) : PathItem → PathItem
  | .raw s => .raw s
  | .hop p =>
    match getCaseOperand models p.enumName p.enumCase 0 with
    | .ok t => .hop { p with typeSpec := t }
    | .error _ => .hop p

def refreshPaths (models : List TopLevelSpec) (paths : Paths) : Paths :=
  paths.map fun kv => (kv.1, kv.2.map fun kv2 => (kv2.1, kv2.2.map (refreshItem models)))

/-- The whole derivePaths stage: build the graph, break the cycles, run the
    all-pairs search, post-process every candidate path, and assemble the
    nested path table (an empty vertex list is the JS reduce crash). -/
def derivePaths (models : List TopLevelSpec) :
    Except String (List TopLevelSpec × Paths) := do
  let g := buildGraph models
  let models2 ← applyCycles models (findCycles g)
  if g.nodes.isEmpty then .error "reduce of empty array with no initial value"
  else do
    let r ← g.nodes.foldlM (fun (acc : List TopLevelSpec × Paths) topKey => do
        let pr ← pathsFromSource acc.1 g topKey
        let outer := if pr.2.isEmpty then acc.2 else jsObjInsert acc.2 topKey pr.2
        .ok (pr.1, outer))
      (models2, ([] : Paths))
    .ok (r.1, refreshPaths r.1 r.2)

/-- Parse then run the whole derivePaths stage: the state of the model and the
    path table when the emitter starts. -/
def pipeline (input : List (String × RawVal)) :
    Except String (List TopLevelSpec × Paths) := do
  let models ← parseModels input
  derivePaths models

/-! ### Cast emission -/

/-- The injection boxing condition of generateCastFn: boxed, not an array, and
    sized. -/
def boxCond (t : TypeSpec) : Bool := t.isBoxed && !t.isArray && t.isSized

/-- The matched value of one extraction hop: dereference when the preceding
    hop exists and is boxed and the current hop is not an array. -/
def matchValueStr (before : Option PathSpec) (cur : PathSpec) : String :=
  if (match before with
      | some b => b.typeSpec.isBoxed
      | none => false) && !cur.typeSpec.isArray
  then "*value" else "value"

/-- The terminal extraction line when the terminal hop is boxed. -/
def castLineLastBox (cur : PathSpec) (mv : String) : String :=
  "        if let " ++ cur.enumName ++ "::" ++ cur.enumCase ++ "(value) = " ++ mv ++
    " \x7b return Ok(*value) \x7d else \x7b return Err(CastError::new()) \x7d;"

/-- The terminal extraction line otherwise. -/
def castLineLastPlain (cur : PathSpec) (mv : String) : String :=
  "        if let " ++ cur.enumName ++ "::" ++ cur.enumCase ++ "(value) = " ++ mv ++
    " \x7b return Ok(value) \x7d else \x7b return Err(CastError::new()) \x7d;"

/-- A non-terminal extraction line (identical in both boxing branches). -/
def castLineMid (cur : PathSpec) (mv : String) : String :=
  "        let value = if let " ++ cur.enumName ++ "::" ++ cur.enumCase ++
    "(value) = " ++ mv ++ " \x7b value \x7d else \x7b return Err(CastError::new()) \x7d;"

/-- The injection item of one hop: wrap in Box::new exactly under boxCond. -/
def castItem (cur : PathSpec) (value : String) : String :=
  if boxCond cur.typeSpec then
    cur.enumName ++ "::" ++ cur.enumCase ++ "(Box::new(" ++ value ++ "))"
  else
    cur.enumName ++ "::" ++ cur.enumCase ++ "(" ++ value ++ ")"

/-- The extraction line of hop i, as chosen by generateCastFn's loop. -/
def castLineAt (path : List PathSpec) (i : Nat) : String :=
  match path.get? i with
  | none => ""
  | some cur =>
    let before := if i = 0 then none else path.get? (i - 1)
    let mv := matchValueStr before cur
    if i = path.length - 1 then
      if boxCond cur.typeSpec then castLineLastBox cur mv else castLineLastPlain cur mv
    else castLineMid cur mv

/-- generateCastFn's descending loop: collect the extraction lines in path
    order and nest the injection expression from the terminal hop outward. -/
def castLoop (path : List PathSpec) : List String × String :=
  (List.range path.length).reverse.foldl
    (fun (acc : List String × String) i =>
      match path.get? i with
      | none => acc
      | some cur => (castLineAt path i :: acc.1, castItem cur acc.2))
    ([], "value")

/-- The two conversion impls generateCastFn can print. -/
inductive EmittedImpl : Type where
  | tryFromImpl (fromN toN : String) (body : List String)
  | fromImpl (fromN toN : String) (expr : String)
  deriving DecidableEq, Repr

/-- `cur.typeSpec` on a bare string entry is the JS crash; hop entries pass
    through. -/
def itemsToSpecs : List PathItem → Except String (List PathSpec)
  | [] => .ok []
  | .raw _ :: _ => .error "cannot read typeSpec of undefined"
  | .hop p :: rest => do
    let l ← itemsToSpecs rest
    .ok (p :: l)

/-- generateCastFn: print the TryFrom impl only for lossy pairs, then always
    the From impl. -/
def generateCastFn (fromN toN : String) (path : List PathItem) (isLossless : Bool) :
    Except String (List EmittedImpl) := do
  let specs ← itemsToSpecs path
  let parts := castLoop specs
  .ok (if isLossless then [EmittedImpl.fromImpl fromN toN parts.2]
       else [EmittedImpl.tryFromImpl fromN toN parts.1, EmittedImpl.fromImpl fromN toN parts.2])

/-- `this.paths[a] != null && this.paths[a][b] != null`. -/
def lookup2 (paths : Paths) (a b : String) : Option (List PathItem) :=
  match jsObjGet paths a with
  | none => none
  | some inner => jsObjGet inner b

/-- generateCastFns: for every stored pair, classify it lossless when the
    opposite entry exists, look up the From model (a missing one throws) and
    emit the impls. -/
def generateCastFns (models : List TopLevelSpec) (paths : Paths) :
    Except String (List EmittedImpl) :=
  paths.foldlM (fun acc kv =>
    kv.2.foldlM (fun acc kv2 => do
      let fromType ←
        match findModel models kv.1 with
        | some m => Except.ok m
        | none => Except.error ("From type should not be null: " ++ kv.1)
      let toName :=
        match findModel models kv2.1 with
        | some m => m.name
        | none => kv2.1
      let isLossless := (lookup2 paths kv2.1 kv.1).isSome
      let outs ← generateCastFn fromType.name toName kv2.2 isLossless
      .ok (acc ++ outs)) acc) []

/-! ### Claim-level properties and helpers -/

/-- All operand/field TypeRef slots of a spec. -/
def allSlots : TopLevelSpec → List TypeSpec
  | .tupleStruct _ ops => ops
  | .structSpec _ fs => fs.map Prod.snd
  | .enumSpec _ cs => cs.flatMap Prod.snd

/-- Some slot of some model is both an array and boxed. -/
def anyBoxedArraySlot (models : List TopLevelSpec) : Bool :=
  models.any fun m => (allSlots m).any fun t => t.isArray && t.isBoxed

/-- The operand or field slots a middle vertex stands for, each paired with
    the type vertex it contributes an edge to (array slots contribute none). -/
def midSlotEdges (models : List TopLevelSpec) (mid : String) : List (TypeSpec × String) :=
  if hasSub mid "::" then
    match jsSplit mid "::" with
    | parent :: enumValue :: _ =>
      (match jsSplit enumValue "#" with
       | enumCase :: _ =>
         (match findModel models parent with
          | some (.enumSpec _ cases) =>
            (match jsObjGet cases enumCase with
             | some ops => (ops.filter (fun t => !t.isArray)).map (fun t => (t, resolveType t true))
             | none => [])
          | _ => [])
       | [] => [])
    | _ => []
  else if hasSub mid "." then
    match jsSplit mid "." with
    | parent :: fieldName :: _ =>
      (match findModel models parent with
       | some (.structSpec _ fields) =>
         (match jsObjGet fields fieldName with
          | some t => if t.isArray then [] else [(t, resolveType t true)]
          | none => [])
       | some (.tupleStruct _ ops) =>
         (match jsParseInt fieldName with
          | some i =>
            (match ops.get? i with
             | some t => if t.isArray then [] else [(t, resolveType t true)]
             | none => [])
          | none => [])
       | _ => [])
    | _ => []
  else []

/-- Claim C1's property at one component: some intra-component edge crosses a
    boxed (or array) slot. -/
def compHasBoxedCrossing (models : List TopLevelSpec) (g : DGraph)
    (comp : List String) : Bool :=
  comp.any fun v => (g.successors v).any fun w =>
    comp.contains w &&
      (midSlotEdges models v).any fun tw => tw.2 = w && (tw.1.isBoxed || tw.1.isArray)

/-- Claim C1's property: every non-trivial SCC of the (post-S3) non-array
    reference graph has an edge crossing a boxed or array slot. -/
def cyclesAllBroken (models : List TopLevelSpec) : Bool :=
  let g := buildGraph models
  (findCycles g).all (compHasBoxedCrossing models g)

/-- Claim C6's property on one TypeRef: a direct str leaf carries
    isSized=false. -/
def strSizedOk : TypeSpec → Bool
  | .tnul _ _ _ _ => true
  | .tname s _ _ _ z => if s = "str" then !z else true
  | .tnest t _ _ _ _ => strSizedOk t

/-- Claim C6's property: isSized=false has been forced on every TypeRef whose
    leaf target is str. -/
def strLeavesForcedUnsized (models : List TopLevelSpec) : Bool :=
  models.all fun m => (allSlots m).all strSizedOk

/-- Decode a case-operand vertex label the way the cycle loop does: the part
    before `::`, the case name before `#`, and the parsed suffix. -/
def decodeCaseVertex (v : String) : Option (String × String × Nat) :=
  match jsSplit v "::" with
  | parent :: enumValue :: _ =>
    (match jsSplit enumValue "#" with
     | enumCase :: rest =>
       (match rest.head? with
        | some idxStr => (jsParseInt idxStr).map fun k => (parent, enumCase, k)
        | none => none)
     | [] => none)
  | _ => none

/-- Decode a field vertex label: the part before the first `.` and the field
    name after it. -/
def decodeFieldVertex (v : String) : Option (String × String) :=
  match jsSplit v "." with
  | parent :: structField :: _ => some (parent, structField)
  | _ => none

/-- isBoxed of operand i of a case of the first model with the given name. -/
def slotBoxed (models : List TopLevelSpec) (parent caseName : String) (i : Nat) :
    Option Bool :=
  match findModel models parent with
  | some (.enumSpec _ cs) =>
    (jsObjGet cs caseName).bind fun ops => (ops.get? i).map TypeSpec.isBoxed
  | _ => none

/-- isSized of operand i of a case of the first model with the given name. -/
def slotSized (models : List TopLevelSpec) (parent caseName : String) (i : Nat) :
    Option Bool :=
  match findModel models parent with
  | some (.enumSpec _ cs) =>
    (jsObjGet cs caseName).bind fun ops => (ops.get? i).map TypeSpec.isSized
  | _ => none

/-- The str special case of the path walk, per stored item: a hop whose
    operand's type field is the string str reports the boxed name, carries
    isSized=false, and its slot in the model carries isSized=false. -/
def strHopOk (models : List TopLevelSpec) : PathItem → Prop
  | .raw _ => True
  | .hop p => p.typeSpec.targetName = some "str" →
      p.typeName = "Box<str>" ∧ p.typeSpec.isSized = false ∧
        slotSized models p.enumName p.enumCase 0 = some false

/-- isBoxed of the slot a field vertex designates: a numeric label picks a
    tuple operand, anything else a record field. -/
def fieldSlotBoxed (models : List TopLevelSpec) (parent structField : String) :
    Option Bool :=
  match jsParseInt structField with
  | some i =>
    (match findModel models parent with
     | some (.tupleStruct _ ops) => (ops.get? i).map TypeSpec.isBoxed
     | _ => none)
  | none =>
    (match findModel models parent with
     | some (.structSpec _ fs) => (jsObjGet fs structField).map TypeSpec.isBoxed
     | _ => none)

/-- Clear every isBoxed flag of a TypeSpec. -/
def TypeSpec.clearB : TypeSpec → TypeSpec
  | .tnul a o _ z => .tnul a o false z
  | .tname s a o _ z => .tname s a o false z
  | .tnest t a o _ z => .tnest t.clearB a o false z

/-- Clear every isSized flag of a TypeSpec. -/
def TypeSpec.clearS : TypeSpec → TypeSpec
  | .tnul a o b _ => .tnul a o b false
  | .tname s a o b _ => .tname s a o b false
  | .tnest t a o b _ => .tnest t.clearS a o b false

/-- Apply a slot transformation to every slot of a spec. -/
def normSlots (f : TypeSpec → TypeSpec) : TopLevelSpec → TopLevelSpec
  | .tupleStruct n ops => .tupleStruct n (ops.map f)
  | .structSpec n fs => .structSpec n (fs.map fun kv => (kv.1, f kv.2))
  | .enumSpec n cs => .enumSpec n (cs.map fun kv => (kv.1, kv.2.map f))

/-- Models up to their isBoxed flags. -/
def normB (models : List TopLevelSpec) : List TopLevelSpec :=
  models.map (normSlots TypeSpec.clearB)

/-- Models up to their isSized flags. -/
def normS (models : List TopLevelSpec) : List TopLevelSpec :=
  models.map (normSlots TypeSpec.clearS)

/-! ### Concrete schemas used by the counterexamples and witnesses -/

/-- `{ A: [ { C: ["A", "u8"] }, { E: [] } ] }`: a sum whose two-operand case C
    closes a cycle through its first operand. -/
def c1inp : List (String × RawVal) :=
  [("A", .varr [.vobj [("C", .varr [.vstr "A", .vstr "u8"])], .vobj [("E", .varr [])]])]

/-- The model after S3 on c1inp. -/
def c1post : List TopLevelSpec :=
  [.enumSpec "A"
    [("C", [.tname "A" false false false true, .tname "u8" false false true true]),
     ("E", [])]]

/-- `{ Q: [ { C: ["Q", ["u8"]] }, { E: [] } ] }`: a cycle through the first
    operand of a case whose second operand is an array. -/
def c2inp : List (String × RawVal) :=
  [("Q", .varr [.vobj [("C", .varr [.vstr "Q", .varr [.vstr "u8"]])], .vobj [("E", .varr [])]])]

/-- The model after S3 on c2inp: the array slot is the one that got boxed. -/
def c2post : List TopLevelSpec :=
  [.enumSpec "Q"
    [("C", [.tname "Q" false false false true,
            .tnest (.tname "u8" false false false true) true false true true]),
     ("E", [])]]

/-- `{ Identifier: "str" }`: a newtype with an unsized str leaf. -/
def c6inp : List (String × RawVal) := [("Identifier", .vstr "str")]

/-- `{ A: [ { S: "str" }, { E: [] } ] }`: a sum with a str payload reached by a
    retained path. -/
def c7inp : List (String × RawVal) :=
  [("A", .varr [.vobj [("S", .vstr "str")], .vobj [("E", .varr [])]])]

/-- `{ S: [ { C: "A" }, { C: "B" } ], N: 5 }`: a duplicate case name and an
    unsupported top-level shape. -/
def c8inp : List (String × RawVal) :=
  [("S", .varr [.vobj [("C", .vstr "A")], .vobj [("C", .vstr "B")]]), ("N", .vnum)]

/-- The parsed model of c2inp, before cycle breaking. -/
def c2parsed : List TopLevelSpec :=
  [.enumSpec "Q"
    [("C", [.tname "Q" false false false true,
            .tnest (.tname "u8" false false false true) true false false true]),
     ("E", [])]]

/-- The model after the whole pipeline on c6inp: the str slot keeps
    isSized=true. -/
def c6post : List TopLevelSpec :=
  [.tupleStruct "Identifier" [.tname "str" false false false true]]

/-- The model after S3 on c7inp: isSized still true. -/
def c7postS3 : List TopLevelSpec :=
  [.enumSpec "A" [("S", [.tname "str" false false false true]), ("E", [])]]

/-- The model after the whole derivePaths stage on c7inp: the path walk set
    isSized=false. -/
def c7postS4 : List TopLevelSpec :=
  [.enumSpec "A" [("S", [.tname "str" false false false false]), ("E", [])]]

/-- The path table produced on c7inp. -/
def c7paths : Paths :=
  [("A", [("Box<str>", [.hop ⟨"A", "S", "Box<str>", .tname "str" false false false false⟩])])]

/-! ### Vertex-shape side conditions for the path-filter claim -/

/-- A label character that cannot collide with the vertex-label punctuation. -/
def okChar (c : Char) : Bool := !(c = ':' || c = '.' || c = '#')

/-- A name free of the vertex-label punctuation. -/
def saneStr (s : String) : Bool := s.data.all okChar

/-- A TypeRef whose leaf type name is free of the vertex-label punctuation. -/
def saneType : TypeSpec → Bool
  | .tnul _ _ _ _ => true
  | .tname s _ _ _ _ => saneStr s
  | .tnest t _ _ _ _ => saneType t

/-- All names of a spec are free of the vertex-label punctuation. -/
def saneModel : TopLevelSpec → Bool
  | .tupleStruct n ops => saneStr n && ops.all saneType
  | .structSpec n fs => saneStr n && fs.all fun kv => saneStr kv.1 && saneType kv.2
  | .enumSpec n cs => saneStr n && cs.all fun kc => saneStr kc.1 && kc.2.all saneType

def saneModels (models : List TopLevelSpec) : Bool := models.all saneModel

/-- Every sum of the schema has distinct case names. -/
def caseNodups (models : List TopLevelSpec) : Bool :=
  models.all fun m => match m with
    | .enumSpec _ cs => decide (cs.map Prod.fst).Nodup
    | _ => true

/-- A list of vertices each step of which follows an edge of the graph. -/
def edgeChainB (g : DGraph) : List String → Bool
  | [] => true
  | [_] => true
  | u :: v :: rest => (g.successors u).contains v && edgeChainB g (v :: rest)

/-- The provenance of an edge contributed by one spec: it either enters or
    leaves a case vertex of a sum, a record-field vertex, or a tuple-operand
    vertex, always across a non-array slot. -/
def ModelEdge : TopLevelSpec → String → String → Prop
  | .enumSpec name cases, u, x =>
    ∃ kc op, kc ∈ cases.filter (fun kc => kc.2.length ≥ 1) ∧ op ∈ kc.2 ∧
      op.isArray = false ∧
      ((u = name ∧ x = name ++ "::" ++ kc.1 ++ "#" ++ natStr kc.2.length) ∨
       (u = name ++ "::" ++ kc.1 ++ "#" ++ natStr kc.2.length ∧ x = resolveType op true))
  | .structSpec name fields, u, x =>
    ∃ kv, kv ∈ fields ∧ kv.2.isArray = false ∧
      ((u = name ∧ x = name ++ "." ++ kv.1) ∨
       (u = name ++ "." ++ kv.1 ∧ x = resolveType kv.2 true))
  | .tupleStruct name ops, u, x =>
    ∃ it, it ∈ ops.enum ∧ it.2.isArray = false ∧
      ((u = name ∧ x = name ++ "." ++ natStr it.1) ∨
       (u = name ++ "." ++ natStr it.1 ∧ x = resolveType it.2 true))

/-- The provenance of an edge of the built reference graph. -/
def EdgeShape (models : List TopLevelSpec) (u x : String) : Prop :=
  ∃ m, m ∈ models ∧ ModelEdge m u x

/-- The case-operand reads of one model list all succeed on another: the walk
    state keeps this towards the parsed models while mutating isSized. -/
def okTransfer (ms models : List TopLevelSpec) : Prop :=
  ∀ n c j t, getCaseOperand models n c j = Except.ok t →
    ∃ t2, getCaseOperand ms n c j = Except.ok t2

/-- A stored path item that is a hop through a single-operand case of a sum of
    the schema (a raw item never qualifies). -/
def hopOfModels (models : List TopLevelSpec) : PathItem → Prop
  | .raw _ => False
  | .hop p => ∃ name cases kc, TopLevelSpec.enumSpec name cases ∈ models ∧ kc ∈ cases ∧
      p.enumName = name ∧ p.enumCase = kc.1 ∧ kc.2.length = 1

/-- A model with a single sum to feed the emitter. -/
def c5models : List TopLevelSpec :=
  [.enumSpec "A" [("C", [.tname "u8" false false false true])]]

/-- A path table with one lossy pair (A, u8). -/
def c5paths : Paths :=
  [("A", [("u8", [.hop ⟨"A", "C", "u8", .tname "u8" false false false true⟩])])]

/-- What the emitter prints on c5models/c5paths. -/
def c5out : List EmittedImpl :=
  [.tryFromImpl "A" "u8"
    ["        if let A::C(value) = value \x7b return Ok(value) \x7d else \x7b return Err(CastError::new()) \x7d;"],
   .fromImpl "A" "u8" "A::C(value)"]

/-! ### String helper lemmas -/

theorem data_append (s t : String) : (s ++ t).data = s.data ++ t.data := by
  cases s
  cases t
  rfl

theorem singleton_isPrefixOf (c : Char) (l : List Char) :
    [c].isPrefixOf l = (match l with
      | [] => false
      | d :: _ => c == d) := by
  cases l with
  | nil => rfl
  | cons d t => simp [List.isPrefixOf]

theorem jsEnds_q_dropFirst (s : String) (h : jsStarts s "~" = true) :
    jsEnds (jsDropFirst s) "?" = jsEnds s "?" := by
  obtain ⟨l⟩ := s
  cases l with
  | nil => simp [jsStarts, List.isPrefixOf] at h
  | cons c t =>
    have hc : c = '~' := by
      simp only [jsStarts, singleton_isPrefixOf] at h
      exact (beq_iff_eq.mp h).symm
    subst hc
    cases ht : t.reverse with
    | nil =>
      have : t = [] := by simpa using congrArg List.reverse ht
      subst this
      rfl
    | cons y ys =>
      show jsEnds ⟨t⟩ "?" = jsEnds ⟨'~' :: t⟩ "?"
      simp only [jsEnds, List.reverse_cons, List.reverse_nil, List.nil_append, ht,
        List.cons_append, singleton_isPrefixOf]

theorem jsEnds_q_resid (s : String) :
    jsEnds (if jsStarts s "~" then jsDropFirst s else s) "?" = jsEnds s "?" := by
  by_cases h : jsStarts s "~" = true
  · rw [if_pos h, jsEnds_q_dropFirst s h]
  · rw [if_neg (by simpa using h)]

/-! ### Claim theorems: parser claims -/

/-- Claim C9: parseType on a scalar string strips at most one leading `~`
    (setting isBoxed) and at most one trailing `?` (setting isOptional), in
    that order, and returns a TypeRef whose target is the residual name; the
    combined form `~T?` yields target T with isBoxed and isOptional set. -/
theorem c9_parseType_decorations (s T : String) :
    parseType (.vstr s) =
      Except.ok (TypeSpec.tname
        (if jsEnds (if jsStarts s "~" then jsDropFirst s else s) "?"
         then jsDropLast (if jsStarts s "~" then jsDropFirst s else s)
         else (if jsStarts s "~" then jsDropFirst s else s))
        false (jsEnds s "?") (jsStarts s "~") true)
    ∧ parseType (.vstr ("~" ++ T ++ "?")) =
        Except.ok (TypeSpec.tname T false true true true) := by
  constructor
  · show Except.ok _ = _
    rw [jsEnds_q_resid]
  · obtain ⟨l⟩ := T
    have hdata : ("~" ++ String.mk l ++ "?").data = '~' :: (l ++ ['?']) := by
      rw [data_append, data_append]
      rfl
    have hstarts : jsStarts ("~" ++ String.mk l ++ "?") "~" = true := by
      simp [jsStarts, hdata, singleton_isPrefixOf]
    have hends : jsEnds ("~" ++ String.mk l ++ "?") "?" = true := by
      simp only [jsEnds, hdata, List.reverse_cons, List.reverse_append]
      cases l <;> simp [singleton_isPrefixOf]
    show Except.ok _ = _
    rw [hstarts, hends]
    simp only [if_pos]
    have h1 : jsDropFirst ("~" ++ String.mk l ++ "?") = String.mk (l ++ ['?']) := by
      simp [jsDropFirst, hdata]
    rw [h1]
    have h2 : jsDropLast (String.mk (l ++ ['?'])) = String.mk l := by
      simp [jsDropLast]
    rw [h2]

theorem parseEnumStep_firstEntry (cases : List (String × List TypeSpec))
    (k : String) (v : RawVal) (rest : List (String × RawVal)) :
    parseEnumStep cases (.vobj ((k, v) :: rest)) = parseEnumStep cases (.vobj [(k, v)]) := rfl

/-- Claim C10: a sum alternative given as a mapping with several entries does
    not make the parser fail on that account: the case is built from the
    mapping's first entry only and every further entry is discarded. -/
theorem c10_multi_entry_first_only (enumName k : String) (v : RawVal)
    (rest : List (String × RawVal)) (others : List RawVal) :
    parseEnum enumName (.vobj ((k, v) :: rest) :: others) =
      parseEnum enumName (.vobj [(k, v)] :: others)
    ∧ parseEnum "S" [.vobj [("C", .vstr "A"), ("D", .vstr "B")], .vstr "E"] =
        Except.ok (.enumSpec "S"
          [("C", [.tname "A" false false false true]),
           ("E", [.tname "E" false false false true])]) := by
  refine ⟨?_, rfl⟩
  unfold parseEnum
  rw [List.foldlM_cons, List.foldlM_cons, parseEnumStep_firstEntry]

/-- Claim C8 (counterexample): a schema with a duplicate case name and a
    numeric top-level entry parses successfully — no fatal error, the later
    case wins and the numeric entry is skipped. -/
theorem c8_shape_errors_not_fatal :
    parseModels c8inp =
      Except.ok [.enumSpec "S" [("C", [.tname "B" false false false true])]] := rfl

theorem except_ok_bind {α β : Type} (a : α) (f : α → Except String β) :
    (Except.ok a >>= f) = f a := rfl

theorem except_error_bind {α β : Type} (e : String) (f : α → Except String β) :
    ((Except.error e : Except String α) >>= f) = Except.error e := rfl

theorem except_pure_eq {α : Type} (a : α) : (pure a : Except String α) = Except.ok a := rfl

theorem except_map_ok {α β : Type} (f : α → β) (a : α) :
    Except.map f (Except.ok a : Except String α) = Except.ok (f a) := rfl

theorem except_map_error {α β : Type} (f : α → β) (e : String) :
    Except.map f (Except.error e : Except String α) = Except.error e := rfl

theorem parseModels_eq_map (ms : List (String × RawVal)) :
    parseModels ms = (ms.mapM parseModelEntry).map (fun l => l.filterMap id) := by
  unfold parseModels
  cases h : ms.mapM parseModelEntry with
  | ok l => rfl
  | error e => rfl

theorem mapM_skip_vnum (k : String) (post : List (String × RawVal)) :
    ∀ pre : List (String × RawVal),
      ((pre ++ (k, RawVal.vnum) :: post).mapM parseModelEntry).map
          (fun l => l.filterMap id) =
        ((pre ++ post).mapM parseModelEntry).map (fun l => l.filterMap id) := by
  intro pre
  induction pre with
  | nil =>
    simp only [List.nil_append, List.mapM_cons]
    have h0 : parseModelEntry (k, RawVal.vnum) = Except.ok none := rfl
    rw [h0]
    cases h : post.mapM parseModelEntry with
    | ok l => rfl
    | error e => rfl
  | cons m pre ih =>
    simp only [List.cons_append, List.mapM_cons]
    cases hm : parseModelEntry m with
    | error e => rfl
    | ok a =>
      simp only [except_ok_bind]
      cases h1 : (pre ++ (k, RawVal.vnum) :: post).mapM parseModelEntry with
      | error e1 =>
        cases h2 : (pre ++ post).mapM parseModelEntry with
        | error e2 =>
          rw [h1, h2] at ih
          simp only [except_map_error] at ih
          rw [except_error_bind, except_error_bind, except_map_error, except_map_error]
          injection ih with h3
          rw [h3]
        | ok l2 =>
          rw [h1, h2] at ih
          simp only [except_map_error, except_map_ok] at ih
          exact absurd ih (by simp)
      | ok l1 =>
        cases h2 : (pre ++ post).mapM parseModelEntry with
        | error e2 =>
          rw [h1, h2] at ih
          simp only [except_map_error, except_map_ok] at ih
          exact absurd ih (by simp)
        | ok l2 =>
          rw [h1, h2] at ih
          simp only [except_map_ok] at ih
          have hf : l1.filterMap id = l2.filterMap id := by injection ih
          rw [except_ok_bind, except_ok_bind, except_pure_eq, except_pure_eq,
            except_map_ok, except_map_ok]
          cases a with
          | none => simpa using hf
          | some x => simp [hf]

/-- Claim C8 (amended): a duplicate case name does not abort — the later
    alternative overwrites the earlier in place; an unsupported top-level
    shape (e.g. a number) does not abort — the entry is skipped with a warning
    and the remaining entries parse as if it were absent. -/
theorem c8_parse_recovery_amended (enumName c a b k : String)
    (pre post : List (String × RawVal)) :
    parseEnum enumName [.vobj [(c, .vstr a)], .vobj [(c, .vstr b)]] =
      parseEnum enumName [.vobj [(c, .vstr b)]]
    ∧ parseModels (pre ++ (k, RawVal.vnum) :: post) = parseModels (pre ++ post) := by
  constructor
  · obtain ⟨ta, hta⟩ : ∃ t, parseType (.vstr a) = .ok t := ⟨_, rfl⟩
    obtain ⟨tb, htb⟩ : ∃ t, parseType (.vstr b) = .ok t := ⟨_, rfl⟩
    have e1 : parseEnumStep [] (RawVal.vobj [(c, RawVal.vstr a)]) = Except.ok [(c, [ta])] := by
      simp only [parseEnumStep, hta, except_ok_bind]
      rfl
    have e2 : parseEnumStep [(c, [ta])] (RawVal.vobj [(c, RawVal.vstr b)]) =
        Except.ok [(c, [tb])] := by
      simp only [parseEnumStep, htb, except_ok_bind]
      show Except.ok (jsObjInsert [(c, [ta])] c [tb]) = _
      simp [jsObjInsert]
    have e3 : parseEnumStep [] (RawVal.vobj [(c, RawVal.vstr b)]) = Except.ok [(c, [tb])] := by
      simp only [parseEnumStep, htb, except_ok_bind]
      rfl
    unfold parseEnum
    simp only [List.foldlM_cons, List.foldlM_nil, e1, e2, e3, except_ok_bind,
      except_pure_eq]
  · rw [parseModels_eq_map, parseModels_eq_map, mapM_skip_vnum]

/-! ### Claim theorems: cycle-breaking counterexamples -/

/-- Claim C1 (code bug): on `{ A: [ { C: [A, u8] }, { E: [] } ] }` the cycle
    through C's first operand is found, but the breaker decodes the label
    suffix (the case's arity 2) as a 1-based index and boxes the unrelated
    second operand; the self-referencing slot stays unboxed, so the cycle has
    no heap boundary after S3. -/
theorem c1_multi_operand_cycle_unbroken :
    pipelineS3 c1inp = Except.ok c1post
    ∧ findCycles (buildGraph c1post) = [["A::C#2", "A"]]
    ∧ cyclesAllBroken c1post = false
    ∧ slotBoxed c1post "A" "C" 0 = some false
    ∧ slotBoxed c1post "A" "C" 1 = some true :=
  ⟨rfl, by decide, by decide, by decide, by decide⟩

/-- Claim C2 (counterexample): on `{ Q: [ { C: [Q, [u8]] }, { E: [] } ] }` the
    component contains the case vertex Q::C#2, and the breaker boxes the
    second operand — an array slot — while the non-array operand on the cycle
    stays unboxed; so array slots are boxed and the vertex's cycle slot is not. -/
theorem c2_array_slot_boxed :
    parseModels c2inp = Except.ok c2parsed
    ∧ findCycles (buildGraph c2parsed) = [["Q::C#2", "Q"]]
    ∧ applyCycles c2parsed (findCycles (buildGraph c2parsed)) = Except.ok c2post
    ∧ anyBoxedArraySlot c2parsed = false
    ∧ anyBoxedArraySlot c2post = true
    ∧ slotBoxed c2post "Q" "C" 0 = some false :=
  ⟨rfl, by decide, rfl, by decide, by decide, by decide⟩

/-- Claim C6 (counterexample): on `{ Identifier: "str" }` the pipeline ends
    with the str-leaf TypeRef still isSized=true — isSized=false is not forced
    for every str leaf, only on retained sum-case paths. -/
theorem c6_str_not_forced_unsized :
    pipeline c6inp = Except.ok (c6post, ([] : Paths))
    ∧ strLeavesForcedUnsized c6post = false :=
  ⟨rfl, by decide⟩

/-- Claim C7 (counterexample): on `{ A: [ { S: "str" }, { E: [] } ] }` the
    model after cycle breaking still has isSized=true on the str operand, and
    the path-inference stage then mutates it to false — S3 is not the sole
    mutator. -/
theorem c7_s4_mutates_isSized :
    pipelineS3 c7inp = Except.ok c7postS3
    ∧ pipeline c7inp = Except.ok (c7postS4, c7paths)
    ∧ c7postS3 ≠ c7postS4 :=
  ⟨rfl, rfl, by decide⟩

/-! ### Generic lemmas about the embedded containers -/

theorem setBoxed_isBoxed (t : TypeSpec) : t.setBoxed.isBoxed = true := by
  cases t <;> rfl

theorem clearB_setBoxed (t : TypeSpec) : t.setBoxed.clearB = t.clearB := by
  cases t <;> rfl

theorem setBoxed_name (m : TopLevelSpec) : m.name = m.name := rfl

theorem jsObjGet_insert {α : Type} (l : List (String × α)) (k q : String) (v : α) :
    jsObjGet (jsObjInsert l k v) q = if q = k then some v else jsObjGet l q := by
  induction l with
  | nil =>
    simp only [jsObjInsert, jsObjGet]
    by_cases h : q = k
    · rw [if_pos h.symm, if_pos h]
    · rw [if_neg (fun hh => h hh.symm), if_neg h]
  | cons kv rest ih =>
    by_cases h : kv.1 = k
    · simp only [jsObjInsert, if_pos h, jsObjGet]
      by_cases hq : q = k
      · rw [if_pos hq.symm, if_pos hq]
      · rw [if_neg (fun hh => hq hh.symm), if_neg hq,
          if_neg (fun hh : kv.1 = q => hq (hh.symm.trans h))]
    · simp only [jsObjInsert, if_neg h, jsObjGet]
      by_cases hkv : kv.1 = q
      · rw [if_pos hkv, if_neg (fun hh : q = k => h (hkv.trans hh)), if_pos hkv]
      · rw [if_neg hkv, ih, if_neg hkv]

theorem get?_set_self {α : Type} (l : List α) (i : Nat) (x y : α)
    (h : l.get? i = some x) : (l.set i y).get? i = some y := by
  induction l generalizing i with
  | nil => simp at h
  | cons a t ih =>
    cases i with
    | zero => rfl
    | succ n =>
      show (t.set n y).get? n = some y
      exact ih n h

theorem get?_set_other {α : Type} (l : List α) (i j : Nat) (y : α) (h : ¬ i = j) :
    (l.set i y).get? j = l.get? j := by
  induction l generalizing i j with
  | nil => rfl
  | cons a t ih =>
    cases i with
    | zero =>
      cases j with
      | zero => exact absurd rfl h
      | succ m => rfl
    | succ n =>
      cases j with
      | zero => rfl
      | succ m => exact ih n m (fun hh => h (by rw [hh]))

theorem map_set_eq {α β : Type} (g : α → β) (l : List α) (i : Nat) (x y : α)
    (hx : l.get? i = some x) (hg : g y = g x) : (l.set i y).map g = l.map g := by
  induction l generalizing i with
  | nil => rfl
  | cons a t ih =>
    cases i with
    | zero =>
      have : a = x := by
        have := hx
        simp only [List.get?] at this
        injection this
      subst this
      simp [hg]
    | succ n =>
      show g a :: (t.set n y).map g = g a :: t.map g
      rw [ih n hx]

theorem jsObjInsert_map_eq {α β : Type} (g : α → β) (l : List (String × α)) (k : String)
    (v w : α) (hv : jsObjGet l k = some v) (hg : g w = g v) :
    (jsObjInsert l k w).map (fun kv => (kv.1, g kv.2)) =
      l.map (fun kv => (kv.1, g kv.2)) := by
  induction l with
  | nil => simp [jsObjGet] at hv
  | cons kv0 rest ih =>
    by_cases h : kv0.1 = k
    · simp only [jsObjInsert, if_pos h]
      have hv0 : kv0.2 = v := by
        simp only [jsObjGet, if_pos h] at hv
        exact Option.some.inj hv
      simp [h, hg, hv0]
    · simp only [jsObjInsert, if_neg h]
      simp only [jsObjGet, if_neg h] at hv
      simp [ih hv]

theorem findModel_cons (m : TopLevelSpec) (rest : List TopLevelSpec) (n : String) :
    findModel (m :: rest) n = if m.name = n then some m else findModel rest n := by
  by_cases h : m.name = n
  · simp [findModel, List.find?_cons, h]
  · simp [findModel, List.find?_cons, h]

theorem findModel_pre_miss (pre : List TopLevelSpec) (x : TopLevelSpec)
    (post : List TopLevelSpec) (q : String)
    (hpre : ∀ y ∈ pre, ¬ y.name = q) (hx : x.name = q) :
    findModel (pre ++ x :: post) q = some x := by
  induction pre with
  | nil => simp [findModel_cons, hx]
  | cons y rest ih =>
    rw [List.cons_append, findModel_cons, if_neg (hpre y (by simp))]
    exact ih (fun z hz => hpre z (by simp [hz]))

theorem findModel_mid_ne (pre : List TopLevelSpec) (x x2 : TopLevelSpec)
    (post : List TopLevelSpec) (q : String)
    (hname : x2.name = x.name) (hq : ¬ x.name = q) :
    findModel (pre ++ x2 :: post) q = findModel (pre ++ x :: post) q := by
  induction pre with
  | nil =>
    rw [List.nil_append, List.nil_append, findModel_cons, findModel_cons,
      if_neg (fun h => hq (hname ▸ h)), if_neg hq]
  | cons y rest ih =>
    rw [List.cons_append, List.cons_append, findModel_cons, findModel_cons]
    by_cases h : y.name = q
    · rw [if_pos h, if_pos h]
    · rw [if_neg h, if_neg h]
      exact ih

theorem updateFirstModel_decomp (p : String) (f : TopLevelSpec → Except String TopLevelSpec) :
    ∀ (models out : List TopLevelSpec),
      updateFirstModel models p f = Except.ok out →
      ∃ pre m m2 post, models = pre ++ m :: post ∧ out = pre ++ m2 :: post ∧
        (∀ x ∈ pre, ¬ x.name = p) ∧ m.name = p ∧ f m = Except.ok m2 := by
  intro models
  induction models with
  | nil =>
    intro out h
    exact absurd h (by simp [updateFirstModel])
  | cons m rest ih =>
    intro out h
    unfold updateFirstModel at h
    by_cases hn : m.name = p
    · rw [if_pos hn] at h
      cases hf : f m with
      | error e =>
        rw [hf] at h
        exact absurd h (by simp [except_error_bind])
      | ok m2 =>
        rw [hf] at h
        rw [except_ok_bind] at h
        have hout : m2 :: rest = out := by
          injection h
        exact ⟨[], m, m2, rest, by simp, by simp [← hout], by simp, hn, hf⟩
    · rw [if_neg hn] at h
      cases hr : updateFirstModel rest p f with
      | error e =>
        rw [hr] at h
        exact absurd h (by simp [except_error_bind])
      | ok rest2 =>
        rw [hr] at h
        rw [except_ok_bind] at h
        have hout : m :: rest2 = out := by
          injection h
        obtain ⟨pre, mm, m2, post, e1, e2, hpre, hname, hf⟩ := ih rest2 hr
        refine ⟨m :: pre, mm, m2, post, by simp [e1], by simp [← hout, e2], ?_, hname, hf⟩
        intro x hx
        rcases List.mem_cons.mp hx with hx | hx
        · rw [hx]; exact hn
        · exact hpre x hx

/-! ### Fold lemmas for the mutation loops -/

theorem foldlM_ok_split {α β : Type} (f : β → α → Except String β) (a : α) (l : List α)
    (b b2 : β) (h : (a :: l).foldlM f b = Except.ok b2) :
    ∃ b1, f b a = Except.ok b1 ∧ l.foldlM f b1 = Except.ok b2 := by
  rw [List.foldlM_cons] at h
  cases hf : f b a with
  | error e =>
    rw [hf] at h
    exact absurd h (by simp [except_error_bind])
  | ok b1 =>
    rw [hf, except_ok_bind] at h
    exact ⟨b1, rfl, h⟩

theorem foldlM_ok_preserve {α β : Type} (f : β → α → Except String β) (P : β → Prop) :
    ∀ l : List α, (∀ b a b2, a ∈ l → f b a = Except.ok b2 → P b → P b2) →
      ∀ b b2, l.foldlM f b = Except.ok b2 → P b → P b2 := by
  intro l
  induction l with
  | nil =>
    intro _ b b2 h hP
    have : b = b2 := by
      simp only [List.foldlM_nil] at h
      injection h
    exact this ▸ hP
  | cons a l ih =>
    intro hstep b b2 h hP
    obtain ⟨b1, hf, hrest⟩ := foldlM_ok_split f a l b b2 h
    exact ih (fun b x b2 hx => hstep b x b2 (by simp [hx])) b1 b2 hrest
      (hstep b a b1 (by simp) hf hP)

theorem foldlM_ok_mem {α β : Type} (f : β → α → Except String β) (P : β → Prop) (a : α)
    (hest : ∀ b b2, f b a = Except.ok b2 → P b2) :
    ∀ l : List α, (∀ b x b2, x ∈ l → f b x = Except.ok b2 → P b → P b2) →
      ∀ b b2, a ∈ l → l.foldlM f b = Except.ok b2 → P b2 := by
  intro l
  induction l with
  | nil =>
    intro _ b b2 hmem
    exact absurd hmem (by simp)
  | cons x l ih =>
    intro hmono b b2 hmem h
    obtain ⟨b1, hf, hrest⟩ := foldlM_ok_split f x l b b2 h
    rcases List.mem_cons.mp hmem with hx | hx
    · subst hx
      exact foldlM_ok_preserve f P l
        (fun b y b2 hy => hmono b y b2 (by simp [hy])) b1 b2 hrest (hest b b1 hf)
    · exact ih (fun b y b2 hy => hmono b y b2 (by simp [hy])) b1 b2 hx hrest

/-! ### Characterizations of the slot-boxing operations -/

theorem normB_append (pre post : List TopLevelSpec) (m : TopLevelSpec) :
    normB (pre ++ m :: post) = normB pre ++ normSlots TypeSpec.clearB m :: normB post := by
  simp [normB]

theorem slotBoxed_eq (models : List TopLevelSpec) (p n : String)
    (cs : List (String × List TypeSpec))
    (hfind : findModel models p = some (.enumSpec n cs)) (c : String) (i : Nat) :
    slotBoxed models p c i =
      (jsObjGet cs c).bind fun ops => (ops.get? i).map TypeSpec.isBoxed := by
  rw [slotBoxed, hfind]

theorem slotBoxed_congr (m1 m2 : List TopLevelSpec) (q : String)
    (h : findModel m1 q = findModel m2 q) (c : String) (i : Nat) :
    slotBoxed m1 q c i = slotBoxed m2 q c i := by
  rw [slotBoxed, slotBoxed, h]

theorem fieldSlotBoxed_congr (m1 m2 : List TopLevelSpec) (q : String)
    (h : findModel m1 q = findModel m2 q) (fld : String) :
    fieldSlotBoxed m1 q fld = fieldSlotBoxed m2 q fld := by
  rw [fieldSlotBoxed, fieldSlotBoxed, h]

theorem fieldSlotBoxed_enum (models : List TopLevelSpec) (q n : String)
    (cs : List (String × List TypeSpec))
    (hfind : findModel models q = some (.enumSpec n cs)) (fld : String) :
    fieldSlotBoxed models q fld = none := by
  rw [fieldSlotBoxed]
  cases jsParseInt fld <;> rw [hfind]

theorem boxEnumOperand_spec (models out : List TopLevelSpec) (p c : String) (k : Nat)
    (h : boxEnumOperand models p c k = Except.ok out) :
    (∀ q c2 i, slotBoxed out q c2 i =
        if q = p ∧ c2 = c ∧ i = k then some true else slotBoxed models q c2 i)
    ∧ (∀ q fld, fieldSlotBoxed out q fld = fieldSlotBoxed models q fld)
    ∧ normB out = normB models := by
  obtain ⟨pre, m, m2, post, e1, e2, hpre, hname, hf⟩ :=
    updateFirstModel_decomp p _ models out h
  cases m with
  | tupleStruct n ops => exact absurd hf (by simp)
  | structSpec n fs => exact absurd hf (by simp)
  | enumSpec n cases =>
    have hn : n = p := hname
    cases hops : jsObjGet cases c with
    | none =>
      simp only [hops] at hf
      exact absurd hf (by simp)
    | some ops =>
      simp only [hops] at hf
      cases hop : ops.get? k with
      | none =>
        simp only [hop] at hf
        exact absurd hf (by simp)
      | some op =>
        simp only [hop] at hf
        have hm2 : m2 = .enumSpec n (jsObjInsert cases c (ops.set k op.setBoxed)) := by
          injection hf with hf2
          exact hf2.symm
        subst hm2
        subst e1
        subst e2
        have hfind2 : findModel (pre ++ TopLevelSpec.enumSpec n
            (jsObjInsert cases c (ops.set k op.setBoxed)) :: post) p =
            some (TopLevelSpec.enumSpec n (jsObjInsert cases c (ops.set k op.setBoxed))) :=
          findModel_pre_miss pre _ post p hpre hn
        have hfind1 : findModel (pre ++ TopLevelSpec.enumSpec n cases :: post) p =
            some (TopLevelSpec.enumSpec n cases) :=
          findModel_pre_miss pre _ post p hpre hn
        have hqne : ∀ q, ¬ q = p →
            findModel (pre ++ TopLevelSpec.enumSpec n
              (jsObjInsert cases c (ops.set k op.setBoxed)) :: post) q =
            findModel (pre ++ TopLevelSpec.enumSpec n cases :: post) q := by
          intro q hq
          exact findModel_mid_ne pre (TopLevelSpec.enumSpec n cases) _ post q rfl
            (fun hh => hq (hh.symm.trans hn))
        refine ⟨?_, ?_, ?_⟩
        · intro q c2 i
          by_cases hq : q = p
          · subst hq
            rw [slotBoxed_eq _ _ _ _ hfind2, slotBoxed_eq _ _ _ _ hfind1, jsObjGet_insert]
            by_cases hc : c2 = c
            · subst hc
              rw [if_pos rfl, hops]
              show ((ops.set k op.setBoxed).get? i).map TypeSpec.isBoxed = _
              by_cases hi : i = k
              · subst hi
                rw [get?_set_self ops i op op.setBoxed hop, if_pos ⟨rfl, rfl, rfl⟩]
                simp [setBoxed_isBoxed]
              · rw [get?_set_other ops k i op.setBoxed (fun hh => hi hh.symm),
                  if_neg (fun hh => hi hh.2.2)]
                rfl
            · rw [if_neg hc, if_neg (fun hh => hc hh.2.1)]
          · rw [slotBoxed_congr _ _ _ (hqne q hq), if_neg (fun hh => hq hh.1)]
        · intro q fld
          by_cases hq : q = p
          · subst hq
            rw [fieldSlotBoxed_enum _ _ _ _ hfind2, fieldSlotBoxed_enum _ _ _ _ hfind1]
          · exact fieldSlotBoxed_congr _ _ _ (hqne q hq) fld
        · rw [normB_append, normB_append]
          have hnm : normSlots TypeSpec.clearB (TopLevelSpec.enumSpec n
              (jsObjInsert cases c (ops.set k op.setBoxed))) =
              normSlots TypeSpec.clearB (TopLevelSpec.enumSpec n cases) := by
            show TopLevelSpec.enumSpec n ((jsObjInsert cases c (ops.set k op.setBoxed)).map
              (fun kv => (kv.1, kv.2.map TypeSpec.clearB))) = _
            rw [jsObjInsert_map_eq (fun l => l.map TypeSpec.clearB) cases c ops
              (ops.set k op.setBoxed) hops
              (map_set_eq TypeSpec.clearB ops k op op.setBoxed hop (clearB_setBoxed op))]
            rfl
          rw [hnm]

theorem slotBoxed_tuple (models : List TopLevelSpec) (q n : String) (ops : List TypeSpec)
    (hfind : findModel models q = some (.tupleStruct n ops)) (c : String) (i : Nat) :
    slotBoxed models q c i = none := by
  rw [slotBoxed, hfind]

theorem slotBoxed_struct (models : List TopLevelSpec) (q n : String)
    (fs : List (String × TypeSpec))
    (hfind : findModel models q = some (.structSpec n fs)) (c : String) (i : Nat) :
    slotBoxed models q c i = none := by
  rw [slotBoxed, hfind]

theorem fieldSlotBoxed_tuple (models : List TopLevelSpec) (q n : String)
    (ops : List TypeSpec) (hfind : findModel models q = some (.tupleStruct n ops))
    (fld : String) :
    fieldSlotBoxed models q fld =
      (match jsParseInt fld with
       | some i => (ops.get? i).map TypeSpec.isBoxed
       | none => none) := by
  rw [fieldSlotBoxed]
  cases jsParseInt fld <;> rw [hfind]

theorem fieldSlotBoxed_struct (models : List TopLevelSpec) (q n : String)
    (fs : List (String × TypeSpec)) (hfind : findModel models q = some (.structSpec n fs))
    (fld : String) :
    fieldSlotBoxed models q fld =
      (match jsParseInt fld with
       | some _ => none
       | none => (jsObjGet fs fld).map TypeSpec.isBoxed) := by
  rw [fieldSlotBoxed]
  cases jsParseInt fld <;> rw [hfind]

theorem boxFieldVertex_spec (b b2 : List TopLevelSpec) (v : String)
    (h : boxFieldVertex b v = Except.ok b2) :
    (∀ q c2 i, slotBoxed b2 q c2 i = slotBoxed b q c2 i)
    ∧ (∀ q fld2, fieldSlotBoxed b q fld2 = some true → fieldSlotBoxed b2 q fld2 = some true)
    ∧ normB b2 = normB b
    ∧ (∀ p fld, decodeFieldVertex v = some (p, fld) → fieldSlotBoxed b2 p fld = some true) := by
  unfold boxFieldVertex at h
  cases hsplit : jsSplit v "." with
  | nil =>
    simp only [hsplit] at h
    exact absurd h (by simp)
  | cons p rest =>
    cases rest with
    | nil =>
      simp only [hsplit] at h
      exact absurd h (by simp)
    | cons fld rest2 =>
      simp only [hsplit] at h
      have hdec : decodeFieldVertex v = some (p, fld) := by
        rw [decodeFieldVertex, hsplit]
      cases hparse : jsParseInt fld with
      | some i =>
        simp only [hparse] at h
        obtain ⟨pre, m, m2, post, e1, e2, hpre, hname, hf⟩ :=
          updateFirstModel_decomp p _ b b2 h
        cases m with
        | structSpec n fs => exact absurd hf (by simp)
        | enumSpec n cs => exact absurd hf (by simp)
        | tupleStruct n ops =>
          have hn : n = p := hname
          cases hop : ops.get? i with
          | none =>
            simp only [hop] at hf
            exact absurd hf (by simp)
          | some op =>
            simp only [hop] at hf
            have hm2 : m2 = .tupleStruct n (ops.set i op.setBoxed) := by
              injection hf with hf2
              exact hf2.symm
            subst hm2
            subst e1
            subst e2
            have hfind2 : findModel (pre ++ TopLevelSpec.tupleStruct n
                (ops.set i op.setBoxed) :: post) p =
                some (TopLevelSpec.tupleStruct n (ops.set i op.setBoxed)) :=
              findModel_pre_miss pre _ post p hpre hn
            have hfind1 : findModel (pre ++ TopLevelSpec.tupleStruct n ops :: post) p =
                some (TopLevelSpec.tupleStruct n ops) :=
              findModel_pre_miss pre _ post p hpre hn
            have hqne : ∀ q, ¬ q = p →
                findModel (pre ++ TopLevelSpec.tupleStruct n
                  (ops.set i op.setBoxed) :: post) q =
                findModel (pre ++ TopLevelSpec.tupleStruct n ops :: post) q := by
              intro q hq
              exact findModel_mid_ne pre (TopLevelSpec.tupleStruct n ops) _ post q rfl
                (fun hh => hq (hh.symm.trans hn))
            refine ⟨?_, ?_, ?_, ?_⟩
            · intro q c2 j
              by_cases hq : q = p
              · subst hq
                rw [slotBoxed_tuple _ _ _ _ hfind2, slotBoxed_tuple _ _ _ _ hfind1]
              · exact slotBoxed_congr _ _ _ (hqne q hq) c2 j
            · intro q fld2 htrue
              by_cases hq : q = p
              · subst hq
                rw [fieldSlotBoxed_tuple _ _ _ _ hfind1] at htrue
                rw [fieldSlotBoxed_tuple _ _ _ _ hfind2]
                cases hp2 : jsParseInt fld2 with
                | none => rw [hp2] at htrue; exact absurd htrue (by simp)
                | some j =>
                  rw [hp2] at htrue
                  show ((ops.set i op.setBoxed).get? j).map TypeSpec.isBoxed = some true
                  by_cases hj : j = i
                  · subst hj
                    rw [get?_set_self ops j op op.setBoxed hop]
                    simp [setBoxed_isBoxed]
                  · rw [get?_set_other ops i j op.setBoxed (fun hh => hj hh.symm)]
                    exact htrue
              · rw [fieldSlotBoxed_congr _ _ _ (hqne q hq) fld2]
                exact htrue
            · rw [normB_append, normB_append]
              have hnm : normSlots TypeSpec.clearB (TopLevelSpec.tupleStruct n
                  (ops.set i op.setBoxed)) =
                  normSlots TypeSpec.clearB (TopLevelSpec.tupleStruct n ops) := by
                show TopLevelSpec.tupleStruct n ((ops.set i op.setBoxed).map TypeSpec.clearB) = _
                rw [map_set_eq TypeSpec.clearB ops i op op.setBoxed hop (clearB_setBoxed op)]
                rfl
              rw [hnm]
            · intro p0 fld0 hd0
              rw [hdec] at hd0
              have hp0 : p0 = p ∧ fld0 = fld := by
                injection hd0 with hd1
                exact ⟨(congrArg Prod.fst hd1).symm, (congrArg Prod.snd hd1).symm⟩
              obtain ⟨hp0a, hp0b⟩ := hp0
              subst hp0a
              subst hp0b
              rw [fieldSlotBoxed_tuple _ _ _ _ hfind2, hparse]
              show ((ops.set i op.setBoxed).get? i).map TypeSpec.isBoxed = some true
              rw [get?_set_self ops i op op.setBoxed hop]
              simp [setBoxed_isBoxed]
      | none =>
        simp only [hparse] at h
        obtain ⟨pre, m, m2, post, e1, e2, hpre, hname, hf⟩ :=
          updateFirstModel_decomp p _ b b2 h
        cases m with
        | tupleStruct n ops => exact absurd hf (by simp)
        | enumSpec n cs => exact absurd hf (by simp)
        | structSpec n fs =>
          have hn : n = p := hname
          cases hget : jsObjGet fs fld with
          | none =>
            simp only [hget] at hf
            exact absurd hf (by simp)
          | some t =>
            simp only [hget] at hf
            have hm2 : m2 = .structSpec n (jsObjInsert fs fld t.setBoxed) := by
              injection hf with hf2
              exact hf2.symm
            subst hm2
            subst e1
            subst e2
            have hfind2 : findModel (pre ++ TopLevelSpec.structSpec n
                (jsObjInsert fs fld t.setBoxed) :: post) p =
                some (TopLevelSpec.structSpec n (jsObjInsert fs fld t.setBoxed)) :=
              findModel_pre_miss pre _ post p hpre hn
            have hfind1 : findModel (pre ++ TopLevelSpec.structSpec n fs :: post) p =
                some (TopLevelSpec.structSpec n fs) :=
              findModel_pre_miss pre _ post p hpre hn
            have hqne : ∀ q, ¬ q = p →
                findModel (pre ++ TopLevelSpec.structSpec n
                  (jsObjInsert fs fld t.setBoxed) :: post) q =
                findModel (pre ++ TopLevelSpec.structSpec n fs :: post) q := by
              intro q hq
              exact findModel_mid_ne pre (TopLevelSpec.structSpec n fs) _ post q rfl
                (fun hh => hq (hh.symm.trans hn))
            refine ⟨?_, ?_, ?_, ?_⟩
            · intro q c2 j
              by_cases hq : q = p
              · subst hq
                rw [slotBoxed_struct _ _ _ _ hfind2, slotBoxed_struct _ _ _ _ hfind1]
              · exact slotBoxed_congr _ _ _ (hqne q hq) c2 j
            · intro q fld2 htrue
              by_cases hq : q = p
              · subst hq
                rw [fieldSlotBoxed_struct _ _ _ _ hfind1] at htrue
                rw [fieldSlotBoxed_struct _ _ _ _ hfind2]
                cases hp2 : jsParseInt fld2 with
                | some j => rw [hp2] at htrue; exact absurd htrue (by simp)
                | none =>
                  rw [hp2] at htrue
                  show (jsObjGet (jsObjInsert fs fld t.setBoxed) fld2).map TypeSpec.isBoxed =
                    some true
                  rw [jsObjGet_insert]
                  by_cases hfld : fld2 = fld
                  · rw [if_pos hfld]
                    simp [setBoxed_isBoxed]
                  · rw [if_neg hfld]
                    exact htrue
              · rw [fieldSlotBoxed_congr _ _ _ (hqne q hq) fld2]
                exact htrue
            · rw [normB_append, normB_append]
              have hnm : normSlots TypeSpec.clearB (TopLevelSpec.structSpec n
                  (jsObjInsert fs fld t.setBoxed)) =
                  normSlots TypeSpec.clearB (TopLevelSpec.structSpec n fs) := by
                show TopLevelSpec.structSpec n ((jsObjInsert fs fld t.setBoxed).map
                  (fun kv => (kv.1, TypeSpec.clearB kv.2))) = _
                rw [jsObjInsert_map_eq TypeSpec.clearB fs fld t t.setBoxed hget
                  (clearB_setBoxed t)]
                rfl
              rw [hnm]
            · intro p0 fld0 hd0
              rw [hdec] at hd0
              have hp0 : p0 = p ∧ fld0 = fld := by
                injection hd0 with hd1
                exact ⟨(congrArg Prod.fst hd1).symm, (congrArg Prod.snd hd1).symm⟩
              obtain ⟨hp0a, hp0b⟩ := hp0
              rw [hp0a, hp0b]
              rw [fieldSlotBoxed_struct _ _ _ _ hfind2, hparse]
              show (jsObjGet (jsObjInsert fs fld t.setBoxed) fld).map TypeSpec.isBoxed =
                some true
              rw [jsObjGet_insert, if_pos rfl]
              simp [setBoxed_isBoxed]

theorem boxCaseVertex_spec (b b2 : List TopLevelSpec) (v : String)
    (h : boxCaseVertex b v = Except.ok b2) :
    (∀ q c2 i, slotBoxed b q c2 i = some true → slotBoxed b2 q c2 i = some true)
    ∧ (∀ q fld, fieldSlotBoxed b2 q fld = fieldSlotBoxed b q fld)
    ∧ normB b2 = normB b
    ∧ (∀ p c k, decodeCaseVertex v = some (p, c, k + 1) → slotBoxed b2 p c k = some true) := by
  unfold boxCaseVertex at h
  cases h1 : jsSplit v "::" with
  | nil =>
    simp only [h1] at h
    exact absurd h (by simp)
  | cons a rest =>
    cases rest with
    | nil =>
      simp only [h1] at h
      exact absurd h (by simp)
    | cons ev rest2 =>
      simp only [h1] at h
      cases h2 : jsSplit ev "#" with
      | nil =>
        simp only [h2] at h
        exact absurd h (by simp)
      | cons c0 rest3 =>
        simp only [h2] at h
        cases h3 : rest3.head? with
        | none =>
          simp only [h3] at h
          exact absurd h (by simp)
        | some idxStr =>
          simp only [h3] at h
          cases h4 : jsParseInt idxStr with
          | none =>
            simp only [h4] at h
            exact absurd h (by simp)
          | some k0 =>
            simp only [h4] at h
            by_cases h5 : k0 = 0
            · rw [if_pos h5] at h
              exact absurd h (by simp)
            · rw [if_neg h5] at h
              obtain ⟨hs, hfs, hnb⟩ := boxEnumOperand_spec b b2 a c0 (k0 - 1) h
              have hdec : decodeCaseVertex v = some (a, c0, k0) := by
                simp only [decodeCaseVertex, h1, h2, h3, h4]
                rfl
              refine ⟨?_, hfs, hnb, ?_⟩
              · intro q c2 i htrue
                rw [hs q c2 i]
                by_cases hcond : q = a ∧ c2 = c0 ∧ i = k0 - 1
                · rw [if_pos hcond]
                · rw [if_neg hcond]
                  exact htrue
              · intro p c k hpc
                rw [hdec] at hpc
                have hinj : a = p ∧ c0 = c ∧ k0 = k + 1 := by
                  injection hpc with hpc2
                  refine ⟨congrArg Prod.fst hpc2, ?_, ?_⟩
                  · exact congrArg (fun x => x.2.1) hpc2
                  · exact congrArg (fun x => x.2.2) hpc2
                obtain ⟨e1, e2, e3⟩ := hinj
                rw [← e1, ← e2, hs a c0 k, if_pos ⟨rfl, rfl, by omega⟩]

theorem decodeCaseVertex_hasSub (v : String) (p c : String) (k : Nat)
    (h : decodeCaseVertex v = some (p, c, k)) : hasSub v "::" = true := by
  rw [decodeCaseVertex] at h
  cases h1 : jsSplit v "::" with
  | nil =>
    simp only [h1] at h
    exact absurd h (by simp)
  | cons a rest =>
    cases rest with
    | nil =>
      simp only [h1] at h
      exact absurd h (by simp)
    | cons b t =>
      rw [hasSub, h1]
      simp only [List.length_cons, bne_iff_ne]
      omega

theorem applyCycleList_split (b b2 : List TopLevelSpec) (comp : List String)
    (h : applyCycleList b comp = Except.ok b2) :
    ∃ mid, ((comp.dropLast.filter (fun x => hasSub x "::")).foldlM boxCaseVertex b =
        Except.ok mid)
      ∧ ((comp.dropLast.filter (fun x => hasSub x ".")).foldlM boxFieldVertex mid =
        Except.ok b2) := by
  have h0 : ((comp.dropLast.filter (fun x => hasSub x "::")).foldlM boxCaseVertex b >>=
      fun mid => (comp.dropLast.filter (fun x => hasSub x ".")).foldlM boxFieldVertex mid) =
      Except.ok b2 := h
  cases h1 : (comp.dropLast.filter (fun x => hasSub x "::")).foldlM boxCaseVertex b with
  | error e =>
    rw [h1] at h0
    exact absurd h0 (by simp [except_error_bind])
  | ok mid =>
    rw [h1, except_ok_bind] at h0
    exact ⟨mid, rfl, h0⟩

theorem applyCycleList_mono_slot (q c : String) (i : Nat) (b b2 : List TopLevelSpec)
    (comp : List String) (h : applyCycleList b comp = Except.ok b2)
    (htrue : slotBoxed b q c i = some true) : slotBoxed b2 q c i = some true := by
  obtain ⟨mid, h1, h2⟩ := applyCycleList_split b b2 comp h
  have hmid := foldlM_ok_preserve boxCaseVertex (fun ms => slotBoxed ms q c i = some true) _
    (fun b x b2 _ hok hP => (boxCaseVertex_spec b b2 x hok).1 q c i hP) b mid h1 htrue
  exact foldlM_ok_preserve boxFieldVertex (fun ms => slotBoxed ms q c i = some true) _
    (fun b x b2 _ hok hP => ((boxFieldVertex_spec b b2 x hok).1 q c i).trans hP)
    mid b2 h2 hmid

theorem applyCycleList_mono_field (q fld : String) (b b2 : List TopLevelSpec)
    (comp : List String) (h : applyCycleList b comp = Except.ok b2)
    (htrue : fieldSlotBoxed b q fld = some true) : fieldSlotBoxed b2 q fld = some true := by
  obtain ⟨mid, h1, h2⟩ := applyCycleList_split b b2 comp h
  have hmid := foldlM_ok_preserve boxCaseVertex
    (fun ms => fieldSlotBoxed ms q fld = some true) _
    (fun b x b2 _ hok hP => ((boxCaseVertex_spec b b2 x hok).2.1 q fld).trans hP)
    b mid h1 htrue
  exact foldlM_ok_preserve boxFieldVertex (fun ms => fieldSlotBoxed ms q fld = some true) _
    (fun b x b2 _ hok hP => (boxFieldVertex_spec b b2 x hok).2.1 q fld hP)
    mid b2 h2 hmid

theorem applyCycleList_normB (b b2 : List TopLevelSpec) (comp : List String)
    (h : applyCycleList b comp = Except.ok b2) : normB b2 = normB b := by
  obtain ⟨mid, h1, h2⟩ := applyCycleList_split b b2 comp h
  have hmid := foldlM_ok_preserve boxCaseVertex (fun ms => normB ms = normB b) _
    (fun b1 x b3 _ hok hP => ((boxCaseVertex_spec b1 b3 x hok).2.2.1).trans hP)
    b mid h1 rfl
  exact foldlM_ok_preserve boxFieldVertex (fun ms => normB ms = normB b) _
    (fun b1 x b3 _ hok hP => ((boxFieldVertex_spec b1 b3 x hok).2.2.1).trans hP)
    mid b2 h2 hmid

/-- Claim C2 (amended): for every component the cycle breaker processes, every
    case-operand vertex except the component's last-listed element (the popped
    DFS root) gets the slot at index suffix-1 of its case marked isBoxed=true
    (the suffix is the case's operand count, decoded as a 1-based index),
    whatever that slot's kind — array slots included; every field/tuple vertex
    except the last-listed gets its slot marked; the stage changes nothing but
    isBoxed flags, and already-boxed slots stay boxed. -/
theorem c2_cycle_boxing_amended (models : List TopLevelSpec)
    (cycles : List (List String)) (out : List TopLevelSpec)
    (h : applyCycles models cycles = Except.ok out) :
    (∀ comp ∈ cycles, ∀ v ∈ comp.dropLast, ∀ p c k,
        decodeCaseVertex v = some (p, c, k + 1) → slotBoxed out p c k = some true)
    ∧ (∀ comp ∈ cycles, ∀ v ∈ comp.dropLast, ∀ p fld,
        decodeFieldVertex v = some (p, fld) → hasSub v "." = true →
          fieldSlotBoxed out p fld = some true)
    ∧ normB out = normB models
    ∧ (∀ q c i, slotBoxed models q c i = some true → slotBoxed out q c i = some true)
    ∧ (∀ q fld, fieldSlotBoxed models q fld = some true →
        fieldSlotBoxed out q fld = some true) := by
  refine ⟨?_, ?_, ?_, ?_, ?_⟩
  · intro comp hcomp v hv p c k hdec
    refine foldlM_ok_mem applyCycleList (fun ms => slotBoxed ms p c k = some true) comp
      ?_ cycles
      (fun b x b2 _ hok hP => applyCycleList_mono_slot p c k b b2 x hok hP)
      models out hcomp h
    intro b b2 hok
    obtain ⟨mid, h1, h2⟩ := applyCycleList_split b b2 comp hok
    have hvmem : v ∈ comp.dropLast.filter (fun x => hasSub x "::") :=
      List.mem_filter.mpr ⟨hv, decodeCaseVertex_hasSub v p c (k + 1) hdec⟩
    have hmid : slotBoxed mid p c k = some true :=
      foldlM_ok_mem boxCaseVertex (fun ms => slotBoxed ms p c k = some true) v
        (fun b1 b3 hok2 => (boxCaseVertex_spec b1 b3 v hok2).2.2.2 p c k hdec) _
        (fun b1 x b3 _ hok2 hP => (boxCaseVertex_spec b1 b3 x hok2).1 p c k hP)
        b mid hvmem h1
    exact foldlM_ok_preserve boxFieldVertex (fun ms => slotBoxed ms p c k = some true) _
      (fun b1 x b3 _ hok2 hP => ((boxFieldVertex_spec b1 b3 x hok2).1 p c k).trans hP)
      mid b2 h2 hmid
  · intro comp hcomp v hv p fld hdec hdot
    refine foldlM_ok_mem applyCycleList (fun ms => fieldSlotBoxed ms p fld = some true) comp
      ?_ cycles
      (fun b x b2 _ hok hP => applyCycleList_mono_field p fld b b2 x hok hP)
      models out hcomp h
    intro b b2 hok
    obtain ⟨mid, h1, h2⟩ := applyCycleList_split b b2 comp hok
    have hvmem : v ∈ comp.dropLast.filter (fun x => hasSub x ".") :=
      List.mem_filter.mpr ⟨hv, hdot⟩
    exact foldlM_ok_mem boxFieldVertex (fun ms => fieldSlotBoxed ms p fld = some true) v
      (fun b1 b3 hok2 => (boxFieldVertex_spec b1 b3 v hok2).2.2.2 p fld hdec) _
      (fun b1 x b3 _ hok2 hP => (boxFieldVertex_spec b1 b3 x hok2).2.1 p fld hP)
      mid b2 hvmem h2
  · exact foldlM_ok_preserve applyCycleList (fun ms => normB ms = normB models) _
      (fun b1 x b3 _ hok hP => (applyCycleList_normB b1 b3 x hok).trans hP)
      models out h rfl
  · intro q c i htrue
    exact foldlM_ok_preserve applyCycleList (fun ms => slotBoxed ms q c i = some true) _
      (fun b1 x b3 _ hok hP => applyCycleList_mono_slot q c i b1 b3 x hok hP)
      models out h htrue
  · intro q fld htrue
    exact foldlM_ok_preserve applyCycleList (fun ms => fieldSlotBoxed ms q fld = some true) _
      (fun b1 x b3 _ hok hP => applyCycleList_mono_field q fld b1 b3 x hok hP)
      models out h htrue

/-- Witness for the amended C2 theorem at the concrete c2inp component. -/
theorem c2_cycle_boxing_amended_witness :
    applyCycles c2parsed [["Q::C#2", "Q"]] = Except.ok c2post
    ∧ slotBoxed c2post "Q" "C" 1 = some true
    ∧ normB c2post = normB c2parsed := by
  have hok : applyCycles c2parsed [["Q::C#2", "Q"]] = Except.ok c2post := rfl
  have hmain := c2_cycle_boxing_amended c2parsed [["Q::C#2", "Q"]] c2post hok
  refine ⟨hok, ?_, hmain.2.2.1⟩
  exact hmain.1 ["Q::C#2", "Q"] (by simp) "Q::C#2" (by decide) "Q" "C" 1 (by decide)

/-! ### The isSized frame of the path walk -/

theorem setUnsized_isSized (t : TypeSpec) : t.setUnsized.isSized = false := by
  cases t <;> rfl

theorem setUnsized_targetName (t : TypeSpec) : t.setUnsized.targetName = t.targetName := by
  cases t <;> rfl

theorem clearS_setUnsized (t : TypeSpec) : t.setUnsized.clearS = t.clearS := by
  cases t <;> rfl

theorem normS_cons (m : TopLevelSpec) (rest : List TopLevelSpec) :
    normS (m :: rest) = normSlots TypeSpec.clearS m :: normS rest := rfl

theorem slotSized_congr (m1 m2 : List TopLevelSpec) (q : String)
    (h : findModel m1 q = findModel m2 q) (c : String) (i : Nat) :
    slotSized m1 q c i = slotSized m2 q c i := by
  rw [slotSized, slotSized, h]

theorem slotSized_cons_ne (m : TopLevelSpec) (rest : List TopLevelSpec) (q : String)
    (h : ¬ m.name = q) (c : String) (i : Nat) :
    slotSized (m :: rest) q c i = slotSized rest q c i := by
  refine slotSized_congr _ _ _ ?_ c i
  rw [findModel_cons, if_neg h]

theorem setOperandUnsized_normS (e c : String) (i : Nat) :
    ∀ ms, normS (setOperandUnsized ms e c i) = normS ms := by
  intro ms
  induction ms with
  | nil => rfl
  | cons m rest ih =>
    show normS (if m.name = e then _ :: rest else m :: setOperandUnsized rest e c i) =
      normS (m :: rest)
    by_cases hn : m.name = e
    · rw [if_pos hn, normS_cons, normS_cons]
      congr 1
      cases m with
      | tupleStruct n ops => rfl
      | structSpec n fs => rfl
      | enumSpec n cs =>
        cases hget : jsObjGet cs c with
        | none => simp only [hget]
        | some ops =>
          simp only [hget]
          cases hop : ops.get? i with
          | none => simp only [hop]
          | some op =>
            simp only [hop]
            show TopLevelSpec.enumSpec n ((jsObjInsert cs c (ops.set i op.setUnsized)).map
              (fun kv => (kv.1, kv.2.map TypeSpec.clearS))) = _
            rw [jsObjInsert_map_eq (fun l => l.map TypeSpec.clearS) cs c ops
              (ops.set i op.setUnsized) hget
              (map_set_eq TypeSpec.clearS ops i op op.setUnsized hop (clearS_setUnsized op))]
            rfl
    · rw [if_neg hn, normS_cons, normS_cons, ih]

theorem findModel_cons_pos (m : TopLevelSpec) (rest : List TopLevelSpec) (q : String)
    (h : m.name = q) : findModel (m :: rest) q = some m := by
  rw [findModel_cons, if_pos h]

theorem findModel_cons_neg (m : TopLevelSpec) (rest : List TopLevelSpec) (q : String)
    (h : ¬ m.name = q) : findModel (m :: rest) q = findModel rest q := by
  rw [findModel_cons, if_neg h]

theorem setOperandUnsized_mono_false (e c : String) (i : Nat) :
    ∀ ms q c2 j, slotSized ms q c2 j = some false →
      slotSized (setOperandUnsized ms e c i) q c2 j = some false := by
  intro ms
  induction ms with
  | nil => intro q c2 j h; exact h
  | cons m rest ih =>
    intro q c2 j h
    show slotSized (if m.name = e then _ :: rest else m :: setOperandUnsized rest e c i)
      q c2 j = some false
    by_cases hn : m.name = e
    · rw [if_pos hn]
      cases m with
      | tupleStruct n ops => exact h
      | structSpec n fs => exact h
      | enumSpec n cs =>
        cases hget : jsObjGet cs c with
        | none =>
          simp only [hget]
          exact h
        | some ops =>
          cases hop : ops.get? i with
          | none =>
            simp only [hget, hop]
            exact h
          | some op =>
            simp only [hget, hop]
            by_cases hq : n = q
            · have hq2 : (TopLevelSpec.enumSpec n
                  (jsObjInsert cs c (ops.set i op.setUnsized))).name = q := hq
              have hq1 : (TopLevelSpec.enumSpec n cs).name = q := hq
              rw [slotSized, findModel_cons_pos _ _ _ hq2]
              rw [slotSized, findModel_cons_pos _ _ _ hq1] at h
              have h2 : (jsObjGet cs c2).bind
                  (fun ops => (ops.get? j).map TypeSpec.isSized) = some false := h
              show (jsObjGet (jsObjInsert cs c (ops.set i op.setUnsized)) c2).bind
                (fun ops => (ops.get? j).map TypeSpec.isSized) = some false
              rw [jsObjGet_insert]
              by_cases hc : c2 = c
              · rw [if_pos hc]
                rw [hc, hget] at h2
                have h3 : (ops.get? j).map TypeSpec.isSized = some false := h2
                show ((ops.set i op.setUnsized).get? j).map TypeSpec.isSized = some false
                by_cases hj : j = i
                · rw [hj, get?_set_self ops i op op.setUnsized hop]
                  simp [setUnsized_isSized]
                · rw [get?_set_other ops i j op.setUnsized (fun hh => hj hh.symm)]
                  exact h3
              · rw [if_neg hc]
                exact h2
            · have hq2 : ¬ (TopLevelSpec.enumSpec n
                  (jsObjInsert cs c (ops.set i op.setUnsized))).name = q := hq
              have hq1 : ¬ (TopLevelSpec.enumSpec n cs).name = q := hq
              rw [slotSized_cons_ne _ rest q hq2]
              rw [slotSized_cons_ne _ rest q hq1] at h
              exact h
    · rw [if_neg hn]
      by_cases hq : m.name = q
      · rw [slotSized, findModel_cons_pos _ _ _ hq] at h
        rw [slotSized, findModel_cons_pos _ _ _ hq]
        exact h
      · rw [slotSized_cons_ne m rest q hq] at h
        rw [slotSized_cons_ne m _ q hq]
        exact ih q c2 j h

theorem getCaseOperand_ok (ms : List TopLevelSpec) (e c : String) (i : Nat) (t : TypeSpec)
    (h : getCaseOperand ms e c i = Except.ok t) :
    ∃ n cs ops, findModel ms e = some (.enumSpec n cs) ∧ jsObjGet cs c = some ops ∧
      ops.get? i = some t := by
  unfold getCaseOperand at h
  cases hf : findModel ms e with
  | none =>
    rw [hf] at h
    exact absurd h (by simp)
  | some m =>
    rw [hf] at h
    cases m with
    | tupleStruct n ops => exact absurd h (by simp)
    | structSpec n fs => exact absurd h (by simp)
    | enumSpec n cs =>
      cases hget : jsObjGet cs c with
      | none =>
        simp only [hget] at h
        exact absurd h (by simp)
      | some ops =>
        simp only [hget] at h
        cases hop : ops.get? i with
        | none =>
          simp only [hop] at h
          exact absurd h (by simp)
        | some t2 =>
          simp only [hop] at h
          have : t2 = t := by injection h
          exact ⟨n, cs, ops, rfl, hget, this ▸ hop⟩

theorem setOperandUnsized_designate (e c : String) (t : TypeSpec) :
    ∀ ms, getCaseOperand ms e c 0 = Except.ok t →
      slotSized (setOperandUnsized ms e c 0) e c 0 = some false := by
  intro ms h
  obtain ⟨n, cs, ops, hfind, hget, hop⟩ := getCaseOperand_ok ms e c 0 t h
  clear h
  induction ms with
  | nil => simp [findModel, List.find?] at hfind
  | cons m rest ih =>
    show slotSized (if m.name = e then _ :: rest else m :: setOperandUnsized rest e c 0)
      e c 0 = some false
    by_cases hn : m.name = e
    · rw [if_pos hn]
      rw [findModel_cons, if_pos hn] at hfind
      have hm : m = .enumSpec n cs := by injection hfind
      subst hm
      simp only [hget, hop]
      have hn2 : (TopLevelSpec.enumSpec n
        (jsObjInsert cs c (ops.set 0 t.setUnsized))).name = e := hn
      rw [slotSized, findModel_cons_pos _ _ _ hn2]
      show (jsObjGet (jsObjInsert cs c (ops.set 0 t.setUnsized)) c).bind
        (fun ops => (ops.get? 0).map TypeSpec.isSized) = some false
      rw [jsObjGet_insert, if_pos rfl]
      show ((ops.set 0 t.setUnsized).get? 0).map TypeSpec.isSized = some false
      rw [get?_set_self ops 0 t t.setUnsized hop]
      simp [setUnsized_isSized]
    · rw [if_neg hn]
      rw [findModel_cons, if_neg hn] at hfind
      rw [slotSized_cons_ne m _ e hn]
      exact ih hfind

theorem setOperandUnsized_frame (e c : String) (i : Nat) :
    ∀ ms q c2 j, ¬(q = e ∧ c2 = c ∧ j = i) →
      slotSized (setOperandUnsized ms e c i) q c2 j = slotSized ms q c2 j := by
  intro ms
  induction ms with
  | nil => intro q c2 j _; rfl
  | cons m rest ih =>
    intro q c2 j hexcl
    show slotSized (if m.name = e then _ :: rest else m :: setOperandUnsized rest e c i)
      q c2 j = slotSized (m :: rest) q c2 j
    by_cases hn : m.name = e
    · rw [if_pos hn]
      cases m with
      | tupleStruct n ops => rfl
      | structSpec n fs => rfl
      | enumSpec n cs =>
        cases hget : jsObjGet cs c with
        | none =>
          simp only [hget]
        | some ops =>
          cases hop : ops.get? i with
          | none =>
            simp only [hget, hop]
          | some op =>
            simp only [hget, hop]
            by_cases hq : n = q
            · have hq2 : (TopLevelSpec.enumSpec n
                  (jsObjInsert cs c (ops.set i op.setUnsized))).name = q := hq
              have hq1 : (TopLevelSpec.enumSpec n cs).name = q := hq
              rw [slotSized, findModel_cons_pos _ _ _ hq2]
              conv_rhs => rw [slotSized, findModel_cons_pos _ _ _ hq1]
              show (jsObjGet (jsObjInsert cs c (ops.set i op.setUnsized)) c2).bind
                  (fun ops => (ops.get? j).map TypeSpec.isSized) =
                (jsObjGet cs c2).bind (fun ops => (ops.get? j).map TypeSpec.isSized)
              rw [jsObjGet_insert]
              by_cases hc : c2 = c
              · rw [if_pos hc]
                have hrhs : (jsObjGet cs c2).bind
                    (fun ops => (ops.get? j).map TypeSpec.isSized) =
                    (ops.get? j).map TypeSpec.isSized := by
                  rw [hc, hget]
                  rfl
                rw [hrhs]
                show ((ops.set i op.setUnsized).get? j).map TypeSpec.isSized =
                  (ops.get? j).map TypeSpec.isSized
                have hj : ¬ j = i := fun hji => hexcl ⟨hq ▸ hn, hc, hji⟩
                rw [get?_set_other ops i j op.setUnsized (fun hh => hj hh.symm)]
              · rw [if_neg hc]
            · have hq2 : ¬ (TopLevelSpec.enumSpec n
                  (jsObjInsert cs c (ops.set i op.setUnsized))).name = q := hq
              have hq1 : ¬ (TopLevelSpec.enumSpec n cs).name = q := hq
              rw [slotSized_cons_ne _ rest q hq2, slotSized_cons_ne _ rest q hq1]
    · rw [if_neg hn]
      by_cases hq : m.name = q
      · rw [slotSized, findModel_cons_pos _ _ _ hq]
        conv_rhs => rw [slotSized, findModel_cons_pos _ _ _ hq]
      · rw [slotSized_cons_ne m _ q hq, slotSized_cons_ne m rest q hq]
        exact ih q c2 j hexcl

theorem except_ok_some_inj {α : Type} (a b : α)
    (h : (Except.ok (some a) : Except String (Option α)) = Except.ok (some b)) : a = b := by
  injection h with h1
  injection h1

theorem except_bind_ok {α β : Type} (e : Except String α) (f : α → Except String β) (b : β)
    (h : (e >>= f) = Except.ok b) : ∃ a, e = Except.ok a ∧ f a = Except.ok b := by
  cases e with
  | error s =>
    rw [except_error_bind] at h
    cases h
  | ok a =>
    rw [except_ok_bind] at h
    exact ⟨a, rfl, h⟩

theorem processVertex_normS (st : WalkSt) (key : String) (st2 : WalkSt)
    (h : processVertex st key = Except.ok (some st2)) :
    normS st2.models = normS st.models := by
  unfold processVertex at h
  split at h
  · have he := except_ok_some_inj _ _ h
    subst he
    rfl
  · split at h
    · split at h
      · split at h
        · split at h
          · injection h with h1
            cases h1
          · split at h
            · injection h with h1
              cases h1
            · split at h
              · injection h with h1
                cases h1
              · obtain ⟨t, hg, hf⟩ := except_bind_ok _ _ _ h
                split at hf
                · have he := except_ok_some_inj _ _ hf
                  subst he
                  exact setOperandUnsized_normS _ _ 0 st.models
                · have he := except_ok_some_inj _ _ hf
                  subst he
                  rfl
        · cases h
      · cases h
    · have he := except_ok_some_inj _ _ h
      subst he
      rfl

theorem walkPath_normS :
    ∀ (l : List String) (st : WalkSt) (ms : List TopLevelSpec) (o : Option WalkSt),
      walkPath st l = Except.ok (ms, o) →
      normS ms = normS st.models ∧
        ∀ st2, o = some st2 → normS st2.models = normS st.models := by
  intro l
  induction l with
  | nil =>
    intro st ms o h
    injection h with h1
    injection h1 with h2 h3
    subst h2
    subst h3
    exact ⟨rfl, fun st2 he => by injection he with he2; rw [he2]⟩
  | cons key rest ih =>
    intro st ms o h
    show normS ms = normS st.models ∧ _
    have h0 : (processVertex st key >>= fun r =>
        match r with
        | none => Except.ok (st.models, none)
        | some st2 => walkPath st2 rest) = Except.ok (ms, o) := h
    cases hp : processVertex st key with
    | error e =>
      rw [hp, except_error_bind] at h0
      cases h0
    | ok r =>
      rw [hp, except_ok_bind] at h0
      cases r with
      | none =>
        injection h0 with h1
        injection h1 with h2 h3
        subst h2
        subst h3
        exact ⟨rfl, fun st2 he => by cases he⟩
      | some stNext =>
        have hn := processVertex_normS st key stNext hp
        obtain ⟨hms, hopt⟩ := ih stNext ms o h0
        exact ⟨hms.trans hn, fun st2 he => (hopt st2 he).trans hn⟩

theorem processPath_normS (models : List TopLevelSpec) (path : List String)
    (ms : List TopLevelSpec) (o : Option (String × List PathItem))
    (h : processPath models path = Except.ok (ms, o)) :
    normS ms = normS models := by
  unfold processPath at h
  split at h
  · injection h with h1
    injection h1 with h2 h3
    rw [← h2]
  · split at h
    · injection h with h1
      injection h1 with h2 h3
      rw [← h2]
    · cases hw : walkPath ⟨models, none, "", []⟩ path with
      | error e =>
        rw [hw, except_error_bind] at h
        cases h
      | ok r =>
        rw [hw, except_ok_bind] at h
        obtain ⟨r1, r2⟩ := r
        obtain ⟨hms, hopt⟩ := walkPath_normS path ⟨models, none, "", []⟩ r1 r2 hw
        cases r2 with
        | none =>
          injection h with h1
          injection h1 with h2 h3
          rw [← h2]
          exact hms
        | some stF =>
          injection h with h1
          injection h1 with h2 h3
          rw [← h2]
          exact hopt stF rfl

theorem pathsFromSource_normS (models : List TopLevelSpec) (g : DGraph) (topKey : String)
    (ms : List TopLevelSpec) (ps : List (String × List PathItem))
    (h : pathsFromSource models g topKey = Except.ok (ms, ps)) :
    normS ms = normS models := by
  unfold pathsFromSource at h
  split at h
  · injection h with h1
    injection h1 with h2 h3
    rw [← h2]
  · have h0 : g.nodes.foldlM (fun acc key =>
        match jsObjGet (bfsFrom g topKey).dist key with
        | none => Except.ok acc
        | some _ => do
          let pr ← processPath acc.1 (reconstructPath (bfsFrom g topKey) key)
          match pr.2 with
          | none => Except.ok (pr.1, acc.2)
          | some (tn, items) => Except.ok (pr.1, jsObjInsert acc.2 tn items))
        (models, ([] : List (String × List PathItem)))
        = Except.ok (ms, ps) := h
    have := foldlM_ok_preserve _
      (fun acc : List TopLevelSpec × List (String × List PathItem) =>
        normS acc.1 = normS models)
      g.nodes ?_ (models, []) (ms, ps) h0 rfl
    · exact this
    · intro b a b2 _ hf hP
      cases hjd : jsObjGet (bfsFrom g topKey).dist a with
      | none =>
        simp only [hjd] at hf
        injection hf with h1
        rw [← h1]
        exact hP
      | some d =>
        simp only [hjd] at hf
        cases hpp : processPath b.1 (reconstructPath (bfsFrom g topKey) a) with
        | error e =>
          rw [hpp, except_error_bind] at hf
          cases hf
        | ok pr =>
          rw [hpp, except_ok_bind] at hf
          obtain ⟨pr1, pr2⟩ := pr
          have hmid := processPath_normS b.1 _ pr1 pr2 hpp
          cases pr2 with
          | none =>
            injection hf with h1
            rw [← h1]
            exact hmid.trans hP
          | some tni =>
            obtain ⟨tn, items⟩ := tni
            injection hf with h1
            rw [← h1]
            exact hmid.trans hP

theorem derivePaths_frame (models out : List TopLevelSpec) (paths : Paths)
    (h : derivePaths models = Except.ok (out, paths)) :
    ∃ mid, applyCycles models (findCycles (buildGraph models)) = Except.ok mid ∧
      normB mid = normB models ∧ normS out = normS mid := by
  have h0 : (applyCycles models (findCycles (buildGraph models)) >>= fun models2 =>
      if (buildGraph models).nodes.isEmpty then
        (Except.error "reduce of empty array with no initial value" :
          Except String (List TopLevelSpec × Paths))
      else
        ((buildGraph models).nodes.foldlM
          (fun (acc : List TopLevelSpec × Paths) topKey =>
            pathsFromSource acc.1 (buildGraph models) topKey >>= fun pr =>
              Except.ok (pr.1,
                if pr.2.isEmpty then acc.2 else jsObjInsert acc.2 topKey pr.2))
          (models2, ([] : Paths)) >>= fun r =>
          Except.ok (r.1, refreshPaths r.1 r.2))) = Except.ok (out, paths) := h
  obtain ⟨mid, hc, hrest⟩ := except_bind_ok _ _ _ h0
  refine ⟨mid, hc, ?_, ?_⟩
  · exact foldlM_ok_preserve applyCycleList (fun ms => normB ms = normB models) _
      (fun b1 x b3 _ hok hP => (applyCycleList_normB b1 b3 x hok).trans hP)
      models mid hc rfl
  · split at hrest
    · cases hrest
    · obtain ⟨r, hfold, hok⟩ := except_bind_ok _ _ _ hrest
      obtain ⟨r1, r2⟩ := r
      injection hok with h1
      injection h1 with h2 h3
      rw [← h2]
      refine foldlM_ok_preserve _
        (fun acc : List TopLevelSpec × Paths => normS acc.1 = normS mid)
        (buildGraph models).nodes ?_ (mid, []) (r1, r2) hfold rfl
      intro b a b2 _ hf hP
      obtain ⟨pr, hps, hokk⟩ := except_bind_ok _ _ _ hf
      obtain ⟨pr1, pr2⟩ := pr
      injection hokk with h4
      rw [← h4]
      exact (pathsFromSource_normS b.1 _ a pr1 pr2 hps).trans hP

/-- C7 (corrected): after parsing, the cycle-breaking stage S3 mutates the
    specs only in isBoxed (everything else, normalised by clearing isBoxed, is
    unchanged), and the path-inference stage S4 mutates them only in isSized
    (everything else, normalised by clearing isSized, is unchanged); the
    claimed frame "S3 is the sole mutator" fails because S4 flips isSized. -/
theorem c7_mutation_frame_amended (input : List (String × RawVal))
    (out : List TopLevelSpec) (paths : Paths)
    (h : pipeline input = Except.ok (out, paths)) :
    ∃ models mid,
      parseModels input = Except.ok models ∧
      applyCycles models (findCycles (buildGraph models)) = Except.ok mid ∧
      normB mid = normB models ∧ normS out = normS mid := by
  have h0 : (parseModels input >>= fun models => derivePaths models)
      = Except.ok (out, paths) := h
  obtain ⟨models, hp, hd⟩ := except_bind_ok _ _ _ h0
  obtain ⟨mid, hc, hB, hS⟩ := derivePaths_frame models out paths hd
  exact ⟨models, mid, hp, hc, hB, hS⟩

theorem findModel_name (models : List TopLevelSpec) (n : String) (m : TopLevelSpec)
    (h : findModel models n = some m) : m.name = n := by
  have h2 : models.find? (fun mm => mm.name = n) = some m := h
  have h3 := List.find?_some h2
  exact of_decide_eq_true h3

theorem nodup_key_unique {α β : Type} : ∀ (l : List (α × β)),
    (l.map Prod.fst).Nodup → ∀ k v1 v2, (k, v1) ∈ l → (k, v2) ∈ l → v1 = v2 := by
  intro l
  induction l with
  | nil =>
    intro _ k v1 v2 h1
    exact absurd h1 (by simp)
  | cons x xs ih =>
    intro hnd k v1 v2 h1 h2
    rw [List.map_cons, List.nodup_cons] at hnd
    obtain ⟨hx, hxs⟩ := hnd
    cases List.mem_cons.mp h1 with
    | inl he1 =>
      cases List.mem_cons.mp h2 with
      | inl he2 =>
        rw [← he1] at he2
        injection he2 with _ hv
        exact hv.symm
      | inr hm2 =>
        exfalso
        exact hx (by rw [← he1]; exact List.mem_map.mpr ⟨(k, v2), hm2, rfl⟩)
    | inr hm1 =>
      cases List.mem_cons.mp h2 with
      | inl he2 =>
        exfalso
        exact hx (by rw [← he2]; exact List.mem_map.mpr ⟨(k, v1), hm1, rfl⟩)
      | inr hm2 => exact ih hxs k v1 v2 hm1 hm2

theorem foldlM_append_shape {α β : Type} (f : List β → α → Except String (List β))
    (g : α → Except String (List β))
    (hf : ∀ acc x, f acc x = g x >>= fun outs => Except.ok (acc ++ outs)) :
    ∀ (l : List α) (acc out : List β), l.foldlM f acc = Except.ok out →
      ∃ rest, out = acc ++ rest ∧
        (∀ x ∈ l, ∃ outs, g x = Except.ok outs ∧ ∀ e ∈ outs, e ∈ rest) ∧
        (∀ e ∈ rest, ∃ x, x ∈ l ∧ ∃ outs, g x = Except.ok outs ∧ e ∈ outs) := by
  intro l
  induction l with
  | nil =>
    intro acc out h
    refine ⟨[], ?_, ?_, ?_⟩
    · simp only [List.foldlM_nil] at h
      injection h with h1
      rw [← h1, List.append_nil]
    · intro x hx
      exact absurd hx (by simp)
    · intro e he
      exact absurd he (by simp)
  | cons x xs ih =>
    intro acc out h
    rw [List.foldlM_cons, hf acc x] at h
    obtain ⟨acc2, hga, hrest⟩ := except_bind_ok _ _ _ h
    obtain ⟨outs, hg, hacc2⟩ := except_bind_ok _ _ _ hga
    injection hacc2 with h2
    subst h2
    obtain ⟨rest2, hout, hfwd, hbwd⟩ := ih (acc ++ outs) out hrest
    refine ⟨outs ++ rest2, ?_, ?_, ?_⟩
    · rw [hout, List.append_assoc]
    · intro y hy
      cases List.mem_cons.mp hy with
      | inl he =>
        subst he
        exact ⟨outs, hg, fun e he2 => List.mem_append.mpr (Or.inl he2)⟩
      | inr hm =>
        obtain ⟨outs2, hg2, hsub⟩ := hfwd y hm
        exact ⟨outs2, hg2, fun e he2 => List.mem_append.mpr (Or.inr (hsub e he2))⟩
    · intro e he
      cases List.mem_append.mp he with
      | inl h1 => exact ⟨x, List.mem_cons_self x xs, outs, hg, h1⟩
      | inr h2 =>
        obtain ⟨y, hym, outs2, hg2, he2⟩ := hbwd e h2
        exact ⟨y, List.mem_cons_of_mem x hym, outs2, hg2, he2⟩

theorem foldlM_append_translate {α β : Type} (f : List β → α → Except String (List β))
    (g : α → Except String (List β))
    (hf : ∀ acc x, f acc x = g x >>= fun outs => Except.ok (acc ++ outs)) :
    ∀ (l : List α) (acc : List β),
      l.foldlM f acc = (l.foldlM f []) >>= fun rest => Except.ok (acc ++ rest) := by
  intro l
  induction l with
  | nil =>
    intro acc
    show Except.ok acc = Except.ok ([] : List β) >>= fun rest => Except.ok (acc ++ rest)
    rw [except_ok_bind, List.append_nil]
  | cons x xs ih =>
    intro acc
    rw [List.foldlM_cons, List.foldlM_cons, hf acc x, hf ([] : List β) x]
    cases hg : g x with
    | error e => rfl
    | ok outs =>
      show xs.foldlM f (acc ++ outs) =
        (xs.foldlM f outs) >>= fun rest => Except.ok (acc ++ rest)
      rw [ih (acc ++ outs), ih outs]
      cases hrest : xs.foldlM f ([] : List β) with
      | error e => rfl
      | ok r => rw [except_ok_bind, except_ok_bind, except_ok_bind, List.append_assoc]

theorem toName_eq (models : List TopLevelSpec) (t : String) :
    (match findModel models t with | some m => m.name | none => t) = t := by
  cases hm : findModel models t with
  | none => rfl
  | some m => exact findModel_name models t m hm

theorem generateCastFn_ok (f t : String) (items : List PathItem) (lossless : Bool)
    (outs : List EmittedImpl) (h : generateCastFn f t items lossless = Except.ok outs) :
    ∃ specs, itemsToSpecs items = Except.ok specs ∧
      outs = (if lossless then [EmittedImpl.fromImpl f t (castLoop specs).2]
        else [EmittedImpl.tryFromImpl f t (castLoop specs).1,
              EmittedImpl.fromImpl f t (castLoop specs).2]) := by
  unfold generateCastFn at h
  obtain ⟨specs, hs, hrest⟩ := except_bind_ok _ _ _ h
  injection hrest with h1
  exact ⟨specs, hs, h1.symm⟩

theorem castFns_inner_shape (models : List TopLevelSpec) (paths : Paths)
    (fromKeyV : String) (acc : List EmittedImpl) (kv2 : String × List PathItem) :
    (do
      let fromType ←
        match findModel models fromKeyV with
        | some m => Except.ok m
        | none => Except.error ("From type should not be null: " ++ fromKeyV)
      let toName :=
        match findModel models kv2.1 with
        | some m => m.name
        | none => kv2.1
      let isLossless := (lookup2 paths kv2.1 fromKeyV).isSome
      let outs ← generateCastFn fromType.name toName kv2.2 isLossless
      Except.ok (acc ++ outs)) =
    ((match findModel models fromKeyV with
      | some m => Except.ok m
      | none => Except.error ("From type should not be null: " ++ fromKeyV)) >>=
        fun fromType =>
      generateCastFn fromType.name
        (match findModel models kv2.1 with | some m => m.name | none => kv2.1)
        kv2.2 ((lookup2 paths kv2.1 fromKeyV).isSome)) >>= fun outs =>
      Except.ok (acc ++ outs) := by
  cases hm : findModel models fromKeyV with
  | none => rfl
  | some m => rfl

theorem fromMatch_ok (models : List TopLevelSpec) (k : String) (fromType : TopLevelSpec)
    (hft : (match findModel models k with
      | some m => Except.ok m
      | none => Except.error ("From type should not be null: " ++ k)) =
        Except.ok fromType) :
    findModel models k = some fromType := by
  cases hm : findModel models k with
  | none =>
    simp only [hm] at hft
    exact Except.noConfusion hft
  | some m =>
    simp only [hm] at hft
    injection hft with h1
    rw [h1]

theorem drop_get_cons {α : Type} : ∀ (l : List α) (j : Nat) (a : α),
    l.get? j = some a → l.drop j = a :: l.drop (j + 1) := by
  intro l
  induction l with
  | nil =>
    intro j a h
    exact Option.noConfusion h
  | cons x xs ih =>
    intro j a h
    cases j with
    | zero =>
      injection h with h1
      subst h1
      rfl
    | succ j => exact ih j a h

theorem castLoop_aux (path : List PathSpec) :
    ∀ k j, j + k = path.length →
      (List.range' j k).foldr
        (fun i (acc : List String × String) =>
          match path.get? i with
          | none => acc
          | some cur => (castLineAt path i :: acc.1, castItem cur acc.2))
        ([], "value")
      = ((List.range' j k).map (castLineAt path),
         (path.drop j).foldr castItem "value") := by
  intro k
  induction k with
  | zero =>
    intro j hj
    have hjl : j = path.length := by omega
    rw [hjl, List.drop_length]
    rfl
  | succ k ih =>
    intro j hj
    rw [List.range'_succ, List.foldr_cons, ih (j + 1) (by omega)]
    cases hg : path.get? j with
    | none =>
      exfalso
      have := List.get?_eq_none.mp hg
      omega
    | some cur =>
      simp only [hg]
      rw [drop_get_cons path j cur hg, List.foldr_cons, List.map_cons]

theorem castLoop_spec (path : List PathSpec) :
    castLoop path = ((List.range path.length).map (castLineAt path),
      path.foldr castItem "value") := by
  unfold castLoop
  rw [List.foldl_reverse, List.range_eq_range']
  exact castLoop_aux path path.length 0 (by omega)

/-- C4: for an emitted cast over hops none of which is an array slot (true of
    every retained inferred path, whose graph edges exclude array slots), the
    loop emits one extraction line per hop and nests the injection from the
    terminal hop outward; the match value is dereferenced iff the preceding
    hop is boxed and not an array, a first hop never dereferences, and the
    injection wraps in Box::new iff the current hop is boxed, not an array,
    and sized. -/
theorem c4_cast_state_machine (path : List PathSpec)
    (hna : ∀ p ∈ path, p.typeSpec.isArray = false) :
    castLoop path = ((List.range path.length).map (castLineAt path),
      path.foldr (fun cur v =>
        if cur.typeSpec.isBoxed && !cur.typeSpec.isArray && cur.typeSpec.isSized then
          cur.enumName ++ "::" ++ cur.enumCase ++ "(Box::new(" ++ v ++ "))"
        else cur.enumName ++ "::" ++ cur.enumCase ++ "(" ++ v ++ ")") "value") ∧
    (∀ i cur before, path.get? i = some cur → path.get? (i - 1) = some before →
      i ≠ 0 →
      matchValueStr (some before) cur =
        if before.typeSpec.isBoxed && !before.typeSpec.isArray then "*value"
        else "value") ∧
    (∀ cur, matchValueStr none cur = "value") := by
  refine ⟨castLoop_spec path, ?_, fun cur => rfl⟩
  intro i cur before hcur hbef _
  have hc := hna cur (List.get?_mem hcur)
  have hb := hna before (List.get?_mem hbef)
  show (if (before.typeSpec.isBoxed && !cur.typeSpec.isArray) = true
    then "*value" else "value") = _
  rw [hc, hb]

/-- Witness for the C4 theorem on a concrete two-hop path. -/
theorem c4_cast_state_machine_witness :
    (∀ p ∈ [(⟨"A", "MkB", "B", .tname "B" false false true true⟩ : PathSpec),
            ⟨"B", "MkC", "u8", .tname "u8" false false false true⟩],
        p.typeSpec.isArray = false) ∧
    (castLoop [(⟨"A", "MkB", "B", .tname "B" false false true true⟩ : PathSpec),
        ⟨"B", "MkC", "u8", .tname "u8" false false false true⟩] =
      ((List.range ([(⟨"A", "MkB", "B", .tname "B" false false true true⟩ : PathSpec),
          ⟨"B", "MkC", "u8", .tname "u8" false false false true⟩]).length).map
        (castLineAt [(⟨"A", "MkB", "B", .tname "B" false false true true⟩ : PathSpec),
          ⟨"B", "MkC", "u8", .tname "u8" false false false true⟩]),
       ([(⟨"A", "MkB", "B", .tname "B" false false true true⟩ : PathSpec),
          ⟨"B", "MkC", "u8", .tname "u8" false false false true⟩]).foldr (fun cur v =>
        if cur.typeSpec.isBoxed && !cur.typeSpec.isArray && cur.typeSpec.isSized then
          cur.enumName ++ "::" ++ cur.enumCase ++ "(Box::new(" ++ v ++ "))"
        else cur.enumName ++ "::" ++ cur.enumCase ++ "(" ++ v ++ ")") "value") ∧
    (∀ i cur before,
      ([(⟨"A", "MkB", "B", .tname "B" false false true true⟩ : PathSpec),
          ⟨"B", "MkC", "u8", .tname "u8" false false false true⟩]).get? i = some cur →
      ([(⟨"A", "MkB", "B", .tname "B" false false true true⟩ : PathSpec),
          ⟨"B", "MkC", "u8", .tname "u8" false false false true⟩]).get? (i - 1) =
        some before →
      i ≠ 0 →
      matchValueStr (some before) cur =
        if before.typeSpec.isBoxed && !before.typeSpec.isArray then "*value"
        else "value") ∧
    (∀ cur, matchValueStr none cur = "value")) :=
  ⟨by decide,
   c4_cast_state_machine
     [⟨"A", "MkB", "B", .tname "B" false false true true⟩,
      ⟨"B", "MkC", "u8", .tname "u8" false false false true⟩] (by decide)⟩

/-- C6 (corrected): during the path walk, isSized=false is forced only at a
    hop step: the walk must sit right after a case vertex (enumKey set), the
    vertex label must decode to operand count 1, and the case's first operand
    must have type field directly "str"; then exactly that operand is set
    isSized=false (every other slot keeps its isSized reading) and the hop is
    reported with payload type name "Box<str>". Every other accepted step
    leaves the models unchanged, so str leaves not crossed by a retained path
    keep isSized=true. -/
theorem c6_str_amended (st : WalkSt) (key : String) (st2 : WalkSt)
    (h : processVertex st key = Except.ok (some st2)) :
    st2.models = st.models ∨
    ∃ ek enumName enumValue tailSplit enumCase idxRest idxStr t,
      hasSub key "::" = false ∧
      st.enumKey = some ek ∧
      jsSplit ek "::" = enumName :: enumValue :: tailSplit ∧
      jsSplit enumValue "#" = enumCase :: idxRest ∧
      idxRest.head? = some idxStr ∧
      jsParseInt idxStr = some 1 ∧
      getCaseOperand st.models enumName enumCase 0 = Except.ok t ∧
      t.targetName = some "str" ∧
      st2.models = setOperandUnsized st.models enumName enumCase 0 ∧
      st2.typeName = "Box<str>" ∧
      st2.newPath = st.newPath ++ [.hop ⟨enumName, enumCase, "Box<str>", t.setUnsized⟩] ∧
      slotSized st2.models enumName enumCase 0 = some false ∧
      (∀ q c2 j, ¬(q = enumName ∧ c2 = enumCase ∧ j = 0) →
        slotSized st2.models q c2 j = slotSized st.models q c2 j) := by
  unfold processVertex at h
  cases hkb : hasSub key "::" with
  | true =>
    rw [if_pos hkb] at h
    have he := except_ok_some_inj _ _ h
    subst he
    exact Or.inl rfl
  | false =>
    have hk : ¬ hasSub key "::" = true := fun hh => by
      rw [hkb] at hh
      exact Bool.noConfusion hh
    rw [if_neg hk] at h
    cases hek : st.enumKey with
    | none =>
      simp only [hek] at h
      have he := except_ok_some_inj _ _ h
      subst he
      exact Or.inl rfl
    | some ek =>
      simp only [hek] at h
      cases hsp : jsSplit ek "::" with
      | nil =>
        simp only [hsp] at h
        exact Except.noConfusion h
      | cons enumName tail =>
        cases tail with
        | nil =>
          simp only [hsp] at h
          exact Except.noConfusion h
        | cons enumValue tail2 =>
          simp only [hsp] at h
          cases hsp2 : jsSplit enumValue "#" with
          | nil =>
            simp only [hsp2] at h
            exact Except.noConfusion h
          | cons enumCase rest =>
            simp only [hsp2] at h
            cases hhd : rest.head? with
            | none =>
              simp only [hhd] at h
              injection h with h1
              exact Option.noConfusion h1
            | some idxStr =>
              simp only [hhd] at h
              cases hpi : jsParseInt idxStr with
              | none =>
                simp only [hpi] at h
                injection h with h1
                exact Option.noConfusion h1
              | some k =>
                simp only [hpi] at h
                by_cases hk1 : k ≠ 1
                · rw [if_pos hk1] at h
                  injection h with h1
                  exact Option.noConfusion h1
                · rw [if_neg hk1] at h
                  have hk1e : k = 1 := not_not.mp hk1
                  subst hk1e
                  obtain ⟨t, hg, hf⟩ := except_bind_ok _ _ _ h
                  by_cases hstr : t.targetName = some "str"
                  · rw [if_pos hstr] at hf
                    have he := except_ok_some_inj _ _ hf
                    subst he
                    refine Or.inr ⟨ek, enumName, enumValue, tail2, enumCase, rest,
                      idxStr, t, rfl, rfl, hsp, hsp2, hhd, hpi, hg, hstr,
                      rfl, rfl, rfl, ?_, ?_⟩
                    · exact setOperandUnsized_designate enumName enumCase t st.models hg
                    · intro q c2 j hexcl
                      exact setOperandUnsized_frame enumName enumCase 0 st.models q c2 j hexcl
                  · rw [if_neg hstr] at hf
                    have he := except_ok_some_inj _ _ hf
                    subst he
                    exact Or.inl rfl

/-- Witness for the amended C6 theorem at the str hop of the c7inp walk. -/
theorem c6_str_amended_witness :
    processVertex ⟨c7postS3, some "A::S#1", "", []⟩ "str" =
      Except.ok (some ⟨c7postS4, none, "Box<str>",
        [.hop ⟨"A", "S", "Box<str>", .tname "str" false false false false⟩]⟩) ∧
    ((⟨c7postS4, none, "Box<str>",
        [.hop ⟨"A", "S", "Box<str>", .tname "str" false false false false⟩]⟩ :
          WalkSt).models = (⟨c7postS3, some "A::S#1", "", []⟩ : WalkSt).models ∨
      ∃ ek enumName enumValue tailSplit enumCase idxRest idxStr t,
        hasSub "str" "::" = false ∧
        (⟨c7postS3, some "A::S#1", "", []⟩ : WalkSt).enumKey = some ek ∧
        jsSplit ek "::" = enumName :: enumValue :: tailSplit ∧
        jsSplit enumValue "#" = enumCase :: idxRest ∧
        idxRest.head? = some idxStr ∧
        jsParseInt idxStr = some 1 ∧
        getCaseOperand (⟨c7postS3, some "A::S#1", "", []⟩ : WalkSt).models
          enumName enumCase 0 = Except.ok t ∧
        t.targetName = some "str" ∧
        (⟨c7postS4, none, "Box<str>",
          [.hop ⟨"A", "S", "Box<str>", .tname "str" false false false false⟩]⟩ :
            WalkSt).models =
          setOperandUnsized (⟨c7postS3, some "A::S#1", "", []⟩ : WalkSt).models
            enumName enumCase 0 ∧
        (⟨c7postS4, none, "Box<str>",
          [.hop ⟨"A", "S", "Box<str>", .tname "str" false false false false⟩]⟩ :
            WalkSt).typeName = "Box<str>" ∧
        (⟨c7postS4, none, "Box<str>",
          [.hop ⟨"A", "S", "Box<str>", .tname "str" false false false false⟩]⟩ :
            WalkSt).newPath =
          (⟨c7postS3, some "A::S#1", "", []⟩ : WalkSt).newPath ++
            [.hop ⟨enumName, enumCase, "Box<str>", t.setUnsized⟩] ∧
        slotSized (⟨c7postS4, none, "Box<str>",
          [.hop ⟨"A", "S", "Box<str>", .tname "str" false false false false⟩]⟩ :
            WalkSt).models enumName enumCase 0 = some false ∧
        (∀ q c2 j, ¬(q = enumName ∧ c2 = enumCase ∧ j = 0) →
          slotSized (⟨c7postS4, none, "Box<str>",
            [.hop ⟨"A", "S", "Box<str>", .tname "str" false false false false⟩]⟩ :
              WalkSt).models q c2 j =
          slotSized (⟨c7postS3, some "A::S#1", "", []⟩ : WalkSt).models q c2 j)) :=
  ⟨rfl, c6_str_amended ⟨c7postS3, some "A::S#1", "", []⟩ "str"
    ⟨c7postS4, none, "Box<str>",
      [.hop ⟨"A", "S", "Box<str>", .tname "str" false false false false⟩]⟩ rfl⟩

/-! ### Split and digit lemmas for vertex labels -/

theorem splitAux_fuel (sep : List Char) :
    ∀ (fuel fuel2 : Nat) (l acc : List Char), l.length ≤ fuel → l.length ≤ fuel2 →
      splitAux sep fuel l acc = splitAux sep fuel2 l acc := by
  intro fuel
  induction fuel with
  | zero =>
    intro fuel2 l acc h1 _
    have hl : l = [] := List.eq_nil_of_length_eq_zero (by omega)
    subst hl
    cases fuel2 <;> rfl
  | succ f ih =>
    intro fuel2 l acc h1 h2
    cases l with
    | nil => cases fuel2 <;> rfl
    | cons c rest =>
      cases fuel2 with
      | zero => simp at h2
      | succ f2 =>
        show (if sep.isPrefixOf (c :: rest) = true then
            acc.reverse :: splitAux sep f (rest.drop (sep.length - 1)) []
          else splitAux sep f rest (c :: acc)) =
          (if sep.isPrefixOf (c :: rest) = true then
            acc.reverse :: splitAux sep f2 (rest.drop (sep.length - 1)) []
          else splitAux sep f2 rest (c :: acc))
        simp only [List.length_cons] at h1 h2
        by_cases hp : sep.isPrefixOf (c :: rest) = true
        · rw [if_pos hp, if_pos hp]
          congr 1
          have hd := List.length_drop (sep.length - 1) rest
          exact ih f2 _ [] (by omega) (by omega)
        · rw [if_neg hp, if_neg hp]
          exact ih f2 rest (c :: acc) (by omega) (by omega)

theorem splitAux_scan (s0 : Char) (srest : List Char) :
    ∀ (a t acc : List Char) (fuel : Nat), a.length ≤ fuel →
      (∀ c ∈ a, ¬ c = s0) →
      splitAux (s0 :: srest) fuel (a ++ t) acc =
        splitAux (s0 :: srest) (fuel - a.length) t (a.reverse ++ acc) := by
  intro a
  induction a with
  | nil =>
    intro t acc fuel _ _
    rfl
  | cons c a' ih =>
    intro t acc fuel hf hch
    cases fuel with
    | zero => simp at hf
    | succ f =>
      show (if (s0 :: srest).isPrefixOf (c :: (a' ++ t)) = true then
          acc.reverse ::
            splitAux (s0 :: srest) f ((a' ++ t).drop ((s0 :: srest).length - 1)) []
        else splitAux (s0 :: srest) f (a' ++ t) (c :: acc)) = _
      have hc : ¬ c = s0 := hch c (List.mem_cons_self c a')
      have hpre : (s0 :: srest).isPrefixOf (c :: (a' ++ t)) = false := by
        show (s0 == c && srest.isPrefixOf (a' ++ t)) = false
        have hb : (s0 == c) = false := beq_eq_false_iff_ne.mpr (fun h => hc h.symm)
        rw [hb, Bool.false_and]
      rw [if_neg (by rw [hpre]; exact fun h => Bool.noConfusion h)]
      rw [ih t (c :: acc) f (by simp only [List.length_cons] at hf; omega)
        (fun x hx => hch x (List.mem_cons_of_mem c hx))]
      have hfu : f + 1 - (c :: a').length = f - a'.length := by
        simp only [List.length_cons]
        omega
      rw [hfu, List.reverse_cons, List.append_assoc]
      rfl

theorem isPrefixOf_append_self : ∀ (sep b : List Char), sep.isPrefixOf (sep ++ b) = true := by
  intro sep
  induction sep with
  | nil => intro b; simp [List.isPrefixOf]
  | cons c cs ih =>
    intro b
    simp [List.isPrefixOf, ih b]

theorem splitAux_boundary (s0 : Char) (srest b acc : List Char) (f : Nat) :
    splitAux (s0 :: srest) (f + 1) ((s0 :: srest) ++ b) acc =
      acc.reverse :: splitAux (s0 :: srest) f b [] := by
  show (if (s0 :: srest).isPrefixOf (s0 :: (srest ++ b)) = true then
      acc.reverse ::
        splitAux (s0 :: srest) f ((srest ++ b).drop ((s0 :: srest).length - 1)) []
    else splitAux (s0 :: srest) f (srest ++ b) (s0 :: acc)) = _
  rw [if_pos (show (s0 :: srest).isPrefixOf (s0 :: (srest ++ b)) = true from
    isPrefixOf_append_self (s0 :: srest) b)]
  have hl : (s0 :: srest).length - 1 = srest.length := by
    simp only [List.length_cons]
    omega
  rw [hl, List.drop_left]

theorem jsSplit_no_head (s : String) (s0 : Char) (srest : List Char)
    (h : ∀ c ∈ s.data, ¬ c = s0) :
    jsSplit s ⟨s0 :: srest⟩ = [s] := by
  obtain ⟨d⟩ := s
  show (splitAux (s0 :: srest) d.length d []).map (fun l => (⟨l⟩ : String)) = _
  have hs := splitAux_scan s0 srest d [] [] d.length (le_refl _) h
  rw [List.append_nil] at hs
  rw [hs, Nat.sub_self]
  have hmap : (splitAux (s0 :: srest) 0 [] (d.reverse ++ [])).map
      (fun l => (⟨l⟩ : String)) = [String.mk (d.reverse ++ []).reverse] := rfl
  rw [hmap, List.append_nil, List.reverse_reverse]

theorem jsSplit_append (a b : List Char) (s0 : Char) (srest : List Char)
    (h : ∀ c ∈ a, ¬ c = s0) :
    jsSplit ⟨a ++ ((s0 :: srest) ++ b)⟩ ⟨s0 :: srest⟩ =
      ⟨a⟩ :: jsSplit ⟨b⟩ ⟨s0 :: srest⟩ := by
  show (splitAux (s0 :: srest) (a ++ ((s0 :: srest) ++ b)).length
    (a ++ ((s0 :: srest) ++ b)) []).map (fun l => (⟨l⟩ : String)) = _
  rw [splitAux_scan s0 srest a ((s0 :: srest) ++ b) []
    (a ++ ((s0 :: srest) ++ b)).length (by simp [List.length_append]) h]
  have hfu : (a ++ ((s0 :: srest) ++ b)).length - a.length = (srest ++ b).length + 1 := by
    simp only [List.length_append, List.length_cons]
    omega
  rw [hfu, splitAux_boundary s0 srest b _ ((srest ++ b).length)]
  rw [List.map_cons]
  congr 1
  · simp
  · rw [splitAux_fuel (s0 :: srest) ((srest ++ b).length) b.length b []
      (by simp [List.length_append]) (le_refl _)]
    rfl

theorem digitsToNat_append_digit (xs : List Char) (c : Char) :
    digitsToNat (xs ++ [c]) = digitsToNat xs * 10 + digitVal c := by
  unfold digitsToNat
  rw [List.foldl_append]
  rfl

theorem digitChar_props (d : Nat) (h : d < 10) :
    isDigitCh (digitChar d) = true ∧ okChar (digitChar d) = true ∧
      digitVal (digitChar d) = d := by
  interval_cases d <;> exact ⟨by decide, by decide, by decide⟩

theorem natDigitsF_props : ∀ (fuel n : Nat), n < fuel →
    (∀ c ∈ natDigitsF fuel n, isDigitCh c = true ∧ okChar c = true) ∧
      natDigitsF fuel n ≠ [] ∧ digitsToNat (natDigitsF fuel n) = n := by
  intro fuel
  induction fuel with
  | zero => intro n h; omega
  | succ f ih =>
    intro n h
    have hunf : natDigitsF (f + 1) n = (if n < 10 then [digitChar n]
        else natDigitsF f (n / 10) ++ [digitChar (n % 10)]) := rfl
    by_cases h10 : n < 10
    · rw [hunf, if_pos h10]
      obtain ⟨hd, hok, hv⟩ := digitChar_props n h10
      refine ⟨?_, by simp, ?_⟩
      · intro c hc
        rw [List.mem_singleton] at hc
        subst hc
        exact ⟨hd, hok⟩
      · show digitsToNat ([] ++ [digitChar n]) = n
        rw [digitsToNat_append_digit]
        show 0 * 10 + digitVal (digitChar n) = n
        rw [hv]
        omega
    · rw [hunf, if_neg h10]
      have hf : n / 10 < f := by omega
      obtain ⟨ihd, _, ihv⟩ := ih (n / 10) hf
      obtain ⟨hd, hok, hv⟩ := digitChar_props (n % 10) (by omega)
      refine ⟨?_, by simp, ?_⟩
      · intro c hc
        cases List.mem_append.mp hc with
        | inl h1 => exact ihd c h1
        | inr h2 =>
          rw [List.mem_singleton] at h2
          subst h2
          exact ⟨hd, hok⟩
      · rw [digitsToNat_append_digit, ihv, hv]
        omega

theorem jsParseInt_natStr (k : Nat) : jsParseInt (natStr k) = some k := by
  obtain ⟨hdig, hne, hval⟩ := natDigitsF_props (k + 1) k (by omega)
  show (let ds := (natDigitsF (k + 1) k).takeWhile isDigitCh;
    if ds.isEmpty then none else some (digitsToNat ds)) = some k
  have htw : (natDigitsF (k + 1) k).takeWhile isDigitCh = natDigitsF (k + 1) k :=
    List.takeWhile_eq_self_iff.mpr (fun c hc => (hdig c hc).1)
  show (if ((natDigitsF (k + 1) k).takeWhile isDigitCh).isEmpty then none
    else some (digitsToNat ((natDigitsF (k + 1) k).takeWhile isDigitCh))) = some k
  rw [htw]
  rw [if_neg (by rw [List.isEmpty_iff]; exact fun h => hne h)]
  rw [hval]

theorem natStr_ok (k : Nat) : ∀ c ∈ (natStr k).data, okChar c = true := by
  intro c hc
  exact ((natDigitsF_props (k + 1) k (by omega)).1 c hc).2

theorem mk_data (s : String) : String.mk s.data = s := by
  cases s
  rfl

theorem string_eq_of_data (s t : String) (h : s.data = t.data) : s = t := by
  rw [← mk_data s, ← mk_data t, h]

theorem saneStr_chars (s : String) (h : saneStr s = true) :
    ∀ c ∈ s.data, okChar c = true := fun c hc => List.all_eq_true.mp h c hc

theorem okChar_spec (c : Char) (h : okChar c = true) :
    ¬ c = ':' ∧ ¬ c = '.' ∧ ¬ c = '#' := by
  unfold okChar at h
  simp only [Bool.not_eq_true', Bool.or_eq_false_iff, decide_eq_false_iff_not] at h
  exact ⟨h.1.1, h.1.2, h.2⟩

theorem caseLabel_data (name c : String) (k : Nat) :
    (name ++ "::" ++ c ++ "#" ++ natStr k).data =
      name.data ++ (([':', ':'] : List Char) ++ (c.data ++ ('#' :: (natStr k).data))) := by
  rw [data_append, data_append, data_append, data_append]
  show (((name.data ++ [':', ':']) ++ c.data) ++ ['#']) ++ (natStr k).data = _
  simp [List.append_assoc]

theorem tailLabel_data (c : String) (k : Nat) :
    (c ++ "#" ++ natStr k).data = c.data ++ ('#' :: (natStr k).data) := by
  rw [data_append, data_append]
  show (c.data ++ ['#']) ++ (natStr k).data = _
  simp [List.append_assoc]

theorem fieldLabel_data (name f : String) :
    (name ++ "." ++ f).data = name.data ++ ('.' :: f.data) := by
  rw [data_append, data_append]
  show (name.data ++ ['.']) ++ f.data = _
  simp [List.append_assoc]

theorem caseTail_ok (c : String) (k : Nat) (hc : saneStr c = true) :
    ∀ ch ∈ (c ++ "#" ++ natStr k).data, ¬ ch = ':' ∧ ¬ ch = '.' := by
  intro ch hch
  rw [tailLabel_data] at hch
  cases List.mem_append.mp hch with
  | inl h1 =>
    obtain ⟨h', h'', _⟩ := okChar_spec ch (saneStr_chars c hc ch h1)
    exact ⟨h', h''⟩
  | inr h2 =>
    cases List.mem_cons.mp h2 with
    | inl he => subst he; exact ⟨by decide, by decide⟩
    | inr h3 =>
      obtain ⟨h', h'', _⟩ := okChar_spec ch (natStr_ok k ch h3)
      exact ⟨h', h''⟩

theorem caseLabel_split2 (name c : String) (k : Nat) (hn : saneStr name = true)
    (hc : saneStr c = true) :
    jsSplit (name ++ "::" ++ c ++ "#" ++ natStr k) "::" = [name, c ++ "#" ++ natStr k] := by
  rw [string_eq_of_data (name ++ "::" ++ c ++ "#" ++ natStr k)
    ⟨name.data ++ (([':', ':'] : List Char) ++ (c.data ++ ('#' :: (natStr k).data)))⟩
    (caseLabel_data name c k)]
  rw [show ("::" : String) = ⟨[':', ':']⟩ from rfl]
  rw [jsSplit_append name.data (c.data ++ ('#' :: (natStr k).data)) ':' [':']
    (fun ch hch => (okChar_spec ch (saneStr_chars name hn ch hch)).1)]
  rw [mk_data]
  congr 1
  rw [jsSplit_no_head ⟨c.data ++ ('#' :: (natStr k).data)⟩ ':' [':']
    (fun ch hch =>
      (caseTail_ok c k hc ch (by rw [tailLabel_data]; exact hch)).1)]
  rw [string_eq_of_data ⟨c.data ++ ('#' :: (natStr k).data)⟩ (c ++ "#" ++ natStr k)
    (tailLabel_data c k).symm]

theorem tailLabel_split (c : String) (k : Nat) (hc : saneStr c = true) :
    jsSplit (c ++ "#" ++ natStr k) "#" = [c, natStr k] := by
  rw [string_eq_of_data (c ++ "#" ++ natStr k)
    ⟨c.data ++ (('#' :: []) ++ (natStr k).data)⟩
    (by rw [tailLabel_data]; rfl)]
  rw [show ("#" : String) = ⟨['#']⟩ from rfl]
  rw [jsSplit_append c.data (natStr k).data '#' []
    (fun ch hch => (okChar_spec ch (saneStr_chars c hc ch hch)).2.2)]
  rw [mk_data]
  congr 1
  rw [jsSplit_no_head ⟨(natStr k).data⟩ '#' []
    (fun ch hch => (okChar_spec ch (natStr_ok k ch hch)).2.2)]

theorem fieldLabel_split (name f : String) (hn : saneStr name = true)
    (hf : saneStr f = true) :
    jsSplit (name ++ "." ++ f) "." = [name, f] := by
  rw [string_eq_of_data (name ++ "." ++ f) ⟨name.data ++ (('.' :: []) ++ f.data)⟩
    (by rw [fieldLabel_data]; rfl)]
  rw [show ("." : String) = ⟨['.']⟩ from rfl]
  rw [jsSplit_append name.data f.data '.' []
    (fun ch hch => (okChar_spec ch (saneStr_chars name hn ch hch)).2.1)]
  rw [mk_data]
  congr 1
  rw [jsSplit_no_head ⟨f.data⟩ '.' []
    (fun ch hch => (okChar_spec ch (saneStr_chars f hf ch hch)).2.1)]

theorem hasSub_sane_sep (s : String) (s0 : Char) (srest : List Char)
    (h : ∀ c ∈ s.data, ¬ c = s0) : hasSub s ⟨s0 :: srest⟩ = false := by
  unfold hasSub
  rw [jsSplit_no_head s s0 srest h]
  rfl

theorem sane_no_colon (s : String) (h : saneStr s = true) : hasSub s "::" = false := by
  rw [show ("::" : String) = ⟨[':', ':']⟩ from rfl]
  exact hasSub_sane_sep s ':' [':']
    (fun c hc => (okChar_spec c (saneStr_chars s h c hc)).1)

theorem sane_no_dot (s : String) (h : saneStr s = true) : hasSub s "." = false := by
  rw [show ("." : String) = ⟨['.']⟩ from rfl]
  exact hasSub_sane_sep s '.' []
    (fun c hc => (okChar_spec c (saneStr_chars s h c hc)).2.1)

theorem caseLabel_hasSub (name c : String) (k : Nat) (hn : saneStr name = true)
    (hc : saneStr c = true) :
    hasSub (name ++ "::" ++ c ++ "#" ++ natStr k) "::" = true := by
  unfold hasSub
  rw [caseLabel_split2 name c k hn hc]
  rfl

theorem caseLabel_no_dot (name c : String) (k : Nat) (hn : saneStr name = true)
    (hc : saneStr c = true) :
    hasSub (name ++ "::" ++ c ++ "#" ++ natStr k) "." = false := by
  rw [show ("." : String) = ⟨['.']⟩ from rfl]
  apply hasSub_sane_sep
  intro ch hch
  rw [caseLabel_data] at hch
  cases List.mem_append.mp hch with
  | inl h1 => exact (okChar_spec ch (saneStr_chars name hn ch h1)).2.1
  | inr h2 =>
    cases List.mem_append.mp h2 with
    | inl h3 =>
      cases List.mem_cons.mp h3 with
      | inl he => subst he; decide
      | inr h4 =>
        cases List.mem_cons.mp h4 with
        | inl he => subst he; decide
        | inr h5 => exact absurd h5 (by simp)
    | inr h4 => exact (caseTail_ok c k hc ch (by rw [tailLabel_data]; exact h4)).2

theorem fieldLabel_hasSub (name f : String) (hn : saneStr name = true)
    (hf : saneStr f = true) : hasSub (name ++ "." ++ f) "." = true := by
  unfold hasSub
  rw [fieldLabel_split name f hn hf]
  rfl

theorem caseLabel_decode (name c : String) (k : Nat) (hn : saneStr name = true)
    (hc : saneStr c = true) :
    decodeCaseVertex (name ++ "::" ++ c ++ "#" ++ natStr k) = some (name, c, k) := by
  unfold decodeCaseVertex
  rw [caseLabel_split2 name c k hn hc]
  show (match jsSplit (c ++ "#" ++ natStr k) "#" with
    | enumCase :: rest =>
      (match rest.head? with
       | some idxStr => (jsParseInt idxStr).map fun j => (name, enumCase, j)
       | none => none)
    | [] => none) = some (name, c, k)
  rw [tailLabel_split c k hc]
  show ((jsParseInt (natStr k)).map fun j => (name, c, j)) = some (name, c, k)
  rw [jsParseInt_natStr]
  rfl

theorem sane_decode_none (v : String) (h : saneStr v = true) :
    decodeCaseVertex v = none := by
  unfold decodeCaseVertex
  rw [show ("::" : String) = ⟨[':', ':']⟩ from rfl]
  rw [jsSplit_no_head v ':' [':']
    (fun ch hch => (okChar_spec ch (saneStr_chars v h ch hch)).1)]

theorem append_chars_ok (s t : String) (hs : ∀ c ∈ s.data, okChar c = true)
    (ht : ∀ c ∈ t.data, okChar c = true) : ∀ c ∈ (s ++ t).data, okChar c = true := by
  intro c hc
  rw [data_append] at hc
  cases List.mem_append.mp hc with
  | inl h => exact hs c h
  | inr h => exact ht c h

theorem wrapRust_ok (t : TypeSpec) (inner : String)
    (hi : ∀ c ∈ inner.data, okChar c = true) :
    ∀ c ∈ (wrapRust t inner).data, okChar c = true := by
  unfold wrapRust
  split
  · split
    · exact append_chars_ok _ _ (append_chars_ok _ _ (by decide) hi) (by decide)
    · split
      · exact append_chars_ok _ _ (append_chars_ok _ _ (by decide) hi) (by decide)
      · exact append_chars_ok _ _ (append_chars_ok _ _ (by decide) hi) (by decide)
  · split
    · exact append_chars_ok _ _ (append_chars_ok _ _ (by decide) hi) (by decide)
    · split
      · exact append_chars_ok _ _ (append_chars_ok _ _ (by decide) hi) (by decide)
      · exact hi

theorem resolveTypeInner_ok : ∀ t, saneType t = true →
    ∀ c ∈ (resolveTypeInner t).data, okChar c = true := by
  intro t
  induction t with
  | tnul a o b z =>
    intro _ c hc
    have h2 : c ∈ ("()" : String).data := hc
    have h3 : c = '(' ∨ c = ')' := by
      have hd : ("()" : String).data = ['(', ')'] := rfl
      rw [hd] at h2
      simpa using h2
    cases h3 with
    | inl he => subst he; decide
    | inr he => subst he; decide
  | tname s a o b z => intro h c hc; exact saneStr_chars s h c hc
  | tnest t' a o b z ih =>
    intro h
    exact wrapRust_ok t' _ (ih h)

theorem resolveType_sane (t : TypeSpec) (h : saneType t = true) :
    saneStr (resolveType t true) = true :=
  List.all_eq_true.mpr (resolveTypeInner_ok t h)

/-! ### Edges of the built graph -/

theorem jsObjGet_append_unit {α : Type} (v : String) (w : α) (u : String) :
    ∀ (l : List (String × α)), jsObjGet (l ++ [(v, w)]) u =
      (match jsObjGet l u with
       | some x => some x
       | none => if v = u then some w else none) := by
  intro l
  induction l with
  | nil => rfl
  | cons kv rest ih =>
    obtain ⟨k0, v0⟩ := kv
    show (if k0 = u then some v0 else jsObjGet (rest ++ [(v, w)]) u) = _
    by_cases hk : k0 = u
    · rw [if_pos hk]
      show _ = (match (if k0 = u then some v0 else jsObjGet rest u) with
        | some x => some x
        | none => if v = u then some w else none)
      rw [if_pos hk]
    · rw [if_neg hk, ih]
      show _ = (match (if k0 = u then some v0 else jsObjGet rest u) with
        | some x => some x
        | none => if v = u then some w else none)
      rw [if_neg hk]

theorem mem_successors_addNode (g : DGraph) (v u x : String)
    (h : x ∈ (g.addNode v).successors u) : x ∈ g.successors u := by
  unfold DGraph.addNode at h
  by_cases hn : g.hasNode v = true
  · rw [if_pos hn] at h
    exact h
  · rw [if_neg hn] at h
    show x ∈ (jsObjGet g.sucs u).getD []
    have h2 : x ∈ (jsObjGet (g.sucs ++ [(v, [])]) u).getD [] := h
    rw [jsObjGet_append_unit v ([] : List String) u g.sucs] at h2
    cases hg : jsObjGet g.sucs u with
    | some ws =>
      rw [hg] at h2
      exact h2
    | none =>
      rw [hg] at h2
      by_cases hv : v = u
      · rw [if_pos hv] at h2
        exact absurd h2 (by simp)
      · rw [if_neg hv] at h2
        exact absurd h2 (by simp)

theorem mem_addSuc (v : String) (w : String) (u x : String) :
    ∀ (sucs : List (String × List String)),
      x ∈ (jsObjGet (addSuc sucs v w) u).getD [] →
      (u = v ∧ x = w) ∨ x ∈ (jsObjGet sucs u).getD [] := by
  intro sucs
  induction sucs with
  | nil =>
    intro h
    show _ ∨ x ∈ (jsObjGet [] u).getD []
    have h2 : x ∈ (jsObjGet [(v, [w])] u).getD [] := h
    show (u = v ∧ x = w) ∨ _
    by_cases hv : v = u
    · left
      refine ⟨hv.symm, ?_⟩
      have h3 : x ∈ (if v = u then some [w] else none).getD [] := h2
      rw [if_pos hv] at h3
      simpa using h3
    · exfalso
      have h3 : x ∈ (if v = u then some [w] else none).getD [] := h2
      rw [if_neg hv] at h3
      simp at h3
  | cons kv rest ih =>
    obtain ⟨a, ws⟩ := kv
    intro h
    show (u = v ∧ x = w) ∨ x ∈ (jsObjGet ((a, ws) :: rest) u).getD []
    by_cases hav : a = v
    · have h2 : x ∈ (jsObjGet ((a, if ws.contains w then ws else ws ++ [w]) :: rest) u).getD
          [] := by
        have h3 : addSuc ((a, ws) :: rest) v w =
            (a, if ws.contains w then ws else ws ++ [w]) :: rest := by
          unfold addSuc
          rw [if_pos hav]
        rw [h3] at h
        exact h
      by_cases hau : a = u
      · have h3 : x ∈ (if ws.contains w then ws else ws ++ [w]) := by
          have h4 : x ∈ (if a = u then some (if ws.contains w then ws else ws ++ [w])
              else jsObjGet rest u).getD [] := h2
          rw [if_pos hau] at h4
          simpa using h4
        by_cases hw : ws.contains w = true
        · rw [if_pos hw] at h3
          right
          show x ∈ (if a = u then some ws else jsObjGet rest u).getD []
          rw [if_pos hau]
          simpa using h3
        · rw [if_neg hw] at h3
          cases List.mem_append.mp h3 with
          | inl h5 =>
            right
            show x ∈ (if a = u then some ws else jsObjGet rest u).getD []
            rw [if_pos hau]
            simpa using h5
          | inr h5 =>
            left
            rw [List.mem_singleton] at h5
            exact ⟨hau.symm.trans hav, h5⟩
      · have h3 : x ∈ (jsObjGet rest u).getD [] := by
          have h4 : x ∈ (if a = u then some (if ws.contains w then ws else ws ++ [w])
              else jsObjGet rest u).getD [] := h2
          rw [if_neg hau] at h4
          exact h4
        right
        show x ∈ (if a = u then some ws else jsObjGet rest u).getD []
        rw [if_neg hau]
        exact h3
    · have h2 : x ∈ (jsObjGet ((a, ws) :: addSuc rest v w) u).getD [] := by
        have h3 : x ∈ (jsObjGet
            (if a = v then (a, if ws.contains w then ws else ws ++ [w]) :: rest
             else (a, ws) :: addSuc rest v w) u).getD [] := h
        rw [if_neg hav] at h3
        exact h3
      by_cases hau : a = u
      · right
        have h3 : x ∈ (if a = u then some ws else jsObjGet (addSuc rest v w) u).getD []
          := h2
        rw [if_pos hau] at h3
        show x ∈ (if a = u then some ws else jsObjGet rest u).getD []
        rw [if_pos hau]
        exact h3
      · have h3 : x ∈ (jsObjGet (addSuc rest v w) u).getD [] := by
          have h4 : x ∈ (if a = u then some ws else jsObjGet (addSuc rest v w) u).getD []
            := h2
          rw [if_neg hau] at h4
          exact h4
        cases ih h3 with
        | inl h4 => exact Or.inl h4
        | inr h4 =>
          right
          show x ∈ (if a = u then some ws else jsObjGet rest u).getD []
          rw [if_neg hau]
          exact h4

theorem mem_successors_setEdge (g : DGraph) (v w u x : String)
    (h : x ∈ (g.setEdge v w).successors u) :
    (u = v ∧ x = w) ∨ x ∈ g.successors u := by
  have h2 : x ∈ (jsObjGet (addSuc ((g.addNode v).addNode w).sucs v w) u).getD [] := h
  cases mem_addSuc v w u x _ h2 with
  | inl h3 => exact Or.inl h3
  | inr h3 =>
    right
    exact mem_successors_addNode g v u x (mem_successors_addNode (g.addNode v) w u x h3)

theorem foldl_successors_mem {α : Type} (step : DGraph → α → DGraph)
    (Q : α → String → String → Prop)
    (hstep : ∀ g a u x, x ∈ (step g a).successors u → x ∈ g.successors u ∨ Q a u x) :
    ∀ (l : List α) (g : DGraph) (u x : String),
      x ∈ (l.foldl step g).successors u → x ∈ g.successors u ∨ ∃ a, a ∈ l ∧ Q a u x := by
  intro l
  induction l with
  | nil => intro g u x h; exact Or.inl h
  | cons a l ih =>
    intro g u x h
    cases ih (step g a) u x h with
    | inl h1 =>
      cases hstep g a u x h1 with
      | inl h2 => exact Or.inl h2
      | inr h2 => exact Or.inr ⟨a, List.mem_cons_self a l, h2⟩
    | inr h1 =>
      obtain ⟨b, hb, hQ⟩ := h1
      exact Or.inr ⟨b, List.mem_cons_of_mem a hb, hQ⟩

theorem eq_false_of_not_true (b : Bool) (h : ¬ b = true) : b = false := by
  cases hb : b
  · rfl
  · exact absurd hb h

theorem graphOfModel_mem (g : DGraph) (m : TopLevelSpec) (u x : String)
    (h : x ∈ (graphOfModel g m).successors u) : x ∈ g.successors u ∨ ModelEdge m u x := by
  cases m with
  | structSpec name fields =>
    have hstep : ∀ (g2 : DGraph) (kv : String × TypeSpec) (u2 x2 : String),
        x2 ∈ ((if kv.2.isArray = true then g2
          else (g2.setEdge name (name ++ "." ++ kv.1)).setEdge (name ++ "." ++ kv.1)
            (resolveType kv.2 true)) : DGraph).successors u2 →
        x2 ∈ g2.successors u2 ∨ (kv.2.isArray = false ∧
          ((u2 = name ∧ x2 = name ++ "." ++ kv.1) ∨
           (u2 = name ++ "." ++ kv.1 ∧ x2 = resolveType kv.2 true))) := by
      intro g2 kv u2 x2 hx
      by_cases ha : kv.2.isArray = true
      · rw [if_pos ha] at hx
        exact Or.inl hx
      · rw [if_neg ha] at hx
        have ha2 : kv.2.isArray = false := eq_false_of_not_true _ ha
        cases mem_successors_setEdge _ _ _ _ _ hx with
        | inl h2 => exact Or.inr ⟨ha2, Or.inr h2⟩
        | inr h2 =>
          cases mem_successors_setEdge _ _ _ _ _ h2 with
          | inl h3 => exact Or.inr ⟨ha2, Or.inl h3⟩
          | inr h3 => exact Or.inl h3
    cases foldl_successors_mem _ _ hstep fields g u x h with
    | inl h1 => exact Or.inl h1
    | inr h1 =>
      obtain ⟨kv, hkv, hQ⟩ := h1
      exact Or.inr ⟨kv, hkv, hQ.1, hQ.2⟩
  | tupleStruct name ops =>
    have hstep : ∀ (g2 : DGraph) (it : Nat × TypeSpec) (u2 x2 : String),
        x2 ∈ ((if it.2.isArray = true then g2
          else (g2.setEdge name (name ++ "." ++ natStr it.1)).setEdge
            (name ++ "." ++ natStr it.1) (resolveType it.2 true)) : DGraph).successors u2 →
        x2 ∈ g2.successors u2 ∨ (it.2.isArray = false ∧
          ((u2 = name ∧ x2 = name ++ "." ++ natStr it.1) ∨
           (u2 = name ++ "." ++ natStr it.1 ∧ x2 = resolveType it.2 true))) := by
      intro g2 it u2 x2 hx
      by_cases ha : it.2.isArray = true
      · rw [if_pos ha] at hx
        exact Or.inl hx
      · rw [if_neg ha] at hx
        have ha2 : it.2.isArray = false := eq_false_of_not_true _ ha
        cases mem_successors_setEdge _ _ _ _ _ hx with
        | inl h2 => exact Or.inr ⟨ha2, Or.inr h2⟩
        | inr h2 =>
          cases mem_successors_setEdge _ _ _ _ _ h2 with
          | inl h3 => exact Or.inr ⟨ha2, Or.inl h3⟩
          | inr h3 => exact Or.inl h3
    cases foldl_successors_mem _ _ hstep ops.enum g u x h with
    | inl h1 => exact Or.inl h1
    | inr h1 =>
      obtain ⟨it, hit, hQ⟩ := h1
      exact Or.inr ⟨it, hit, hQ.1, hQ.2⟩
  | enumSpec name cases =>
    have hstep : ∀ (g2 : DGraph) (kc : String × List TypeSpec) (u2 x2 : String),
        x2 ∈ (kc.2.foldl (fun g3 operand =>
          if operand.isArray = true then g3
          else (g3.setEdge name
              (name ++ "::" ++ kc.1 ++ "#" ++ natStr kc.2.length)).setEdge
            (name ++ "::" ++ kc.1 ++ "#" ++ natStr kc.2.length)
            (resolveType operand true)) g2).successors u2 →
        x2 ∈ g2.successors u2 ∨ (∃ op, op ∈ kc.2 ∧ op.isArray = false ∧
          ((u2 = name ∧ x2 = name ++ "::" ++ kc.1 ++ "#" ++ natStr kc.2.length) ∨
           (u2 = name ++ "::" ++ kc.1 ++ "#" ++ natStr kc.2.length ∧
             x2 = resolveType op true))) := by
      intro g2 kc u2 x2 hx
      have hsi : ∀ (g3 : DGraph) (operand : TypeSpec) (u3 x3 : String),
          x3 ∈ ((if operand.isArray = true then g3
            else (g3.setEdge name
                (name ++ "::" ++ kc.1 ++ "#" ++ natStr kc.2.length)).setEdge
              (name ++ "::" ++ kc.1 ++ "#" ++ natStr kc.2.length)
              (resolveType operand true)) : DGraph).successors u3 →
          x3 ∈ g3.successors u3 ∨ (operand.isArray = false ∧
            ((u3 = name ∧ x3 = name ++ "::" ++ kc.1 ++ "#" ++ natStr kc.2.length) ∨
             (u3 = name ++ "::" ++ kc.1 ++ "#" ++ natStr kc.2.length ∧
               x3 = resolveType operand true))) := by
        intro g3 operand u3 x3 hx3
        by_cases ha : operand.isArray = true
        · rw [if_pos ha] at hx3
          exact Or.inl hx3
        · rw [if_neg ha] at hx3
          have ha2 : operand.isArray = false := eq_false_of_not_true _ ha
          cases mem_successors_setEdge _ _ _ _ _ hx3 with
          | inl h2 => exact Or.inr ⟨ha2, Or.inr h2⟩
          | inr h2 =>
            cases mem_successors_setEdge _ _ _ _ _ h2 with
            | inl h3 => exact Or.inr ⟨ha2, Or.inl h3⟩
            | inr h3 => exact Or.inl h3
      cases foldl_successors_mem _ _ hsi kc.2 g2 u2 x2 hx with
      | inl h1 => exact Or.inl h1
      | inr h1 =>
        obtain ⟨op, hop, hQ⟩ := h1
        exact Or.inr ⟨op, hop, hQ.1, hQ.2⟩
    cases foldl_successors_mem _ _ hstep
        (cases.filter (fun kc => kc.2.length ≥ 1)) g u x h with
    | inl h1 => exact Or.inl h1
    | inr h1 =>
      obtain ⟨kc, hkc, op, hop, ha, hsh⟩ := h1
      exact Or.inr ⟨kc, op, hkc, hop, ha, hsh⟩

theorem mem_successors_buildGraph (models : List TopLevelSpec) (u x : String)
    (h : x ∈ (buildGraph models).successors u) : EdgeShape models u x := by
  cases foldl_successors_mem graphOfModel ModelEdge
      (fun g a u2 x2 hx => graphOfModel_mem g a u2 x2 hx) models DGraph.empty u x h with
  | inl h1 => exact absurd h1 (List.not_mem_nil x)
  | inr h1 => exact h1

/-! ### Lookup transfer across the walk mutations -/

theorem findModel_of_mem_nodup : ∀ (models : List TopLevelSpec),
    (models.map TopLevelSpec.name).Nodup →
    ∀ m ∈ models, findModel models m.name = some m := by
  intro models
  induction models with
  | nil =>
    intro _ m hm
    exact absurd hm (List.not_mem_nil m)
  | cons a rest ih =>
    intro hN m hm
    rw [List.map_cons, List.nodup_cons] at hN
    obtain ⟨hna, hrest⟩ := hN
    cases List.mem_cons.mp hm with
    | inl he =>
      subst he
      exact findModel_cons_pos m rest m.name rfl
    | inr hmem =>
      by_cases hn : a.name = m.name
      · exact absurd (by rw [hn]; exact List.mem_map.mpr ⟨m, hmem, rfl⟩) hna
      · rw [findModel_cons_neg a rest m.name hn]
        exact ih hrest m hmem

theorem jsObjGet_of_mem_nodup {α : Type} : ∀ (l : List (String × α)),
    (l.map Prod.fst).Nodup → ∀ (k : String) (v : α), (k, v) ∈ l →
      jsObjGet l k = some v := by
  intro l
  induction l with
  | nil =>
    intro _ k v hm
    exact absurd hm (List.not_mem_nil (k, v))
  | cons kv rest ih =>
    obtain ⟨a, w⟩ := kv
    intro hN k v hm
    rw [List.map_cons, List.nodup_cons] at hN
    obtain ⟨hna, hrest⟩ := hN
    cases List.mem_cons.mp hm with
    | inl he =>
      injection he with h1 h2
      show (if a = k then some w else jsObjGet rest k) = some v
      rw [if_pos h1.symm, h2]
    | inr hmem =>
      show (if a = k then some w else jsObjGet rest k) = some v
      by_cases hak : a = k
      · exact absurd (by rw [hak]; exact List.mem_map.mpr ⟨(k, v), hmem, rfl⟩) hna
      · rw [if_neg hak]
        exact ih hrest k v hmem

theorem getCaseOperand_of_entry (models : List TopLevelSpec)
    (hN : (models.map TopLevelSpec.name).Nodup)
    (hC : caseNodups models = true)
    (name : String) (cs : List (String × List TypeSpec)) (kc : String × List TypeSpec)
    (hm : TopLevelSpec.enumSpec name cs ∈ models) (hkc : kc ∈ cs)
    (hlen : 1 ≤ kc.2.length) :
    ∃ t, getCaseOperand models name kc.1 0 = Except.ok t ∧ kc.2.get? 0 = some t := by
  have hf : findModel models name = some (.enumSpec name cs) :=
    findModel_of_mem_nodup models hN _ hm
  have hcn : (cs.map Prod.fst).Nodup := by
    have hall := List.all_eq_true.mp hC _ hm
    exact of_decide_eq_true hall
  have hg : jsObjGet cs kc.1 = some kc.2 :=
    jsObjGet_of_mem_nodup cs hcn kc.1 kc.2 hkc
  have ht0 : kc.2.get? 0 = some (kc.2.get ⟨0, by omega⟩) := List.get?_eq_get (by omega)
  refine ⟨kc.2.get ⟨0, by omega⟩, ?_, ht0⟩
  unfold getCaseOperand
  simp only [hf, hg, ht0]

theorem findModel_setOperandUnsized (e c : String) (i : Nat) :
    ∀ (ms : List TopLevelSpec) (n : String) (m : TopLevelSpec),
      findModel ms n = some m →
      ∃ m2, findModel (setOperandUnsized ms e c i) n = some m2 ∧
        (m2 = m ∨ ∃ nn cs ops op, m = .enumSpec nn cs ∧ jsObjGet cs c = some ops ∧
          ops.get? i = some op ∧
          m2 = .enumSpec nn (jsObjInsert cs c (ops.set i op.setUnsized))) := by
  intro ms
  induction ms with
  | nil =>
    intro n m h
    exact absurd h (by simp [findModel, List.find?])
  | cons m0 rest ih =>
    intro n m h
    show ∃ m2, findModel (if m0.name = e then _ :: rest
      else m0 :: setOperandUnsized rest e c i) n = some m2 ∧ _
    by_cases hne : m0.name = e
    · rw [if_pos hne]
      by_cases hn0 : m0.name = n
      · rw [findModel_cons_pos m0 rest n hn0] at h
        injection h with h1
        subst h1
        cases m0 with
        | tupleStruct nn ops =>
          exact ⟨_, findModel_cons_pos _ rest n hn0, Or.inl rfl⟩
        | structSpec nn fs =>
          exact ⟨_, findModel_cons_pos _ rest n hn0, Or.inl rfl⟩
        | enumSpec nn cs =>
          cases hget : jsObjGet cs c with
          | none =>
            refine ⟨.enumSpec nn cs, ?_, Or.inl rfl⟩
            simp only [hget]
            exact findModel_cons_pos _ rest n hn0
          | some ops =>
            cases hop : ops.get? i with
            | none =>
              refine ⟨.enumSpec nn cs, ?_, Or.inl rfl⟩
              simp only [hget, hop]
              exact findModel_cons_pos _ rest n hn0
            | some op =>
              refine ⟨.enumSpec nn (jsObjInsert cs c (ops.set i op.setUnsized)), ?_,
                Or.inr ⟨nn, cs, ops, op, rfl, hget, hop, rfl⟩⟩
              simp only [hget, hop]
              exact findModel_cons_pos _ rest n (by exact hn0)
      · rw [findModel_cons_neg m0 rest n hn0] at h
        refine ⟨m, ?_, Or.inl rfl⟩
        cases m0 with
        | tupleStruct nn ops =>
          rw [findModel_cons_neg _ rest n hn0]
          exact h
        | structSpec nn fs =>
          rw [findModel_cons_neg _ rest n hn0]
          exact h
        | enumSpec nn cs =>
          cases hget : jsObjGet cs c with
          | none =>
            simp only [hget]
            rw [findModel_cons_neg _ rest n hn0]
            exact h
          | some ops =>
            cases hop : ops.get? i with
            | none =>
              simp only [hget, hop]
              rw [findModel_cons_neg _ rest n hn0]
              exact h
            | some op =>
              simp only [hget, hop]
              rw [findModel_cons_neg _ rest n (by exact hn0)]
              exact h
    · rw [if_neg hne]
      by_cases hn0 : m0.name = n
      · rw [findModel_cons_pos m0 rest n hn0] at h
        injection h with h1
        subst h1
        exact ⟨m0, findModel_cons_pos m0 _ n hn0, Or.inl rfl⟩
      · rw [findModel_cons_neg m0 rest n hn0] at h
        obtain ⟨m2, hf2, hch⟩ := ih n m h
        refine ⟨m2, ?_, hch⟩
        rw [findModel_cons_neg m0 _ n hn0]
        exact hf2

theorem getCaseOperand_setOperandUnsized (e c : String) (i : Nat)
    (ms : List TopLevelSpec) (n c2 : String) (j : Nat) (t : TypeSpec)
    (h : getCaseOperand ms n c2 j = Except.ok t) :
    ∃ t2, getCaseOperand (setOperandUnsized ms e c i) n c2 j = Except.ok t2 := by
  obtain ⟨nn, cs, ops, hf, hg, ht⟩ := getCaseOperand_ok ms n c2 j t h
  obtain ⟨m2, hf2, hch⟩ := findModel_setOperandUnsized e c i ms n _ hf
  cases hch with
  | inl he =>
    subst he
    refine ⟨t, ?_⟩
    unfold getCaseOperand
    simp only [hf2, hg, ht]
  | inr hex =>
    obtain ⟨nn2, cs2, ops2, op2, hme, hg2, hop2, hm2⟩ := hex
    injection hme with he1 he2
    subst he1
    subst he2
    subst hm2
    by_cases hc2 : c2 = c
    · subst hc2
      have hops : ops = ops2 := by
        rw [hg] at hg2
        injection hg2
      subst hops
      by_cases hji : j = i
      · refine ⟨op2.setUnsized, ?_⟩
        unfold getCaseOperand
        rw [hf2]
        show (match jsObjGet (jsObjInsert cs c2 (ops.set i op2.setUnsized)) c2 with
          | none => (Except.error "cannot read operands of undefined" :
              Except String TypeSpec)
          | some ops3 =>
            match ops3.get? j with
            | none => Except.error "cannot read type of undefined"
            | some t2 => Except.ok t2) = _
        rw [jsObjGet_insert, if_pos rfl]
        show (match (ops.set i op2.setUnsized).get? j with
          | none => (Except.error "cannot read type of undefined" :
              Except String TypeSpec)
          | some t2 => Except.ok t2) = _
        rw [hji, get?_set_self ops i op2 op2.setUnsized hop2]
      · refine ⟨t, ?_⟩
        unfold getCaseOperand
        rw [hf2]
        show (match jsObjGet (jsObjInsert cs c2 (ops.set i op2.setUnsized)) c2 with
          | none => (Except.error "cannot read operands of undefined" :
              Except String TypeSpec)
          | some ops3 =>
            match ops3.get? j with
            | none => Except.error "cannot read type of undefined"
            | some t2 => Except.ok t2) = Except.ok t
        rw [jsObjGet_insert, if_pos rfl]
        show (match (ops.set i op2.setUnsized).get? j with
          | none => (Except.error "cannot read type of undefined" :
              Except String TypeSpec)
          | some t2 => Except.ok t2) = _
        rw [get?_set_other ops i j op2.setUnsized (fun hh => hji hh.symm), ht]
    · refine ⟨t, ?_⟩
      unfold getCaseOperand
      rw [hf2]
      show (match jsObjGet (jsObjInsert cs c (ops2.set i op2.setUnsized)) c2 with
        | none => (Except.error "cannot read operands of undefined" :
            Except String TypeSpec)
        | some ops3 =>
          match ops3.get? j with
          | none => Except.error "cannot read type of undefined"
          | some t2 => Except.ok t2) = Except.ok t
      rw [jsObjGet_insert, if_neg hc2, hg]
      show (match ops.get? j with
        | none => (Except.error "cannot read type of undefined" : Except String TypeSpec)
        | some t2 => Except.ok t2) = _
      rw [ht]

theorem okTransfer_refl (models : List TopLevelSpec) : okTransfer models models :=
  fun _ _ _ t h => ⟨t, h⟩

theorem okTransfer_step (ms models : List TopLevelSpec) (e c : String)
    (hT : okTransfer ms models) : okTransfer (setOperandUnsized ms e c 0) models := by
  intro n c2 j t h
  obtain ⟨t2, h2⟩ := hT n c2 j t h
  exact getCaseOperand_setOperandUnsized e c 0 ms n c2 j t2 h2

/-! ### Vertex classification along a graph chain -/

theorem saneModels_enum (models : List TopLevelSpec) (hS : saneModels models = true)
    (name : String) (cs : List (String × List TypeSpec))
    (hm : TopLevelSpec.enumSpec name cs ∈ models) :
    saneStr name = true ∧
      ∀ kc ∈ cs, saneStr kc.1 = true ∧ ∀ op ∈ kc.2, saneType op = true := by
  have hall := List.all_eq_true.mp hS _ hm
  rw [show saneModel (.enumSpec name cs) =
    (saneStr name && cs.all fun kc => saneStr kc.1 && kc.2.all saneType) from rfl] at hall
  rw [Bool.and_eq_true] at hall
  refine ⟨hall.1, ?_⟩
  intro kc hkc
  have h2 := List.all_eq_true.mp hall.2 kc hkc
  rw [Bool.and_eq_true] at h2
  exact ⟨h2.1, fun op hop => List.all_eq_true.mp h2.2 op hop⟩

theorem saneModels_struct (models : List TopLevelSpec) (hS : saneModels models = true)
    (name : String) (fs : List (String × TypeSpec))
    (hm : TopLevelSpec.structSpec name fs ∈ models) :
    saneStr name = true ∧ ∀ kv ∈ fs, saneStr kv.1 = true ∧ saneType kv.2 = true := by
  have hall := List.all_eq_true.mp hS _ hm
  rw [show saneModel (.structSpec name fs) =
    (saneStr name && fs.all fun kv => saneStr kv.1 && saneType kv.2) from rfl] at hall
  rw [Bool.and_eq_true] at hall
  refine ⟨hall.1, ?_⟩
  intro kv hkv
  have h2 := List.all_eq_true.mp hall.2 kv hkv
  rw [Bool.and_eq_true] at h2
  exact h2

theorem saneModels_tuple (models : List TopLevelSpec) (hS : saneModels models = true)
    (name : String) (ops : List TypeSpec)
    (hm : TopLevelSpec.tupleStruct name ops ∈ models) :
    saneStr name = true ∧ ∀ op ∈ ops, saneType op = true := by
  have hall := List.all_eq_true.mp hS _ hm
  rw [show saneModel (.tupleStruct name ops) =
    (saneStr name && ops.all saneType) from rfl] at hall
  rw [Bool.and_eq_true] at hall
  exact ⟨hall.1, fun op hop => List.all_eq_true.mp hall.2 op hop⟩

theorem colon_in_caseLabel (name c0 : String) (k : Nat) :
    ':' ∈ (name ++ "::" ++ c0 ++ "#" ++ natStr k).data := by
  rw [caseLabel_data]
  exact List.mem_append.mpr (Or.inr (List.mem_append.mpr (Or.inl (by simp))))

theorem dot_in_fieldLabel (name f : String) : '.' ∈ (name ++ "." ++ f).data := by
  rw [fieldLabel_data]
  exact List.mem_append.mpr (Or.inr (List.mem_cons_self _ _))

theorem sane_ne_caseLabel (u : String) (hu : saneStr u = true) (name c0 : String)
    (k : Nat) : ¬ u = name ++ "::" ++ c0 ++ "#" ++ natStr k := by
  intro he
  have hc : ':' ∈ u.data := by
    rw [he]
    exact colon_in_caseLabel name c0 k
  exact absurd (saneStr_chars u hu ':' hc) (by decide)

theorem sane_ne_fieldLabel (u : String) (hu : saneStr u = true) (name f : String) :
    ¬ u = name ++ "." ++ f := by
  intro he
  have hc : '.' ∈ u.data := by
    rw [he]
    exact dot_in_fieldLabel name f
  exact absurd (saneStr_chars u hu '.' hc) (by decide)

theorem colon_not_in_fieldLabel (name f : String) (hn : saneStr name = true)
    (hf : saneStr f = true) : ¬ ':' ∈ (name ++ "." ++ f).data := by
  rw [fieldLabel_data]
  intro h
  cases List.mem_append.mp h with
  | inl h1 => exact absurd (saneStr_chars name hn ':' h1) (by decide)
  | inr h2 =>
    cases List.mem_cons.mp h2 with
    | inl he => exact absurd he (by decide)
    | inr h3 => exact absurd (saneStr_chars f hf ':' h3) (by decide)

theorem caseLabel_ne_fieldLabel (name c0 : String) (k : Nat) (name2 f : String)
    (hn2 : saneStr name2 = true) (hf : saneStr f = true) :
    ¬ name ++ "::" ++ c0 ++ "#" ++ natStr k = name2 ++ "." ++ f := by
  intro he
  exact colon_not_in_fieldLabel name2 f hn2 hf (he ▸ colon_in_caseLabel name c0 k)

theorem succ_of_typeVertex (models : List TopLevelSpec) (hS : saneModels models = true)
    (u : String) (hu : saneStr u = true) (v : String)
    (hv : v ∈ (buildGraph models).successors u) :
    hasSub v "." = true ∨
    ∃ name cs kc, TopLevelSpec.enumSpec name cs ∈ models ∧ kc ∈ cs ∧
      1 ≤ kc.2.length ∧ saneStr name = true ∧ saneStr kc.1 = true ∧
      v = name ++ "::" ++ kc.1 ++ "#" ++ natStr kc.2.length := by
  obtain ⟨m, hm, hme⟩ := mem_successors_buildGraph models u v hv
  cases m with
  | enumSpec name cs =>
    obtain ⟨kc, op, hkc, hop, ha, hsh⟩ := hme
    obtain ⟨hkcm, hkcl⟩ := List.mem_filter.mp hkc
    obtain ⟨hn1, hkcprops⟩ := saneModels_enum models hS name cs hm
    obtain ⟨hc1, _⟩ := hkcprops kc hkcm
    cases hsh with
    | inl h1 =>
      exact Or.inr ⟨name, cs, kc, hm, hkcm, of_decide_eq_true hkcl, hn1, hc1, h1.2⟩
    | inr h1 => exact absurd h1.1 (sane_ne_caseLabel u hu name kc.1 kc.2.length)
  | structSpec name fs =>
    obtain ⟨kv, hkv, ha, hsh⟩ := hme
    obtain ⟨hn1, hkvprops⟩ := saneModels_struct models hS name fs hm
    obtain ⟨hf1, _⟩ := hkvprops kv hkv
    cases hsh with
    | inl h1 =>
      left
      rw [h1.2]
      exact fieldLabel_hasSub name kv.1 hn1 hf1
    | inr h1 => exact absurd h1.1 (sane_ne_fieldLabel u hu name kv.1)
  | tupleStruct name ops =>
    obtain ⟨it, hit, ha, hsh⟩ := hme
    obtain ⟨hn1, _⟩ := saneModels_tuple models hS name ops hm
    have hf1 : saneStr (natStr it.1) = true := List.all_eq_true.mpr (natStr_ok it.1)
    cases hsh with
    | inl h1 =>
      left
      rw [h1.2]
      exact fieldLabel_hasSub name (natStr it.1) hn1 hf1
    | inr h1 => exact absurd h1.1 (sane_ne_fieldLabel u hu name (natStr it.1))

theorem succ_of_caseVertex (models : List TopLevelSpec) (hS : saneModels models = true)
    (name c0 : String) (k : Nat) (hn : saneStr name = true) (hc : saneStr c0 = true)
    (v : String)
    (hv : v ∈ (buildGraph models).successors (name ++ "::" ++ c0 ++ "#" ++ natStr k)) :
    saneStr v = true := by
  obtain ⟨m, hm, hme⟩ := mem_successors_buildGraph models _ v hv
  cases m with
  | enumSpec name2 cs =>
    obtain ⟨kc, op, hkc, hop, ha, hsh⟩ := hme
    obtain ⟨hkcm, _⟩ := List.mem_filter.mp hkc
    obtain ⟨hn2, hkcprops⟩ := saneModels_enum models hS name2 cs hm
    obtain ⟨_, hopsane⟩ := hkcprops kc hkcm
    cases hsh with
    | inl h1 => exact absurd h1.1.symm (sane_ne_caseLabel name2 hn2 name c0 k)
    | inr h1 =>
      rw [h1.2]
      exact resolveType_sane op (hopsane op hop)
  | structSpec name2 fs =>
    obtain ⟨kv, hkv, ha, hsh⟩ := hme
    obtain ⟨hn2, hkvprops⟩ := saneModels_struct models hS name2 fs hm
    obtain ⟨hf2, hts⟩ := hkvprops kv hkv
    cases hsh with
    | inl h1 => exact absurd h1.1.symm (sane_ne_caseLabel name2 hn2 name c0 k)
    | inr h1 =>
      exact absurd h1.1 (caseLabel_ne_fieldLabel name c0 k name2 kv.1 hn2 hf2)
  | tupleStruct name2 ops =>
    obtain ⟨it, hit, ha, hsh⟩ := hme
    obtain ⟨hn2, hopsane⟩ := saneModels_tuple models hS name2 ops hm
    have hf2 : saneStr (natStr it.1) = true := List.all_eq_true.mpr (natStr_ok it.1)
    cases hsh with
    | inl h1 => exact absurd h1.1.symm (sane_ne_caseLabel name2 hn2 name c0 k)
    | inr h1 =>
      exact absurd h1.1 (caseLabel_ne_fieldLabel name c0 k name2 (natStr it.1) hn2 hf2)

theorem mem_dropLast_cons {α : Type} (w v : α) (rest : List α)
    (h : w ∈ (v :: rest).dropLast) : (w = v ∧ rest ≠ []) ∨ w ∈ rest.dropLast := by
  cases rest with
  | nil => exact absurd h (List.not_mem_nil w)
  | cons r rs =>
    have h2 : w ∈ v :: (r :: rs).dropLast := h
    cases List.mem_cons.mp h2 with
    | inl he => exact Or.inl ⟨he, by simp⟩
    | inr hm => exact Or.inr hm

/-! ### Evaluating the walk step on classified vertices -/

theorem processVertex_case_vertex (st : WalkSt) (v : String)
    (hv : hasSub v "::" = true) :
    processVertex st v = Except.ok (some { st with enumKey := some v }) := by
  unfold processVertex
  rw [if_pos hv]

theorem processVertex_at_case (st : WalkSt) (v : String) (name c0 : String) (k : Nat)
    (hv : hasSub v "::" = false)
    (hek : st.enumKey = some (name ++ "::" ++ c0 ++ "#" ++ natStr k))
    (hn : saneStr name = true) (hc : saneStr c0 = true) :
    processVertex st v =
      (if k ≠ 1 then Except.ok none
       else do
         let t ← getCaseOperand st.models name c0 0
         if t.targetName = some "str" then
           Except.ok (some
             { models := setOperandUnsized st.models name c0 0
               enumKey := none
               typeName := "Box<str>"
               newPath := st.newPath ++ [.hop ⟨name, c0, "Box<str>", t.setUnsized⟩] })
         else
           Except.ok (some
             { models := st.models
               enumKey := none
               typeName := resolveType t true
               newPath := st.newPath ++ [.hop ⟨name, c0, resolveType t true, t⟩] })) := by
  unfold processVertex
  rw [if_neg (show ¬ hasSub v "::" = true from fun hh => by
    rw [hv] at hh
    exact Bool.noConfusion hh)]
  rw [hek]
  show ((match jsSplit (name ++ "::" ++ c0 ++ "#" ++ natStr k) "::" with
    | enumName :: enumValue :: _ =>
      (match jsSplit enumValue "#" with
       | enumCase :: rest =>
         (match rest.head? with
          | none => Except.ok none
          | some idxStr =>
            (match jsParseInt idxStr with
             | none => Except.ok none
             | some kk =>
               if kk ≠ 1 then Except.ok none
               else do
                 let t ← getCaseOperand st.models enumName enumCase 0
                 if t.targetName = some "str" then
                   Except.ok (some
                     { models := setOperandUnsized st.models enumName enumCase 0
                       enumKey := none
                       typeName := "Box<str>"
                       newPath := st.newPath ++
                         [.hop ⟨enumName, enumCase, "Box<str>", t.setUnsized⟩] })
                 else
                   Except.ok (some
                     { models := st.models
                       enumKey := none
                       typeName := resolveType t true
                       newPath := st.newPath ++
                         [.hop ⟨enumName, enumCase, resolveType t true, t⟩] })))
       | [] => Except.error "split")
    | _ => Except.error "split") : Except String (Option WalkSt)) = _
  rw [caseLabel_split2 name c0 k hn hc]
  show ((match jsSplit (c0 ++ "#" ++ natStr k) "#" with
    | enumCase :: rest =>
      (match rest.head? with
       | none => Except.ok none
       | some idxStr =>
         (match jsParseInt idxStr with
          | none => Except.ok none
          | some kk =>
            if kk ≠ 1 then Except.ok none
            else do
              let t ← getCaseOperand st.models name enumCase 0
              if t.targetName = some "str" then
                Except.ok (some
                  { models := setOperandUnsized st.models name enumCase 0
                    enumKey := none
                    typeName := "Box<str>"
                    newPath := st.newPath ++
                      [.hop ⟨name, enumCase, "Box<str>", t.setUnsized⟩] })
              else
                Except.ok (some
                  { models := st.models
                    enumKey := none
                    typeName := resolveType t true
                    newPath := st.newPath ++
                      [.hop ⟨name, enumCase, resolveType t true, t⟩] })))
    | [] => Except.error "split") : Except String (Option WalkSt)) = _
  rw [tailLabel_split c0 k hc]
  show ((match jsParseInt (natStr k) with
    | none => Except.ok none
    | some kk =>
      if kk ≠ 1 then Except.ok none
      else do
        let t ← getCaseOperand st.models name c0 0
        if t.targetName = some "str" then
          Except.ok (some
            { models := setOperandUnsized st.models name c0 0
              enumKey := none
              typeName := "Box<str>"
              newPath := st.newPath ++ [.hop ⟨name, c0, "Box<str>", t.setUnsized⟩] })
        else
          Except.ok (some
            { models := st.models
              enumKey := none
              typeName := resolveType t true
              newPath := st.newPath ++ [.hop ⟨name, c0, resolveType t true, t⟩] })) :
    Except String (Option WalkSt)) = _
  rw [jsParseInt_natStr]

theorem walk_chain (models : List TopLevelSpec)
    (hS : saneModels models = true)
    (hN : (models.map TopLevelSpec.name).Nodup)
    (hC : caseNodups models = true) :
    ∀ (vs : List String) (st : WalkSt) (u : String),
      edgeChainB (buildGraph models) (u :: vs) = true →
      (∀ v ∈ vs, hasSub v "." = false) →
      okTransfer st.models models →
      ((st.enumKey = none ∧ saneStr u = true) ∨
       (st.enumKey = some u ∧ ∃ name cs kc, TopLevelSpec.enumSpec name cs ∈ models ∧
         kc ∈ cs ∧ 1 ≤ kc.2.length ∧ saneStr name = true ∧ saneStr kc.1 = true ∧
         u = name ++ "::" ++ kc.1 ++ "#" ++ natStr kc.2.length)) →
      ∃ ms o, walkPath st vs = Except.ok (ms, o) ∧
        (∀ stF, o = some stF → ∃ adds, stF.newPath = st.newPath ++ adds ∧
          ∀ it ∈ adds, hopOfModels models it) ∧
        (∀ w, (w ∈ vs.dropLast ∨ (st.enumKey = some w ∧ vs ≠ [])) →
          ∀ p c k, decodeCaseVertex w = some (p, c, k) → ¬ k = 1 → o = none) := by
  intro vs
  induction vs with
  | nil =>
    intro st u _ _ _ _
    refine ⟨st.models, some st, rfl, ?_, ?_⟩
    · intro stF he
      injection he with he2
      subst he2
      refine ⟨[], (List.append_nil _).symm, ?_⟩
      intro it hit
      exact absurd hit (List.not_mem_nil it)
    · intro w hw p c k _ _
      cases hw with
      | inl h1 => exact absurd h1 (List.not_mem_nil w)
      | inr h1 => exact absurd rfl h1.2
  | cons v rest ih =>
    intro st u hch hdot hT hstate
    have hch2 : ((buildGraph models).successors u).contains v = true ∧
        edgeChainB (buildGraph models) (v :: rest) = true := by
      have hc2 : (((buildGraph models).successors u).contains v &&
          edgeChainB (buildGraph models) (v :: rest)) = true := hch
      rw [Bool.and_eq_true] at hc2
      exact hc2
    have hvmem : v ∈ (buildGraph models).successors u := by
      have := hch2.1
      exact List.elem_iff.mp this
    have hdotv : hasSub v "." = false := hdot v (List.mem_cons_self v rest)
    have hdotrest : ∀ w ∈ rest, hasSub w "." = false :=
      fun w hw => hdot w (List.mem_cons_of_mem v hw)
    cases hstate with
    | inl hL =>
      obtain ⟨hek, hsu⟩ := hL
      -- the successor of a sane (type) vertex on a dot-free path is a case vertex
      cases succ_of_typeVertex models hS u hsu v hvmem with
      | inl hfield =>
        rw [hfield] at hdotv
        exact Bool.noConfusion hdotv
      | inr hcase =>
        obtain ⟨name, cs, kc, hm, hkc, hlen, hn1, hc1, hveq⟩ := hcase
        have hhs : hasSub v "::" = true := by
          rw [hveq]
          exact caseLabel_hasSub name kc.1 kc.2.length hn1 hc1
        have hpv := processVertex_case_vertex st v hhs
        have hwp : walkPath st (v :: rest) =
            walkPath { st with enumKey := some v } rest := by
          show (processVertex st v >>= fun r =>
            match r with
            | none => Except.ok (st.models, none)
            | some s2 => walkPath s2 rest) = _
          rw [hpv, except_ok_bind]
        obtain ⟨ms, o, hwalk, hshape, harity⟩ := ih { st with enumKey := some v } v
          hch2.2 hdotrest hT
          (Or.inr ⟨rfl, name, cs, kc, hm, hkc, hlen, hn1, hc1, hveq⟩)
        refine ⟨ms, o, by rw [hwp]; exact hwalk, ?_, ?_⟩
        · intro stF he
          exact hshape stF he
        · intro w hw p c k hd hk
          cases hw with
          | inl h1 =>
            cases mem_dropLast_cons w v rest h1 with
            | inl h2 =>
              obtain ⟨hwv, hrne⟩ := h2
              subst hwv
              exact harity w (Or.inr ⟨rfl, hrne⟩) p c k hd hk
            | inr h2 => exact harity w (Or.inl h2) p c k hd hk
          | inr h1 =>
            rw [hek] at h1
            exact Option.noConfusion h1.1
    | inr hR =>
      obtain ⟨hek, name, cs, kc, hm, hkc, hlen, hn1, hc1, hueq⟩ := hR
      have hsv : saneStr v = true := by
        rw [hueq] at hvmem
        exact succ_of_caseVertex models hS name kc.1 kc.2.length hn1 hc1 v hvmem
      have hvns : hasSub v "::" = false := sane_no_colon v hsv
      have hek2 : st.enumKey = some (name ++ "::" ++ kc.1 ++ "#" ++ natStr kc.2.length) := by
        rw [hek, hueq]
      have hpv0 := processVertex_at_case st v name kc.1 kc.2.length hvns hek2 hn1 hc1
      by_cases hk1 : kc.2.length = 1
      · -- arity 1: the walk hops, possibly forcing isSized on a str operand
        rw [if_neg (fun hh => hh hk1)] at hpv0
        obtain ⟨t0, hok0, _⟩ := getCaseOperand_of_entry models hN hC name cs kc hm hkc hlen
        obtain ⟨t, hokT⟩ := hT name kc.1 0 t0 hok0
        have hpv : processVertex st v =
            (if t.targetName = some "str" then
              Except.ok (some
                { models := setOperandUnsized st.models name kc.1 0
                  enumKey := none
                  typeName := "Box<str>"
                  newPath := st.newPath ++ [.hop ⟨name, kc.1, "Box<str>", t.setUnsized⟩] })
            else
              Except.ok (some
                { models := st.models
                  enumKey := none
                  typeName := resolveType t true
                  newPath := st.newPath ++
                    [.hop ⟨name, kc.1, resolveType t true, t⟩] })) := by
          rw [hpv0, hokT, except_ok_bind]
        have hhop : hopOfModels models (.hop ⟨name, kc.1, "Box<str>", t.setUnsized⟩) :=
          ⟨name, cs, kc, hm, hkc, rfl, rfl, hk1⟩
        have hhop2 : hopOfModels models
            (.hop ⟨name, kc.1, resolveType t true, t⟩) :=
          ⟨name, cs, kc, hm, hkc, rfl, rfl, hk1⟩
        by_cases hstr : t.targetName = some "str"
        · rw [if_pos hstr] at hpv
          have hwp : walkPath st (v :: rest) = walkPath
              { models := setOperandUnsized st.models name kc.1 0
                enumKey := none
                typeName := "Box<str>"
                newPath := st.newPath ++ [.hop ⟨name, kc.1, "Box<str>", t.setUnsized⟩] }
              rest := by
            show (processVertex st v >>= fun r =>
              match r with
              | none => Except.ok (st.models, none)
              | some s2 => walkPath s2 rest) = _
            rw [hpv, except_ok_bind]
          obtain ⟨ms, o, hwalk, hshape, harity⟩ := ih
            { models := setOperandUnsized st.models name kc.1 0
              enumKey := none
              typeName := "Box<str>"
              newPath := st.newPath ++ [.hop ⟨name, kc.1, "Box<str>", t.setUnsized⟩] }
            v hch2.2 hdotrest (okTransfer_step st.models models name kc.1 hT)
            (Or.inl ⟨rfl, hsv⟩)
          refine ⟨ms, o, by rw [hwp]; exact hwalk, ?_, ?_⟩
          · intro stF he
            obtain ⟨adds, hnp, hall⟩ := hshape stF he
            refine ⟨PathItem.hop ⟨name, kc.1, "Box<str>", t.setUnsized⟩ :: adds, ?_, ?_⟩
            · rw [hnp]
              show (st.newPath ++ [PathItem.hop ⟨name, kc.1, "Box<str>", t.setUnsized⟩])
                ++ adds = _
              rw [List.append_assoc]
              rfl
            · intro it hit
              cases List.mem_cons.mp hit with
              | inl he2 =>
                subst he2
                exact hhop
              | inr he2 => exact hall it he2
          · intro w hw p c k hd hk
            cases hw with
            | inl h1 =>
              cases mem_dropLast_cons w v rest h1 with
              | inl h2 =>
                obtain ⟨hwv, _⟩ := h2
                subst hwv
                rw [sane_decode_none w hsv] at hd
                exact Option.noConfusion hd
              | inr h2 => exact harity w (Or.inl h2) p c k hd hk
            | inr h1 =>
              rw [hek] at h1
              injection h1.1 with hwu
              subst hwu
              rw [hueq, caseLabel_decode name kc.1 kc.2.length hn1 hc1] at hd
              injection hd with hd2
              injection hd2 with hp hd3
              injection hd3 with hc3 hk3
              exact absurd (hk3 ▸ hk1 : k = 1) hk
        · rw [if_neg hstr] at hpv
          have hwp : walkPath st (v :: rest) = walkPath
              { models := st.models
                enumKey := none
                typeName := resolveType t true
                newPath := st.newPath ++ [.hop ⟨name, kc.1, resolveType t true, t⟩] }
              rest := by
            show (processVertex st v >>= fun r =>
              match r with
              | none => Except.ok (st.models, none)
              | some s2 => walkPath s2 rest) = _
            rw [hpv, except_ok_bind]
          obtain ⟨ms, o, hwalk, hshape, harity⟩ := ih
            { models := st.models
              enumKey := none
              typeName := resolveType t true
              newPath := st.newPath ++ [.hop ⟨name, kc.1, resolveType t true, t⟩] }
            v hch2.2 hdotrest hT (Or.inl ⟨rfl, hsv⟩)
          refine ⟨ms, o, by rw [hwp]; exact hwalk, ?_, ?_⟩
          · intro stF he
            obtain ⟨adds, hnp, hall⟩ := hshape stF he
            refine ⟨PathItem.hop ⟨name, kc.1, resolveType t true, t⟩ :: adds, ?_, ?_⟩
            · rw [hnp]
              show (st.newPath ++ [PathItem.hop ⟨name, kc.1, resolveType t true, t⟩])
                ++ adds = _
              rw [List.append_assoc]
              rfl
            · intro it hit
              cases List.mem_cons.mp hit with
              | inl he2 =>
                subst he2
                exact hhop2
              | inr he2 => exact hall it he2
          · intro w hw p c k hd hk
            cases hw with
            | inl h1 =>
              cases mem_dropLast_cons w v rest h1 with
              | inl h2 =>
                obtain ⟨hwv, _⟩ := h2
                subst hwv
                rw [sane_decode_none w hsv] at hd
                exact Option.noConfusion hd
              | inr h2 => exact harity w (Or.inl h2) p c k hd hk
            | inr h1 =>
              rw [hek] at h1
              injection h1.1 with hwu
              subst hwu
              rw [hueq, caseLabel_decode name kc.1 kc.2.length hn1 hc1] at hd
              injection hd with hd2
              injection hd2 with hp hd3
              injection hd3 with hc3 hk3
              exact absurd (hk3 ▸ hk1 : k = 1) hk
      · -- arity ≠ 1: the walk rejects the path
        rw [if_pos hk1] at hpv0
        have hwp : walkPath st (v :: rest) = Except.ok (st.models, none) := by
          show (processVertex st v >>= fun r =>
            match r with
            | none => Except.ok (st.models, none)
            | some s2 => walkPath s2 rest) = _
          rw [hpv0, except_ok_bind]
        refine ⟨st.models, none, hwp, ?_, ?_⟩
        · intro stF he
          exact Option.noConfusion he
        · intro w _ p c k _ _
          rfl

theorem getLast?_none {α : Type} : ∀ (l : List α), l.getLast? = none → l = [] := by
  intro l
  induction l with
  | nil => intro _; rfl
  | cons x xs ih =>
    intro h
    cases xs with
    | nil => exact Option.noConfusion h
    | cons y ys =>
      have h2 : (y :: ys).getLast? = none := h
      exact absurd (ih h2) (by simp)

theorem getLast?_mem {α : Type} : ∀ (l : List α) (a : α), l.getLast? = some a → a ∈ l := by
  intro l
  induction l with
  | nil =>
    intro a h
    exact Option.noConfusion h
  | cons x xs ih =>
    intro a h
    cases xs with
    | nil =>
      have h2 : some x = some a := h
      injection h2 with h3
      rw [← h3]
      exact List.mem_cons_self x []
    | cons y ys =>
      have h2 : (y :: ys).getLast? = some a := h
      exact List.mem_cons_of_mem x (ih a h2)

theorem get?_mem_dropLast {α : Type} : ∀ (l : List α) (i : Nat) (v : α),
    l.get? i = some v → i + 1 < l.length → v ∈ l.dropLast := by
  intro l
  induction l with
  | nil =>
    intro i v h _
    exact Option.noConfusion h
  | cons a l ih =>
    intro i v h hlt
    cases l with
    | nil =>
      simp only [List.length_cons, List.length_nil] at hlt
      omega
    | cons b l2 =>
      cases i with
      | zero =>
        have h2 : some a = some v := h
        injection h2 with h3
        rw [← h3]
        exact List.mem_cons_self a _
      | succ i =>
        have h2 : (b :: l2).get? i = some v := h
        have hlt2 : i + 1 < (b :: l2).length := by
          simp only [List.length_cons] at hlt ⊢
          omega
        exact List.mem_cons_of_mem a (ih i v h2 hlt2)

theorem processPath_guard_reject (models : List TopLevelSpec) (path : List String)
    (lastV : String) (hl : path.getLast? = some lastV)
    (hcond : (hasSub lastV "::" || path.any fun x => hasSub x ".") = true) :
    processPath models path = Except.ok (models, none) := by
  unfold processPath
  rw [hl]
  show (if (hasSub lastV "::" || path.any fun x => hasSub x ".") = true then
    Except.ok (models, none) else _) = Except.ok (models, none)
  rw [if_pos hcond]

/-- C3: on a dot-free inspection, a candidate path that follows the edges of
    the built reference graph out of a sane type vertex is rejected by the
    post-processing whenever its terminal vertex is a case vertex, or any
    vertex on it is a record-field/tuple-operand vertex, or a non-terminal
    case vertex on it decodes to an operand count other than 1; every
    retained path is collapsed to single-operand sum-case hops and ends at a
    type vertex (its terminal vertex carries neither `::` nor `.`). Sane
    means the user-controlled names are free of the `:` `.` `#` label
    punctuation, model names are distinct, and case names are distinct per
    sum. -/
theorem c3_path_filter (models : List TopLevelSpec) (src : String) (path : List String)
    (hS : saneModels models = true)
    (hN : (models.map TopLevelSpec.name).Nodup)
    (hC : caseNodups models = true)
    (hch : edgeChainB (buildGraph models) (src :: path) = true)
    (hsrc : saneStr src = true) :
    (∀ lastV, path.getLast? = some lastV → hasSub lastV "::" = true →
      processPath models path = Except.ok (models, none)) ∧
    (∀ v ∈ path, hasSub v "." = true →
      processPath models path = Except.ok (models, none)) ∧
    (∀ i v p c k, path.get? i = some v → i + 1 < path.length →
      decodeCaseVertex v = some (p, c, k) → ¬ k = 1 →
      ∃ ms, processPath models path = Except.ok (ms, none)) ∧
    (∀ ms tn items, processPath models path = Except.ok (ms, some (tn, items)) →
      (∀ it ∈ items, hopOfModels models it) ∧
      ∀ lastV, path.getLast? = some lastV →
        hasSub lastV "::" = false ∧ hasSub lastV "." = false) := by
  refine ⟨?_, ?_, ?_, ?_⟩
  · intro lastV hl hc2
    exact processPath_guard_reject models path lastV hl (by rw [hc2]; rfl)
  · intro v hv hdot
    cases hl : path.getLast? with
    | none =>
      rw [getLast?_none path hl] at hv
      exact absurd hv (List.not_mem_nil v)
    | some lastV =>
      refine processPath_guard_reject models path lastV hl ?_
      have hany : (path.any fun x => hasSub x ".") = true :=
        List.any_eq_true.mpr ⟨v, hv, hdot⟩
      rw [hany, Bool.or_true]
  · intro i v p c k hgi hlt hd hk
    cases hany : path.any (fun x => hasSub x ".") with
    | true =>
      obtain ⟨w, hw, hwd⟩ := List.any_eq_true.mp hany
      cases hl : path.getLast? with
      | none =>
        rw [getLast?_none path hl] at hw
        exact absurd hw (List.not_mem_nil w)
      | some lastV =>
        exact ⟨models, processPath_guard_reject models path lastV hl
          (by rw [hany, Bool.or_true])⟩
    | false =>
      have hdots : ∀ w ∈ path, hasSub w "." = false := by
        intro w hw
        cases hww : hasSub w "." with
        | false => rfl
        | true =>
          have hcontr : path.any (fun x => hasSub x ".") = true :=
            List.any_eq_true.mpr ⟨w, hw, hww⟩
          rw [hcontr] at hany
          exact Bool.noConfusion hany
      cases hl : path.getLast? with
      | none =>
        rw [getLast?_none path hl] at hgi
        exact Option.noConfusion hgi
      | some lastV =>
        by_cases hlast : hasSub lastV "::" = true
        · exact ⟨models, processPath_guard_reject models path lastV hl
            (by rw [hlast]; rfl)⟩
        · have hlastf : hasSub lastV "::" = false := eq_false_of_not_true _ hlast
          obtain ⟨ms, o, hwalk, _, harity⟩ := walk_chain models hS hN hC path
            ⟨models, none, "", []⟩ src hch hdots (okTransfer_refl models)
            (Or.inl ⟨rfl, hsrc⟩)
          have hvdrop : v ∈ path.dropLast := get?_mem_dropLast path i v hgi hlt
          have ho : o = none := harity v (Or.inl hvdrop) p c k hd hk
          subst ho
          refine ⟨ms, ?_⟩
          unfold processPath
          rw [hl]
          show (if (hasSub lastV "::" || path.any fun x => hasSub x ".") = true then
              Except.ok (models, none)
            else walkPath ⟨models, none, "", []⟩ path >>= fun r =>
              match r.2 with
              | none => Except.ok (r.1, none)
              | some st => Except.ok (st.models, some (st.typeName, st.newPath)))
            = Except.ok (ms, none)
          rw [if_neg (show ¬ (hasSub lastV "::" ||
              path.any fun x => hasSub x ".") = true from fun hh => by
            rw [hlastf, hany] at hh
            exact Bool.noConfusion hh)]
          rw [hwalk, except_ok_bind]
  · intro ms tn items hret
    have hterm : ∃ lastV, path.getLast? = some lastV ∧
        (hasSub lastV "::" || path.any fun x => hasSub x ".") = false := by
      cases hl : path.getLast? with
      | none =>
        unfold processPath at hret
        rw [hl] at hret
        injection hret with h1
        injection h1 with _ h3
        exact Option.noConfusion h3
      | some lastV =>
        refine ⟨lastV, rfl, ?_⟩
        cases hcond : (hasSub lastV "::" || path.any fun x => hasSub x ".") with
        | true =>
          have := processPath_guard_reject models path lastV hl hcond
          rw [this] at hret
          injection hret with h1
          injection h1 with _ h3
          exact Option.noConfusion h3
        | false => rfl
    obtain ⟨lastV, hl, hcond⟩ := hterm
    rw [Bool.or_eq_false_iff] at hcond
    obtain ⟨hlastf, hany⟩ := hcond
    have hdots : ∀ w ∈ path, hasSub w "." = false := by
      intro w hw
      cases hww : hasSub w "." with
      | false => rfl
      | true =>
        have hcontr : path.any (fun x => hasSub x ".") = true :=
          List.any_eq_true.mpr ⟨w, hw, hww⟩
        rw [hcontr] at hany
        exact Bool.noConfusion hany
    obtain ⟨ms2, o, hwalk, hshape, _⟩ := walk_chain models hS hN hC path
      ⟨models, none, "", []⟩ src hch hdots (okTransfer_refl models)
      (Or.inl ⟨rfl, hsrc⟩)
    have hret2 : (walkPath ⟨models, none, "", []⟩ path >>= fun r =>
        match r.2 with
        | none => Except.ok (r.1, none)
        | some st => Except.ok (st.models, some (st.typeName, st.newPath)))
        = Except.ok (ms, some (tn, items)) := by
      unfold processPath at hret
      rw [hl] at hret
      have hret3 : (if (hasSub lastV "::" || path.any fun x => hasSub x ".") = true then
          Except.ok (models, none)
        else walkPath ⟨models, none, "", []⟩ path >>= fun r =>
          match r.2 with
          | none => Except.ok (r.1, none)
          | some st => Except.ok (st.models, some (st.typeName, st.newPath)))
          = Except.ok (ms, some (tn, items)) := hret
      rw [if_neg (show ¬ (hasSub lastV "::" ||
          path.any fun x => hasSub x ".") = true from fun hh => by
        rw [hlastf, hany] at hh
        exact Bool.noConfusion hh)] at hret3
      exact hret3
    rw [hwalk, except_ok_bind] at hret2
    cases o with
    | none =>
      injection hret2 with h1
      injection h1 with _ h3
      exact Option.noConfusion h3
    | some stF =>
      injection hret2 with h1
      injection h1 with h2 h3
      injection h3 with h4
      injection h4 with h5 h6
      obtain ⟨adds, hnp, hall⟩ := hshape stF rfl
      refine ⟨?_, ?_⟩
      · intro it hit
        have hitems : items = adds := by
          rw [← h6, hnp]
          rfl
        rw [hitems] at hit
        exact hall it hit
      · intro lastV2 hl2
        rw [hl] at hl2
        injection hl2 with hlv
        subst hlv
        exact ⟨hlastf, hdots lastV (getLast?_mem path lastV hl)⟩

/-- Witness for the C3 theorem on the chain A, A::S#1, str of a one-sum
    schema. -/
theorem c3_path_filter_witness :
    (saneModels [TopLevelSpec.enumSpec "A"
        [("S", [TypeSpec.tname "str" false false false true]), ("E", [])]] = true ∧
     (([TopLevelSpec.enumSpec "A"
        [("S", [TypeSpec.tname "str" false false false true]), ("E", [])]].map
          TopLevelSpec.name).Nodup) ∧
     caseNodups [TopLevelSpec.enumSpec "A"
        [("S", [TypeSpec.tname "str" false false false true]), ("E", [])]] = true ∧
     edgeChainB (buildGraph [TopLevelSpec.enumSpec "A"
        [("S", [TypeSpec.tname "str" false false false true]), ("E", [])]])
        ["A", "A::S#1", "str"] = true ∧
     saneStr "A" = true) ∧
    ((∀ lastV, (["A::S#1", "str"] : List String).getLast? = some lastV →
        hasSub lastV "::" = true →
        processPath [TopLevelSpec.enumSpec "A"
          [("S", [TypeSpec.tname "str" false false false true]), ("E", [])]]
          ["A::S#1", "str"] =
          Except.ok ([TopLevelSpec.enumSpec "A"
            [("S", [TypeSpec.tname "str" false false false true]), ("E", [])]], none)) ∧
     (∀ v ∈ (["A::S#1", "str"] : List String), hasSub v "." = true →
        processPath [TopLevelSpec.enumSpec "A"
          [("S", [TypeSpec.tname "str" false false false true]), ("E", [])]]
          ["A::S#1", "str"] =
          Except.ok ([TopLevelSpec.enumSpec "A"
            [("S", [TypeSpec.tname "str" false false false true]), ("E", [])]], none)) ∧
     (∀ i v p c k, (["A::S#1", "str"] : List String).get? i = some v →
        i + 1 < (["A::S#1", "str"] : List String).length →
        decodeCaseVertex v = some (p, c, k) → ¬ k = 1 →
        ∃ ms, processPath [TopLevelSpec.enumSpec "A"
          [("S", [TypeSpec.tname "str" false false false true]), ("E", [])]]
          ["A::S#1", "str"] = Except.ok (ms, none)) ∧
     (∀ ms tn items, processPath [TopLevelSpec.enumSpec "A"
          [("S", [TypeSpec.tname "str" false false false true]), ("E", [])]]
          ["A::S#1", "str"] = Except.ok (ms, some (tn, items)) →
        (∀ it ∈ items, hopOfModels [TopLevelSpec.enumSpec "A"
          [("S", [TypeSpec.tname "str" false false false true]), ("E", [])]] it) ∧
        ∀ lastV, (["A::S#1", "str"] : List String).getLast? = some lastV →
          hasSub lastV "::" = false ∧ hasSub lastV "." = false)) :=
  ⟨⟨by decide, by decide, by decide, by decide, by decide⟩,
   c3_path_filter [TopLevelSpec.enumSpec "A"
      [("S", [TypeSpec.tname "str" false false false true]), ("E", [])]]
     "A" ["A::S#1", "str"] (by decide) (by decide) (by decide) (by decide) (by decide)⟩

/-- C5: a stored (From, To) pair is classified lossless exactly when the
    table also stores a path in the opposite direction (the code's reverse
    lookup is non-null); a successful emission run contains, for every stored
    pair, the From impl always, the TryFrom impl when the pair is lossy, and
    no TryFrom impl carrying the pair's names when it is lossless. -/
theorem c5_lossless_classification (models : List TopLevelSpec) (paths : Paths)
    (out : List EmittedImpl)
    (h : generateCastFns models paths = Except.ok out) :
    ∀ fromKey inner, (fromKey, inner) ∈ paths →
      ∀ toKey items, (toKey, items) ∈ inner →
        ∃ fromType specs,
          findModel models fromKey = some fromType ∧
          itemsToSpecs items = Except.ok specs ∧
          EmittedImpl.fromImpl fromKey toKey (castLoop specs).2 ∈ out ∧
          ((lookup2 paths toKey fromKey).isSome = false →
            EmittedImpl.tryFromImpl fromKey toKey (castLoop specs).1 ∈ out) ∧
          ((lookup2 paths toKey fromKey).isSome = true →
            ∀ body, EmittedImpl.tryFromImpl fromKey toKey body ∉ out) := by
  intro fromKey inner hmemO toKey items hmemI
  have h0 : paths.foldlM (fun acc kv =>
      kv.2.foldlM (fun acc kv2 => do
        let fromType ←
          match findModel models kv.1 with
          | some m => Except.ok m
          | none => Except.error ("From type should not be null: " ++ kv.1)
        let toName :=
          match findModel models kv2.1 with
          | some m => m.name
          | none => kv2.1
        let isLossless := (lookup2 paths kv2.1 kv.1).isSome
        let outs ← generateCastFn fromType.name toName kv2.2 isLossless
        Except.ok (acc ++ outs)) acc) [] = Except.ok out := h
  obtain ⟨rest, hout, hfwd, hbwd⟩ := foldlM_append_shape _
    (fun kv : String × List (String × List PathItem) =>
      kv.2.foldlM (fun acc kv2 => do
        let fromType ←
          match findModel models kv.1 with
          | some m => Except.ok m
          | none => Except.error ("From type should not be null: " ++ kv.1)
        let toName :=
          match findModel models kv2.1 with
          | some m => m.name
          | none => kv2.1
        let isLossless := (lookup2 paths kv2.1 kv.1).isSome
        let outs ← generateCastFn fromType.name toName kv2.2 isLossless
        Except.ok (acc ++ outs)) [])
    (fun acc kv => foldlM_append_translate _ _
      (fun acc2 kv2 => castFns_inner_shape models paths kv.1 acc2 kv2) kv.2 acc)
    paths [] out h0
  obtain ⟨outsOuter, hgOut, hsubOuter⟩ := hfwd (fromKey, inner) hmemO
  obtain ⟨rest2, houter2, hfwd2, _⟩ := foldlM_append_shape _
    (fun kv2 : String × List PathItem =>
      (match findModel models fromKey with
       | some m => Except.ok m
       | none => Except.error ("From type should not be null: " ++ fromKey)) >>=
        fun fromType =>
      generateCastFn fromType.name
        (match findModel models kv2.1 with | some m => m.name | none => kv2.1)
        kv2.2 ((lookup2 paths kv2.1 fromKey).isSome))
    (fun acc2 kv2 => castFns_inner_shape models paths fromKey acc2 kv2)
    inner [] outsOuter hgOut
  obtain ⟨outsPair, hgPair, hsubPair⟩ := hfwd2 (toKey, items) hmemI
  obtain ⟨fromType, hft, hgen⟩ := except_bind_ok _ _ _ hgPair
  have hfm : findModel models fromKey = some fromType :=
    fromMatch_ok models fromKey fromType hft
  have hname : fromType.name = fromKey := findModel_name models fromKey fromType hfm
  obtain ⟨specs, hspecs, houts⟩ := generateCastFn_ok _ _ _ _ _ hgen
  have hspecs2 : itemsToSpecs items = Except.ok specs := hspecs
  have houtsF : outsPair = (if (lookup2 paths toKey fromKey).isSome then
      [EmittedImpl.fromImpl fromType.name
        (match findModel models toKey with | some m => m.name | none => toKey)
        (castLoop specs).2]
    else [EmittedImpl.tryFromImpl fromType.name
        (match findModel models toKey with | some m => m.name | none => toKey)
        (castLoop specs).1,
      EmittedImpl.fromImpl fromType.name
        (match findModel models toKey with | some m => m.name | none => toKey)
        (castLoop specs).2]) := houts
  rw [hname, toName_eq models toKey] at houtsF
  have hmemOut : ∀ e, e ∈ outsPair → e ∈ out := by
    intro e he
    rw [hout]
    exact hsubOuter e (by rw [houter2]; exact hsubPair e he)
  refine ⟨fromType, specs, hfm, hspecs2, ?_, ?_, ?_⟩
  · apply hmemOut
    rw [houtsF]
    cases hLL : (lookup2 paths toKey fromKey).isSome with
    | true => simp
    | false => simp
  · intro hL
    apply hmemOut
    rw [houtsF]
    simp [hL]
  · intro hL body hbody
    have hbody2 : EmittedImpl.tryFromImpl fromKey toKey body ∈ rest := by
      rw [hout] at hbody
      exact hbody
    obtain ⟨kv, _, outsOuter2, hgOut2, he2⟩ := hbwd _ hbody2
    obtain ⟨rest3, houter3, _, hbwd3⟩ := foldlM_append_shape _
      (fun kv2 : String × List PathItem =>
        (match findModel models kv.1 with
         | some m => Except.ok m
         | none => Except.error ("From type should not be null: " ++ kv.1)) >>=
          fun fromType =>
        generateCastFn fromType.name
          (match findModel models kv2.1 with | some m => m.name | none => kv2.1)
          kv2.2 ((lookup2 paths kv2.1 kv.1).isSome))
      (fun acc2 kv2 => castFns_inner_shape models paths kv.1 acc2 kv2)
      kv.2 [] outsOuter2 hgOut2
    have he3 : EmittedImpl.tryFromImpl fromKey toKey body ∈ rest3 := by
      rw [houter3] at he2
      exact he2
    obtain ⟨kv2, _, outsPair2, hgPair2, heP⟩ := hbwd3 _ he3
    obtain ⟨fromType2, hft2, hgen2⟩ := except_bind_ok _ _ _ hgPair2
    have hfm2 : findModel models kv.1 = some fromType2 :=
      fromMatch_ok models kv.1 fromType2 hft2
    have hname2 : fromType2.name = kv.1 := findModel_name models kv.1 fromType2 hfm2
    obtain ⟨specs2, _, houts2⟩ := generateCastFn_ok _ _ _ _ _ hgen2
    have houtsF2 : outsPair2 = (if (lookup2 paths kv2.1 kv.1).isSome then
        [EmittedImpl.fromImpl fromType2.name
          (match findModel models kv2.1 with | some m => m.name | none => kv2.1)
          (castLoop specs2).2]
      else [EmittedImpl.tryFromImpl fromType2.name
          (match findModel models kv2.1 with | some m => m.name | none => kv2.1)
          (castLoop specs2).1,
        EmittedImpl.fromImpl fromType2.name
          (match findModel models kv2.1 with | some m => m.name | none => kv2.1)
          (castLoop specs2).2]) := houts2
    rw [hname2, toName_eq models kv2.1] at houtsF2
    rw [houtsF2] at heP
    cases hLL : (lookup2 paths kv2.1 kv.1).isSome with
    | true =>
      rw [hLL] at heP
      simp at heP
    | false =>
      rw [hLL] at heP
      simp at heP
      obtain ⟨hKK, hTT, _⟩ := heP
      rw [hKK, hTT] at hL
      rw [hLL] at hL
      exact Bool.noConfusion hL

/-- Witness for the C5 theorem at the concrete lossy pair (A, u8). -/
theorem c5_lossless_classification_witness :
    generateCastFns c5models c5paths = Except.ok c5out ∧
    (∀ fromKey inner, (fromKey, inner) ∈ c5paths →
      ∀ toKey items, (toKey, items) ∈ inner →
        ∃ fromType specs,
          findModel c5models fromKey = some fromType ∧
          itemsToSpecs items = Except.ok specs ∧
          EmittedImpl.fromImpl fromKey toKey (castLoop specs).2 ∈ c5out ∧
          ((lookup2 c5paths toKey fromKey).isSome = false →
            EmittedImpl.tryFromImpl fromKey toKey (castLoop specs).1 ∈ c5out) ∧
          ((lookup2 c5paths toKey fromKey).isSome = true →
            ∀ body, EmittedImpl.tryFromImpl fromKey toKey body ∉ c5out)) :=
  ⟨rfl, c5_lossless_classification c5models c5paths c5out rfl⟩

/-- Witness for the amended C7 theorem at the concrete c7inp pipeline run. -/
theorem c7_mutation_frame_amended_witness :
    pipeline c7inp = Except.ok (c7postS4, c7paths) ∧
    ∃ models mid,
      parseModels c7inp = Except.ok models ∧
      applyCycles models (findCycles (buildGraph models)) = Except.ok mid ∧
      normB mid = normB models ∧ normS c7postS4 = normS mid :=
  ⟨rfl, c7_mutation_frame_amended c7inp c7postS4 c7paths rfl⟩

end Modelgen
